import Mathlib

/-!
# Fair_Polyhedron_3 (fair_impl.h)

A shallow embedding of the surface fairing core of
`CGAL/Polygon_mesh_processing/internal/fair_impl.h`.

Conventions of the embedding.

* `double` arithmetic is exact: every real quantity is a rational number.
* `vertex_descriptor` and `halfedge_descriptor` are natural numbers, ordered
  as the keys of `std::set` and `std::map` are.
* A `std::set<vertex_descriptor>` is the strictly increasing list of its
  elements, which is also its iteration order.
* A `std::map<vertex_descriptor, std::size_t>` is a finite lookup function.
* Counters and indices (`int i`, `int freq`, `std::size_t id`, `int row_id`)
  are unbounded integers: a set of vertices in memory has far fewer than
  `2^31` elements.  The one place where the width of an integer decides the
  control flow, `static_cast<int>(fc) + 1`, is modelled with 32 bit
  wrap-around.
* Evaluating `i % freq` with `freq = 0` is a fault: the call does not return.
-/

namespace Fair_Polyhedron_3

/-! ## Collaborators: mesh, weights, sparse matrix, solver -/

abbrev vertex_descriptor := Nat

abbrev halfedge_descriptor := Nat

/-- A point with three exact coordinates (`Point_3`). -/
structure Point_3 where
  x : ℚ
  y : ℚ
  z : ℚ
deriving DecidableEq

/-- The part of the `PolygonMesh` concept that the fairing code reads.
`halfedge v` is `halfedge(v, pmesh)`, the halfedge a circulator around `v`
starts from; `next_around_target v` lists the halfedges that `++circ` yields
before the circulator is back at its start, in that order. -/
structure PolygonMesh where
  vertices : List vertex_descriptor
  halfedge : vertex_descriptor → halfedge_descriptor
  next_around_target : vertex_descriptor → List halfedge_descriptor
  opposite : halfedge_descriptor → halfedge_descriptor
  target : halfedge_descriptor → vertex_descriptor

/-- The halfedges visited by
`circ(halfedge(v,pmesh),pmesh), done(circ); do ... while(++circ != done)`:
the body runs for the start halfedge and then for every further halfedge. -/
def halfedges_around_target (pmesh : PolygonMesh) (v : vertex_descriptor) :
    List halfedge_descriptor :=
  pmesh.halfedge v :: pmesh.next_around_target v

/-- The `WeightCalculator` parameter: fixed weight functions. -/
structure WeightCalculator where
  w_i : vertex_descriptor → ℚ
  w_ij : halfedge_descriptor → ℚ

/-- The `Solver_matrix` type: a square matrix of the given dimension. -/
structure Solver_matrix where
  dimension : Nat
  coef : Nat → Nat → ℚ

/-- The `Solver_vector` type. -/
structure Solver_vector where
  dimension : Nat
  coef : Nat → ℚ

/-- Modelled from the spec: the constructor `Solver_matrix A(n)` of the sparse
matrix type, which is not part of the sources at hand; a fresh matrix has no
coefficient set. -/
def Solver_matrix.create (n : Nat) : Solver_matrix :=
  ⟨n, fun _ _ => 0⟩

/-- Modelled from the spec: `matrix.add_coef(i, j, val)` of the sparse matrix
type, which is not part of the sources at hand; coefficient insertion is
additive (it accumulates into the existing entry). -/
def Solver_matrix.add_coef (matrix : Solver_matrix) (i j : Nat) (val : ℚ) :
    Solver_matrix :=
  ⟨matrix.dimension,
    fun r c => if r = i ∧ c = j then matrix.coef r c + val else matrix.coef r c⟩

/-- Modelled from the spec: the constructor `Solver_vector X(n)` of the vector
type, which is not part of the sources at hand; a fresh vector is zero. -/
def Solver_vector.create (n : Nat) : Solver_vector :=
  ⟨n, fun _ => 0⟩

/-- Assignment through the reference `B[i]`. -/
def Solver_vector.set (B : Solver_vector) (i : Nat) (val : ℚ) : Solver_vector :=
  ⟨B.dimension, fun k => if k = i then val else B.coef k⟩

/-- The `SparseLinearSolver` parameter, an external collaborator with a
private state of type `σ`.  `factor s A` is `m_solver.factor(A, D)` and
returns the success flag, `D` and the next state; `linear_solver s B X` is
`m_solver.linear_solver(B, X)` and returns the success flag, the new content
of `X` and the next state. -/
structure Sparse_linear_solver (σ : Type) where
  factor : σ → Solver_matrix → (Bool × ℚ) × σ
  linear_solver : σ → Solver_vector → Solver_vector → (Bool × Solver_vector) × σ

/-- The property map `ppmap` from vertices to points. -/
abbrev VertexPointMap := vertex_descriptor → Point_3

/-- A `std::map<vertex_descriptor, std::size_t>`. -/
abbrev Vertex_id_map := vertex_descriptor → Option Nat

/-- The member `insert(std::make_pair(k, id))` of `std::map`: a key that is
present keeps its value and the flag is false. -/
def Vertex_id_map.insert (m : Vertex_id_map) (k : vertex_descriptor) (id : Nat) :
    Vertex_id_map × Bool :=
  match m k with
  | some _ => (m, false)
  | none => (fun u => if u = k then some id else m u, true)

/-- The member `operator[]` of `std::map`: a key that is absent is inserted
with the value 0. -/
def Vertex_id_map.index (m : Vertex_id_map) (k : vertex_descriptor) :
    Vertex_id_map × Nat :=
  match m k with
  | some id => (m, id)
  | none => (fun u => if u = k then some 0 else m u, 0)

/-- Insertion of one key into a `std::set` (a strictly increasing list). -/
def set_insert (v : vertex_descriptor) : List vertex_descriptor → List vertex_descriptor
  | [] => [v]
  | a :: s => if v < a then v :: a :: s else if v = a then a :: s else a :: set_insert v s

/-- The range constructor
`std::set<vertex_descriptor>(boost::begin(vertices), boost::end(vertices))`. -/
def set_of_range (vertices : List vertex_descriptor) : List vertex_descriptor :=
  vertices.foldl (fun s v => set_insert v s) []

/-! ## The private members of `Fair_Polyhedron_3` -/

/-- The member `sum_weight`. -/
def sum_weight (pmesh : PolygonMesh) (weight_calculator : WeightCalculator)
    (v : vertex_descriptor) : ℚ :=
  (halfedges_around_target pmesh v).foldl
    (fun weight h => weight + weight_calculator.w_ij h) 0

/-- The objects that `compute_row` updates through references. -/
structure Row_state where
  matrix : Solver_matrix
  x : ℚ
  y : ℚ
  z : ℚ

/-- The member `compute_row`, by recursion on `depth`. -/
def compute_row (pmesh : PolygonMesh) (weight_calculator : WeightCalculator)
    (ppmap : VertexPointMap) (vertex_id_map : Vertex_id_map) (row_id : Nat) :
    (depth : Nat) → (v : vertex_descriptor) → (multiplier : ℚ) → Row_state → Row_state
  | 0, v, multiplier, st =>
    match vertex_id_map v with
    | some col_id =>
      { st with matrix := st.matrix.add_coef row_id col_id multiplier }
    | none =>
      let p := ppmap v
      { st with
        x := st.x + multiplier * -p.x
        y := st.y + multiplier * -p.y
        z := st.z + multiplier * -p.z }
  | depth + 1, v, multiplier, st =>
    let w_i := weight_calculator.w_i v
    let st1 := (halfedges_around_target pmesh v).foldl
      (fun s h =>
        let w_i_w_ij := w_i * weight_calculator.w_ij h
        let nv := pmesh.target (pmesh.opposite h)
        compute_row pmesh weight_calculator ppmap vertex_id_map row_id depth nv
          (-w_i_w_ij * multiplier) s)
      st
    let w_i_w_ij_sum := w_i * sum_weight pmesh weight_calculator v
    compute_row pmesh weight_calculator ppmap vertex_id_map row_id depth v
      (w_i_w_ij_sum * multiplier) st1

/-- The member `fair_all_mesh`: the two ranges have the same length. -/
def fair_all_mesh (pmesh : PolygonMesh) (vr : List vertex_descriptor) : Bool :=
  vr.length == pmesh.vertices.length

/-- Ways in which a call can end without returning. -/
inductive Fault where
  | assertion_violation
  | division_by_zero
deriving DecidableEq

/-- The loop of `remove_vertices`.  The second argument is the counter `i`,
the third the elements that the iterator `vit` has still to visit, the last
the current content of the set.  Neither `i` nor `freq` is negative, so the
remainder of C++ and the remainder used here agree; the remainder by 0 is a
fault. -/
def remove_vertices_loop (freq : Int) :
    Int → List vertex_descriptor → List vertex_descriptor →
      Except Fault (List vertex_descriptor)
  | _, [], vertices => .ok vertices
  | i, vd :: rest, vertices =>
    if freq = 0 then .error .division_by_zero
    else if i % freq = 0 then remove_vertices_loop freq (i + 1) rest (vertices.erase vd)
    else remove_vertices_loop freq (i + 1) rest vertices

/-- The member `remove_vertices`. -/
def remove_vertices (vertices : List vertex_descriptor) (percent : ℚ) :
    Except Fault (List vertex_descriptor) :=
  if ¬ (percent ≥ 1 / 10 ∧ percent < 100) then .error .assertion_violation
  else
    let freq : Int := Rat.floor (1 / 100 * percent * (vertices.length : ℚ))
    remove_vertices_loop freq 1 vertices vertices

/-! ## The public member `fair` -/

/-- The conversion `static_cast<int>(fc)` of a 32 bit unsigned value. -/
def static_cast_int (fc : Nat) : Int :=
  if fc % 2 ^ 32 < 2 ^ 31 then ((fc % 2 ^ 32 : Nat) : Int)
  else ((fc % 2 ^ 32 : Nat) : Int) - 2 ^ 32

/-- Addition of 32 bit signed integers with wrap-around. -/
def int_add_wrap (a b : Int) : Int :=
  (a + b + 2 ^ 31) % 2 ^ 32 - 2 ^ 31

/-- The local `depth` of `fair`: `static_cast<int>(fc) + 1`. -/
def fair_depth (fc : Nat) : Int :=
  int_add_wrap (static_cast_int fc) 1

/-- The set `interior_vertices` as it stands when the system is assembled:
the set of the range, pruned by `remove_vertices` when `fair_all_mesh`
holds. -/
def interior_vertices (pmesh : PolygonMesh) (vertices : List vertex_descriptor) :
    Except Fault (List vertex_descriptor) :=
  if fair_all_mesh pmesh vertices then remove_vertices (set_of_range vertices) 10
  else .ok (set_of_range vertices)

/-- The loop that fills `vertex_id_map`; `none` is the early return after
"Duplicate vertex is found!". -/
def build_vertex_id_map :
    List vertex_descriptor → Nat → Vertex_id_map → Option Vertex_id_map
  | [], _, vertex_id_map => some vertex_id_map
  | vd :: rest, id, vertex_id_map =>
    match vertex_id_map.insert vd id with
    | (_, false) => none
    | (m, true) => build_vertex_id_map rest (id + 1) m

/-- The linear system under construction. -/
structure Linear_system where
  vertex_id_map : Vertex_id_map
  A : Solver_matrix
  Bx : Solver_vector
  By : Solver_vector
  Bz : Solver_vector

/-- The loop that assembles one row per interior vertex. -/
def assemble_rows (pmesh : PolygonMesh) (weight_calculator : WeightCalculator)
    (ppmap : VertexPointMap) (depth : Nat) :
    List vertex_descriptor → Linear_system → Linear_system
  | [], sys => sys
  | vd :: rest, sys =>
    let (m, v_id) := sys.vertex_id_map.index vd
    let st := compute_row pmesh weight_calculator ppmap m v_id depth vd 1
      ⟨sys.A, sys.Bx.coef v_id, sys.By.coef v_id, sys.Bz.coef v_id⟩
    assemble_rows pmesh weight_calculator ppmap depth rest
      ⟨m, st.matrix, sys.Bx.set v_id st.x, sys.By.set v_id st.y, sys.Bz.set v_id st.z⟩

/-- The update loop: the counter `id` starts at 0 and the map is not
consulted. -/
def update_positions (X Y Z : Solver_vector) :
    List vertex_descriptor → Nat → VertexPointMap → VertexPointMap
  | [], _, ppmap => ppmap
  | vd :: rest, id, ppmap =>
    update_positions X Y Z rest (id + 1)
      (Function.update ppmap vd ⟨X.coef id, Y.coef id, Z.coef id⟩)

/-- The messages given to `CGAL_warning`. -/
inductive Warning where
  | continuity_out_of_range
  | duplicate_vertex
  | pre_factor_failed
  | linear_solver_failed
deriving DecidableEq

/-- A call made to the solver, with its argument and its success flag. -/
inductive Solver_call where
  | factor (A : Solver_matrix) (ok : Bool)
  | linear_solver (B : Solver_vector) (ok : Bool)

/-- What a call of `fair` that returns leaves behind: the returned flag, the
warning raised, the vertex positions, and the calls made to the solver in
order. -/
structure Fair_outcome where
  result : Bool
  warning : Option Warning
  ppmap : VertexPointMap
  calls : List Solver_call

/-- The part of `fair` from the factorization on. -/
def fair_solve {σ : Type} (solver : Sparse_linear_solver σ) (m_solver : σ)
    (ppmap : VertexPointMap) (interior : List vertex_descriptor)
    (sys : Linear_system) : Fair_outcome :=
  let nb_vertices := interior.length
  let f := solver.factor m_solver sys.A
  if f.1.1 = false then
    ⟨false, some .pre_factor_failed, ppmap, [.factor sys.A false]⟩
  else
    let sx := solver.linear_solver f.2 sys.Bx (Solver_vector.create nb_vertices)
    if sx.1.1 = false then
      ⟨false, some .linear_solver_failed, ppmap,
        [.factor sys.A true, .linear_solver sys.Bx false]⟩
    else
      let sy := solver.linear_solver sx.2 sys.By (Solver_vector.create nb_vertices)
      if sy.1.1 = false then
        ⟨false, some .linear_solver_failed, ppmap,
          [.factor sys.A true, .linear_solver sys.Bx true, .linear_solver sys.By false]⟩
      else
        let sz := solver.linear_solver sy.2 sys.Bz (Solver_vector.create nb_vertices)
        if sz.1.1 = false then
          ⟨false, some .linear_solver_failed, ppmap,
            [.factor sys.A true, .linear_solver sys.Bx true, .linear_solver sys.By true,
              .linear_solver sys.Bz false]⟩
        else
          ⟨true, none, update_positions sx.1.2 sy.1.2 sz.1.2 interior 0 ppmap,
            [.factor sys.A true, .linear_solver sys.Bx true, .linear_solver sys.By true,
              .linear_solver sys.Bz true]⟩

/-- The empty system that `fair` starts the assembly from. -/
def initial_system (vertex_id_map : Vertex_id_map) (nb_vertices : Nat) : Linear_system :=
  ⟨vertex_id_map, Solver_matrix.create nb_vertices, Solver_vector.create nb_vertices,
    Solver_vector.create nb_vertices, Solver_vector.create nb_vertices⟩

/-- The public member `fair`. -/
def fair {σ : Type} (pmesh : PolygonMesh) (weight_calculator : WeightCalculator)
    (ppmap : VertexPointMap) (solver : Sparse_linear_solver σ) (m_solver : σ)
    (vertices : List vertex_descriptor) (fc : Nat) : Except Fault Fair_outcome :=
  let depth := fair_depth fc
  if depth < 0 ∨ depth > 3 then
    .ok ⟨false, some .continuity_out_of_range, ppmap, []⟩
  else if set_of_range vertices = [] then
    .ok ⟨true, none, ppmap, []⟩
  else
    match interior_vertices pmesh vertices with
    | .error e => .error e
    | .ok interior =>
      let nb_vertices := interior.length
      match build_vertex_id_map interior 0 (fun _ => none) with
      | none => .ok ⟨false, some .duplicate_vertex, ppmap, []⟩
      | some vertex_id_map =>
        let sys := assemble_rows pmesh weight_calculator ppmap depth.toNat interior
          (initial_system vertex_id_map nb_vertices)
        .ok (fair_solve solver m_solver ppmap interior sys)

/-! ## Reference functions used to state the properties -/

/-- The elements of a list that are kept when the elements whose position,
counted from `i`, is a multiple of `freq` are dropped. -/
def keep_positions (freq : Int) : Int → List vertex_descriptor → List vertex_descriptor
  | _, [] => []
  | i, vd :: rest =>
    if i % freq = 0 then keep_positions freq (i + 1) rest
    else vd :: keep_positions freq (i + 1) rest

/-- The weighted Laplacian `(L f)(u) = w_i(u) * sum_h w_ij(h) * (f(u) - f(nv(h)))`,
the sum running over the halfedges around `u` and `nv(h)` being the vertex
opposite to `u` along `h`. -/
def laplacian (pmesh : PolygonMesh) (weight_calculator : WeightCalculator)
    (f : vertex_descriptor → ℚ) (u : vertex_descriptor) : ℚ :=
  weight_calculator.w_i u *
    ((halfedges_around_target pmesh u).map
      (fun h => weight_calculator.w_ij h * (f u - f (pmesh.target (pmesh.opposite h))))).sum

/-- The power `L^d` of the weighted Laplacian. -/
def laplacian_pow (pmesh : PolygonMesh) (weight_calculator : WeightCalculator) :
    Nat → (vertex_descriptor → ℚ) → vertex_descriptor → ℚ
  | 0, f => f
  | d + 1, f => laplacian pmesh weight_calculator (laplacian_pow pmesh weight_calculator d f)

/-- The product of a matrix and a vector, row `r`. -/
def mul_vec (A : Solver_matrix) (X : Solver_vector) (r : Nat) : ℚ :=
  ((List.range A.dimension).map (fun c => A.coef r c * X.coef c)).sum

/-- The solver states in which `A` is factorized: the state after a
successful `factor(A)`, and every state reached from there by calls of
`linear_solver`. -/
inductive Factored {σ : Type} (solver : Sparse_linear_solver σ) (A : Solver_matrix) : σ → Prop
  | factor (s : σ) (h : (solver.factor s A).1.1 = true) :
    Factored solver A (solver.factor s A).2
  | linear_solver (s : σ) (B X : Solver_vector) (h : Factored solver A s) :
    Factored solver A (solver.linear_solver s B X).2

/-- The postcondition of the solver: after a successful `factor(A)`, each
successful `linear_solver(B, X)` returns `X` with `A * X = B`. -/
def Solver_postcondition {σ : Type} (solver : Sparse_linear_solver σ) : Prop :=
  ∀ (A : Solver_matrix) (s : σ), Factored solver A s →
    ∀ B X, (solver.linear_solver s B X).1.1 = true →
      ∀ r, r < A.dimension → mul_vec A (solver.linear_solver s B X).1.2 r = B.coef r

/-- The calls of `compute_row` at depth 0 that a call at the given depth
leads to, in the order in which they are made, each with its vertex and its
multiplier. -/
def compute_row_terms (pmesh : PolygonMesh) (weight_calculator : WeightCalculator) :
    Nat → vertex_descriptor → ℚ → List (vertex_descriptor × ℚ)
  | 0, v, multiplier => [(v, multiplier)]
  | depth + 1, v, multiplier =>
    (halfedges_around_target pmesh v).foldr
      (fun h acc =>
        compute_row_terms pmesh weight_calculator depth (pmesh.target (pmesh.opposite h))
          (-(weight_calculator.w_i v * weight_calculator.w_ij h) * multiplier) ++ acc) []
      ++ compute_row_terms pmesh weight_calculator depth v
        (weight_calculator.w_i v * sum_weight pmesh weight_calculator v * multiplier)

/-- A matrix with trivial kernel: `A * X = 0` only for `X = 0`. -/
def Nonsingular (A : Solver_matrix) : Prop :=
  ∀ X : Nat → ℚ,
    (∀ r, r < A.dimension → ∑ c ∈ Finset.range A.dimension, A.coef r c * X c = 0) →
      ∀ c, c < A.dimension → X c = 0

/-- The weighted sum `sum_h w_ij(h) * q(nv(h))` of a quantity `q` over the
neighbours of `v`, the sum running over the halfedges around `v`. -/
def neighbour_sum (pmesh : PolygonMesh) (weight_calculator : WeightCalculator)
    (q : vertex_descriptor → ℚ) (v : vertex_descriptor) : ℚ :=
  ((halfedges_around_target pmesh v).map
    (fun h => weight_calculator.w_ij h * q (pmesh.target (pmesh.opposite h)))).sum

/-! ## Example data -/

/-- A tetrahedron: the halfedge from `s` to `t` is numbered `4 * s + t`. -/
def tetrahedron : PolygonMesh :=
  ⟨[0, 1, 2, 3], fun v => 4 * ((v + 1) % 4) + v,
    fun v => [4 * ((v + 2) % 4) + v, 4 * ((v + 3) % 4) + v],
    fun h => 4 * (h % 4) + h / 4, fun h => h % 4⟩

/-- A mesh with the ten vertices 0, ..., 9. -/
def ten_vertices : PolygonMesh :=
  ⟨List.range 10, fun v => v, fun _ => [], fun h => h, fun h => h⟩

/-- Uniform weights. -/
def uniform_weights : WeightCalculator :=
  ⟨fun _ => 1, fun _ => 1⟩

/-- Sample positions. -/
def sample_points : VertexPointMap :=
  fun v => ⟨v, v * v, 1⟩

/-- A solver for diagonal systems: `factor` succeeds on the diagonal matrices
with no zero on the diagonal and stores the matrix, `linear_solver` divides by
the diagonal. -/
def diagonal_solver : Sparse_linear_solver (Option Solver_matrix) :=
  ⟨fun _ A =>
      if (List.range A.dimension).all (fun i => (List.range A.dimension).all
          (fun j => if i = j then decide (A.coef i j ≠ 0) else decide (A.coef i j = 0)))
      then ((true, 1), some A) else ((false, 0), none),
    fun s B X =>
      match s with
      | none => ((false, X), s)
      | some A => ((true, ⟨A.dimension, fun i => B.coef i / A.coef i i⟩), s)⟩

/-- A solver whose factorization always fails. -/
def failing_solver : Sparse_linear_solver Unit :=
  ⟨fun _ _ => ((false, 0), ()), fun _ _ X => ((false, X), ())⟩

/-- A cube: vertex `v` has the neighbours `v xor 1`, `v xor 2`, `v xor 4`, and
the halfedge from `s` to `t` is numbered `8 * s + t`. -/
def cube : PolygonMesh :=
  ⟨List.range 8, fun v => 8 * (v ^^^ 1) + v,
    fun v => [8 * (v ^^^ 2) + v, 8 * (v ^^^ 4) + v],
    fun h => 8 * (h % 8) + h / 8, fun h => h % 8⟩

/-- The corners of the unit cube. -/
def cube_points : VertexPointMap :=
  fun v => ⟨((v % 2 : Nat) : ℚ), ((v / 2 % 2 : Nat) : ℚ), ((v / 4 % 2 : Nat) : ℚ)⟩

/-- A triangulated disk: the centre 0 and the ring 1, ..., n; every ring
vertex is adjacent to the centre and to its two neighbours on the ring.  The
halfedge from `s` to `t` is numbered `(n + 1) * s + t`. -/
def disk (n : Nat) : PolygonMesh :=
  ⟨List.range (n + 1),
    fun v => if v = 0 then (n + 1) * 1 else v,
    fun v =>
      if v = 0 then (List.range (n - 1)).map (fun i => (n + 1) * (i + 2))
      else [(n + 1) * (if v = 1 then n else v - 1) + v,
        (n + 1) * (if v = n then 1 else v + 1) + v],
    fun h => (n + 1) * (h % (n + 1)) + h / (n + 1),
    fun h => h % (n + 1)⟩

/-- Positions in the plane z = 0 for the disk with four ring vertices: the
ring on the unit circle, the centre off the middle. -/
def flat_points : VertexPointMap :=
  fun v =>
    if v = 0 then ⟨1 / 2, 0, 0⟩
    else if v = 1 then ⟨1, 0, 0⟩
    else if v = 2 then ⟨0, 1, 0⟩
    else if v = 3 then ⟨-1, 0, 0⟩
    else ⟨0, -1, 0⟩

end Fair_Polyhedron_3

/-!
# halfspace_intersection_with_constructions_3

A shallow embedding of
`CGAL/dual/halfspace_intersection_with_constructions_3.h`, with the exact
arithmetic of a kernel over the rationals.  The kernel types, `convex_hull_3`
and the polyhedron are collaborators that are not part of the sources at hand:
the constructor of a plane from three points and the convex hull are
parameters, and a division by zero is a failure.
-/

namespace Halfspace_intersection_3

/-- A point of the kernel. -/
structure Point_3 where
  x : ℚ
  y : ℚ
  z : ℚ
deriving DecidableEq

/-- A vector of the kernel. -/
structure Vector_3 where
  x : ℚ
  y : ℚ
  z : ℚ
deriving DecidableEq

/-- A plane `a * x + b * y + c * z + d = 0` of the kernel. -/
structure Plane_3 where
  a : ℚ
  b : ℚ
  c : ℚ
  d : ℚ
deriving DecidableEq

/-- Modelled from the spec: the member `orthogonal_vector()` of the kernel
plane, which is not part of the sources at hand; it is the vector `(a, b, c)`. -/
def Plane_3.orthogonal_vector (p : Plane_3) : Vector_3 :=
  ⟨p.a, p.b, p.c⟩

/-- Modelled from the spec: the division of a kernel vector by a scalar, which
is not part of the sources at hand; the division by 0 fails. -/
def Vector_3.div (v : Vector_3) (s : ℚ) : Option Vector_3 :=
  if s = 0 then none else some ⟨v.x / s, v.y / s, v.z / s⟩

/-- Modelled from the spec: `CGAL::ORIGIN + v` of the kernel, which is not part
of the sources at hand. -/
def origin_plus (v : Vector_3) : Point_3 :=
  ⟨v.x, v.y, v.z⟩

/-- The point lies on the plane. -/
def Plane_3.has_on (p : Plane_3) (q : Point_3) : Prop :=
  p.a * q.x + p.b * q.y + p.c * q.z + p.d = 0

/-- The expression `CGAL::ORIGIN + p.orthogonal_vector () / (-p.d())`, used for
the dual point of a plane and for the extreme vertex of a facet. -/
def dual_of_plane (p : Plane_3) : Option Point_3 :=
  (p.orthogonal_vector.div (-p.d)).map origin_plus

/-- The plane `translated_p` built in the first loop of
`halfspace_intersection_with_constructions_3`. -/
def translated_plane (p : Plane_3) (origin : Point_3) : Plane_3 :=
  ⟨p.a, p.b, p.c, p.d + origin.x * p.a + origin.y * p.b + origin.z * p.c⟩

/-- The dual point pushed for one input plane. -/
def dual_point (origin : Point_3) (p : Plane_3) : Option Point_3 :=
  dual_of_plane (translated_plane p origin)

/-- A loop that pushes one result per element and fails as soon as one
construction fails. -/
def map_all {α β : Type} (f : α → Option β) : List α → Option (List β)
  | [] => some []
  | a :: l =>
    match f a with
    | none => none
    | some b =>
      match map_all f l with
      | none => none
      | some r => some (b :: r)

/-- What `Build_dual_polyhedron` reads of the primal polyhedron: for every
facet the points of `h->vertex()`, `h->next()->vertex()` and
`h->next()->next()->vertex()`, `h` being the halfedge of the facet, and for
every vertex the indices of the facets that the circulator around it meets. -/
structure Polyhedron where
  facets : List (Point_3 × Point_3 × Point_3)
  vertex_facets : List (List Nat)

/-- What `Build_dual_polyhedron` gives to the incremental builder: the
vertices, in the order of `add_vertex`, and the facets as lists of vertex
indices. -/
structure Dual_polyhedron where
  vertices : List Point_3
  facets : List (List Nat)

/-- The body of the first loop of `Build_dual_polyhedron::operator()`: the
vertex added for one facet.  `plane_of_points` is the constructor
`Plane_3(p, q, r)` of the kernel. -/
def extreme_vertex (plane_of_points : Point_3 → Point_3 → Point_3 → Plane_3)
    (origin : Point_3) (facet : Point_3 × Point_3 × Point_3) : Option Point_3 :=
  let p := plane_of_points facet.1 facet.2.1 facet.2.2
  match dual_of_plane p with
  | none => none
  | some extreme_p =>
    some ⟨extreme_p.x + origin.x, extreme_p.y + origin.y, extreme_p.z + origin.z⟩

/-- The member `Build_dual_polyhedron::operator()`. -/
def build_dual_polyhedron (plane_of_points : Point_3 → Point_3 → Point_3 → Plane_3)
    (primal : Polyhedron) (origin : Point_3) : Option Dual_polyhedron :=
  match map_all (extreme_vertex plane_of_points origin) primal.facets with
  | none => none
  | some vertices => some ⟨vertices, primal.vertex_facets⟩

/-- The function `halfspace_intersection_with_constructions_3`; `convex_hull_3`
is the hull computation it calls. -/
def halfspace_intersection_with_constructions_3
    (convex_hull_3 : List Point_3 → Polyhedron)
    (plane_of_points : Point_3 → Point_3 → Point_3 → Plane_3)
    (planes : List Plane_3) (origin : Point_3) : Option Dual_polyhedron :=
  match map_all (dual_point origin) planes with
  | none => none
  | some dual_points =>
    let ch := convex_hull_3 dual_points
    build_dual_polyhedron plane_of_points ch origin

/-- Modelled from the spec: the constructor `Plane_3(p, q, r)` of the kernel,
which is not part of the sources at hand: the plane through the three points
whose normal is the cross product of `p - r` and `q - r`. -/
def plane_from_points (p q r : Point_3) : Plane_3 :=
  let a := (p.y - r.y) * (q.z - r.z) - (q.y - r.y) * (p.z - r.z)
  let b := (p.z - r.z) * (q.x - r.x) - (q.z - r.z) * (p.x - r.x)
  let c := (p.x - r.x) * (q.y - r.y) - (q.x - r.x) * (p.y - r.y)
  ⟨a, b, c, -a * r.x - b * r.y - c * r.z⟩

/-- The four planes `x = -1`, `y = -1`, `z = -1` and `x + y + z = 1`, each
with the origin strictly in its lower halfspace. -/
def sample_planes : List Plane_3 :=
  [⟨-1, 0, 0, -1⟩, ⟨0, -1, 0, -1⟩, ⟨0, 0, -1, -1⟩, ⟨1, 1, 1, -1⟩]

/-- A hull computation for four points in convex position: the four
triangles, each with the facets around its vertices. -/
def sample_hull (points : List Point_3) : Polyhedron :=
  match points with
  | [q0, q1, q2, q3] =>
    ⟨[(q0, q1, q2), (q0, q3, q1), (q0, q2, q3), (q1, q3, q2)],
      [[0, 1, 2], [0, 3, 1], [0, 2, 3], [1, 3, 2]]⟩
  | _ => ⟨[], []⟩

end Halfspace_intersection_3

/-!
# The line arcs of the spherical kernel

A shallow embedding of the class `Line_arc_3` of
`Circular_kernel_3/include/CGAL/Circular_kernel_3/Line_arc_3.h`.  The class
is a template over the spherical kernel `SK`; the types `Line_3` and
`Circular_arc_point_3` of the kernel are type parameters `L` and `P`, and the
functors `has_on_3_object` and `compare_xyz_3_object` are function
parameters.  The member `begin_less_xyz_than_end_flag` is `mutable`: the
members that are `const` in the source return the object after the call next
to their result.
-/

namespace Circular_kernel_3

/-- The class `Line_arc_3`: the triple `base` of the supporting line, the
source and the target, and the cache `begin_less_xyz_than_end_flag`, an
`unsigned char`. -/
structure Line_arc_3 (L P : Type) where
  base : L × P × P
  begin_less_xyz_than_end_flag : Nat

/-- The constructor from a line and two points of type `Circular_arc_point_3`;
`none` when one of the three preconditions `CGAL_kernel_precondition` is
violated. -/
def Line_arc_3.create {L P : Type} [DecidableEq P] (has_on : L → P → Bool)
    (l : L) (s t : P) : Option (Line_arc_3 L P) :=
  if has_on l s = false then none
  else if has_on l t = false then none
  else if s = t then none
  else some ⟨(l, s, t), 0⟩

/-- The member `supporting_line`. -/
def Line_arc_3.supporting_line {L P : Type} (a : Line_arc_3 L P) : L :=
  a.base.1

/-- The member `source`. -/
def Line_arc_3.source {L P : Type} (a : Line_arc_3 L P) : P :=
  a.base.2.1

/-- The member `target`. -/
def Line_arc_3.target {L P : Type} (a : Line_arc_3 L P) : P :=
  a.base.2.2

/-- The private member `begin_less_xyz_than_end`: its result and the object
after the call.  `compare_xyz` returns a negative number for SMALLER, 0 for
EQUAL and a positive number for LARGER. -/
def Line_arc_3.begin_less_xyz_than_end {L P : Type} (compare_xyz : P → P → Int)
    (a : Line_arc_3 L P) : Bool × Line_arc_3 L P :=
  let a1 : Line_arc_3 L P :=
    if a.begin_less_xyz_than_end_flag = 0 then
      if compare_xyz a.source a.target < 0 then
        { a with begin_less_xyz_than_end_flag := 2 }
      else { a with begin_less_xyz_than_end_flag := 1 }
    else a
  (a1.begin_less_xyz_than_end_flag == 2, a1)

/-- The member `lower_xyz_extremity`: its result and the object after the
call. -/
def Line_arc_3.lower_xyz_extremity {L P : Type} (compare_xyz : P → P → Int)
    (a : Line_arc_3 L P) : P × Line_arc_3 L P :=
  let r := a.begin_less_xyz_than_end compare_xyz
  (if r.1 then r.2.source else r.2.target, r.2)

/-- The member `higher_xyz_extremity`: its result and the object after the
call. -/
def Line_arc_3.higher_xyz_extremity {L P : Type} (compare_xyz : P → P → Int)
    (a : Line_arc_3 L P) : P × Line_arc_3 L P :=
  let r := a.begin_less_xyz_than_end compare_xyz
  (if r.1 then r.2.target else r.2.source, r.2)

/-- The objects that an arc becomes by calls of `begin_less_xyz_than_end`,
`lower_xyz_extremity` and `higher_xyz_extremity`. -/
inductive Line_arc_3.Reached {L P : Type} (compare_xyz : P → P → Int) (a : Line_arc_3 L P) :
    Line_arc_3 L P → Prop
  | start : Line_arc_3.Reached compare_xyz a a
  | begin_less (b : Line_arc_3 L P) (h : Line_arc_3.Reached compare_xyz a b) :
    Line_arc_3.Reached compare_xyz a (b.begin_less_xyz_than_end compare_xyz).2
  | lower (b : Line_arc_3 L P) (h : Line_arc_3.Reached compare_xyz a b) :
    Line_arc_3.Reached compare_xyz a (b.lower_xyz_extremity compare_xyz).2
  | higher (b : Line_arc_3 L P) (h : Line_arc_3.Reached compare_xyz a b) :
    Line_arc_3.Reached compare_xyz a (b.higher_xyz_extremity compare_xyz).2

/-- The cache is consistent with the endpoints: the flag is 0, or it is 2 and
the source is smaller than the target, or it is 1 and the source is not
smaller than the target. -/
def Line_arc_3.flag_invariant {L P : Type} (compare_xyz : P → P → Int)
    (a : Line_arc_3 L P) : Prop :=
  a.begin_less_xyz_than_end_flag = 0 ∨
  (a.begin_less_xyz_than_end_flag = 2 ∧ compare_xyz a.source a.target < 0) ∨
  (a.begin_less_xyz_than_end_flag = 1 ∧ ¬ compare_xyz a.source a.target < 0)

instance {L P : Type} (compare_xyz : P → P → Int) (a : Line_arc_3 L P) :
    Decidable (a.flag_invariant compare_xyz) := by
  unfold Line_arc_3.flag_invariant
  infer_instance

/-- Modelled from the spec: `compare_xyz` is a total order on the points: it
returns 0 exactly for equal points, exchanging the arguments exchanges
smaller and larger, and smaller is transitive. -/
def Total_order {P : Type} (compare_xyz : P → P → Int) : Prop :=
  (∀ p q, compare_xyz p q = 0 ↔ p = q) ∧
  (∀ p q, compare_xyz p q < 0 ↔ 0 < compare_xyz q p) ∧
  (∀ p q r, compare_xyz p q < 0 → compare_xyz q r < 0 → compare_xyz p r < 0)

/-! ## Example data -/

/-- The lexicographic comparison of points with integer coordinates. -/
def lexicographic_compare_xyz (p q : Int × Int × Int) : Int :=
  if p.1 < q.1 then -1
  else if q.1 < p.1 then 1
  else if p.2.1 < q.2.1 then -1
  else if q.2.1 < p.2.1 then 1
  else if p.2.2 < q.2.2 then -1
  else if q.2.2 < p.2.2 then 1
  else 0

/-- A line through a point with a direction, and the test that a point with
integer coordinates lies on it: the cross product of the direction and of the
difference of the two points is zero. -/
def line_has_on (l : (Int × Int × Int) × (Int × Int × Int)) (p : Int × Int × Int) : Bool :=
  let ux := p.1 - l.1.1
  let uy := p.2.1 - l.1.2.1
  let uz := p.2.2 - l.1.2.2
  (l.2.2.1 * uz - l.2.2.2 * uy == 0) && (l.2.2.2 * ux - l.2.1 * uz == 0) &&
    (l.2.1 * uy - l.2.2.1 * ux == 0)

end Circular_kernel_3

namespace Fair_Polyhedron_3

/-! ## The set of the range -/

theorem mem_set_insert (u v : vertex_descriptor) (s : List vertex_descriptor) :
    u ∈ set_insert v s ↔ u = v ∨ u ∈ s := by
  induction s with
  | nil => simp [set_insert]
  | cons a s ih =>
    unfold set_insert
    split_ifs with h1 h2
    · simp
    · subst h2; simp
    · simp [ih]; tauto

theorem set_insert_sorted (v : vertex_descriptor) (s : List vertex_descriptor)
    (hs : s.Sorted (· < ·)) : (set_insert v s).Sorted (· < ·) := by
  induction s with
  | nil => simp [set_insert]
  | cons a s ih =>
    have hs' := List.sorted_cons.mp hs
    unfold set_insert
    split_ifs with h1 h2
    · refine List.sorted_cons.mpr ⟨?_, hs⟩
      intro b hb
      rcases List.mem_cons.mp hb with rfl | hb
      · exact h1
      · exact lt_trans h1 (hs'.1 b hb)
    · exact hs
    · refine List.sorted_cons.mpr ⟨?_, ih hs'.2⟩
      intro b hb
      rcases (mem_set_insert b v s).mp hb with rfl | hb
      · exact lt_of_le_of_ne (not_lt.mp h1) (Ne.symm h2)
      · exact hs'.1 b hb

theorem set_of_range_aux (vr s : List vertex_descriptor) (hs : s.Sorted (· < ·)) :
    (vr.foldl (fun s v => set_insert v s) s).Sorted (· < ·) ∧
      ∀ u, u ∈ vr.foldl (fun s v => set_insert v s) s ↔ u ∈ vr ∨ u ∈ s := by
  induction vr generalizing s with
  | nil => simp [hs]
  | cons a vr ih =>
    obtain ⟨h1, h2⟩ := ih (set_insert a s) (set_insert_sorted a s hs)
    refine ⟨h1, fun u => ?_⟩
    simp only [List.foldl_cons, h2, mem_set_insert, List.mem_cons]
    tauto

theorem set_of_range_sorted (vr : List vertex_descriptor) :
    (set_of_range vr).Sorted (· < ·) :=
  (set_of_range_aux vr [] (List.sorted_nil)).1

theorem mem_set_of_range (vr : List vertex_descriptor) (u : vertex_descriptor) :
    u ∈ set_of_range vr ↔ u ∈ vr := by
  have := (set_of_range_aux vr [] (List.sorted_nil)).2 u
  simpa [set_of_range] using this

theorem set_of_range_nodup (vr : List vertex_descriptor) : (set_of_range vr).Nodup :=
  (set_of_range_sorted vr).nodup

theorem set_of_range_eq_nil (vr : List vertex_descriptor) :
    set_of_range vr = [] ↔ vr = [] := by
  constructor
  · intro h
    cases vr with
    | nil => rfl
    | cons a vr =>
      have : a ∈ set_of_range (a :: vr) := (mem_set_of_range _ _).mpr (List.mem_cons_self _ _)
      rw [h] at this
      simp at this
  · rintro rfl; rfl

/-! ## The depth check -/

theorem fair_depth_of_le_two (fc : Nat) (h : fc ≤ 2) : fair_depth fc = (fc : Int) + 1 := by
  interval_cases fc <;> decide

theorem fair_depth_accepts_iff (fc : Nat) (h : fc < 2 ^ 32) :
    ¬ (fair_depth fc < 0 ∨ fair_depth fc > 3) ↔ fc ≤ 2 ∨ fc = 4294967295 := by
  unfold fair_depth int_add_wrap static_cast_int
  have h1 : fc % 2 ^ 32 = fc := Nat.mod_eq_of_lt h
  rw [h1]
  norm_num at h ⊢
  split_ifs with h2 <;> omega

/-! ## The update loop and the solve stage -/

theorem update_positions_of_not_mem (X Y Z : Solver_vector) (interior : List vertex_descriptor)
    (id : Nat) (ppmap : VertexPointMap) (v : vertex_descriptor) (hv : v ∉ interior) :
    update_positions X Y Z interior id ppmap v = ppmap v := by
  induction interior generalizing id ppmap with
  | nil => rfl
  | cons a rest ih =>
    have h1 : v ≠ a := fun h => hv (h ▸ List.mem_cons_self _ _)
    have h2 : v ∉ rest := fun h => hv (List.mem_cons_of_mem _ h)
    simp only [update_positions]
    rw [ih _ _ h2, Function.update_noteq h1]

theorem fair_solve_result_false {σ : Type} (solver : Sparse_linear_solver σ) (m_solver : σ)
    (ppmap : VertexPointMap) (interior : List vertex_descriptor) (sys : Linear_system)
    (h : (fair_solve solver m_solver ppmap interior sys).result = false) :
    (fair_solve solver m_solver ppmap interior sys).ppmap = ppmap := by
  unfold fair_solve at h ⊢
  simp only at h ⊢
  split_ifs at h ⊢ <;> rfl

theorem fair_solve_frame {σ : Type} (solver : Sparse_linear_solver σ) (m_solver : σ)
    (ppmap : VertexPointMap) (interior : List vertex_descriptor) (sys : Linear_system)
    (v : vertex_descriptor) (hv : v ∉ interior) :
    (fair_solve solver m_solver ppmap interior sys).ppmap v = ppmap v := by
  unfold fair_solve
  simp only
  split_ifs <;> first | rfl | exact update_positions_of_not_mem _ _ _ _ _ _ _ hv

/-- The shape of a returning call: either an early return that leaves the
positions alone, or the result of the solve stage on the pruned set. -/
theorem fair_cases {σ : Type} (pmesh : PolygonMesh) (weight_calculator : WeightCalculator)
    (ppmap : VertexPointMap) (solver : Sparse_linear_solver σ) (m_solver : σ)
    (vertices : List vertex_descriptor) (fc : Nat) (r : Fair_outcome)
    (h : fair pmesh weight_calculator ppmap solver m_solver vertices fc = .ok r) :
    (r.ppmap = ppmap ∧ r.calls = [] ∧
      ((r.result = false ∧ r.warning = some .continuity_out_of_range ∧
          (fair_depth fc < 0 ∨ fair_depth fc > 3)) ∨
        (r.result = true ∧ r.warning = none ∧ ¬ (fair_depth fc < 0 ∨ fair_depth fc > 3) ∧
          set_of_range vertices = []) ∨
        (r.result = false ∧ r.warning = some .duplicate_vertex ∧
          ∃ interior, interior_vertices pmesh vertices = .ok interior ∧
            build_vertex_id_map interior 0 (fun _ => none) = none))) ∨
    (¬ (fair_depth fc < 0 ∨ fair_depth fc > 3) ∧ set_of_range vertices ≠ [] ∧
      ∃ interior vertex_id_map,
        interior_vertices pmesh vertices = .ok interior ∧
        build_vertex_id_map interior 0 (fun _ => none) = some vertex_id_map ∧
        r = fair_solve solver m_solver ppmap interior
          (assemble_rows pmesh weight_calculator ppmap (fair_depth fc).toNat interior
            (initial_system vertex_id_map interior.length))) := by
  unfold fair at h
  simp only at h
  split_ifs at h with h1 h2
  · injection h with h; subst h; exact Or.inl ⟨rfl, rfl, Or.inl ⟨rfl, rfl, h1⟩⟩
  · injection h with h; subst h; exact Or.inl ⟨rfl, rfl, Or.inr (Or.inl ⟨rfl, rfl, h1, h2⟩)⟩
  · split at h
    · exact absurd h (by simp)
    · rename_i interior hi
      split at h
      · rename_i hb
        injection h with h; subst h
        exact Or.inl ⟨rfl, rfl, Or.inr (Or.inr ⟨rfl, rfl, interior, hi, hb⟩)⟩
      · rename_i m hb
        injection h with h
        exact Or.inr ⟨h1, h2, interior, m, hi, hb, h.symm⟩

/-! ## The pruning loop -/

theorem remove_vertices_loop_eq (freq : Int) (hfreq : freq ≠ 0) (i : Int)
    (rest pre : List vertex_descriptor) (hnd : (pre ++ rest).Nodup) :
    remove_vertices_loop freq i rest (pre ++ rest) = .ok (pre ++ keep_positions freq i rest) := by
  induction rest generalizing i pre with
  | nil => simp [remove_vertices_loop, keep_positions]
  | cons vd rest ih =>
    have hvd : vd ∉ pre := by
      intro hmem
      have := List.nodup_append.mp hnd
      exact this.2.2 hmem (List.mem_cons_self _ _)
    have hnd1 : (pre ++ rest).Nodup := by
      have h := List.nodup_append.mp hnd
      refine List.nodup_append.mpr ⟨h.1, (List.nodup_cons.mp h.2.1).2, ?_⟩
      intro a ha hb
      exact h.2.2 ha (List.mem_cons_of_mem _ hb)
    have hnd2 : ((pre ++ [vd]) ++ rest).Nodup := by simpa using hnd
    unfold remove_vertices_loop keep_positions
    rw [if_neg hfreq]
    split_ifs with hi
    · rw [List.erase_append_right _ hvd, List.erase_cons_head]
      exact ih (i + 1) pre hnd1
    · have := ih (i + 1) (pre ++ [vd]) hnd2
      simpa using this

theorem remove_vertices_loop_zero (i : Int) (vd : vertex_descriptor)
    (rest vertices : List vertex_descriptor) :
    remove_vertices_loop 0 i (vd :: rest) vertices = .error .division_by_zero := by
  simp [remove_vertices_loop]

theorem keep_positions_sublist (freq i : Int) (l : List vertex_descriptor) :
    (keep_positions freq i l).Sublist l := by
  induction l generalizing i with
  | nil => simp [keep_positions]
  | cons a l ih =>
    unfold keep_positions
    split_ifs
    · exact (ih (i + 1)).trans (List.sublist_cons_self a l)
    · exact (ih (i + 1)).cons₂ a

theorem keep_positions_length_lt (freq i : Int) (l : List vertex_descriptor)
    (k : Nat) (hk : k < l.length) (hmod : (i + k) % freq = 0) :
    (keep_positions freq i l).length < l.length := by
  induction l generalizing i k with
  | nil => simp at hk
  | cons a l ih =>
    unfold keep_positions
    split_ifs with h
    · exact Nat.lt_succ_of_le (keep_positions_sublist freq (i + 1) l).length_le
    · cases k with
      | zero => exact absurd (by simpa using hmod) h
      | succ k =>
        have hk1 : k < l.length := by simpa using hk
        have hmod1 : (i + 1 + (k : Int)) % freq = 0 := by
          have : i + 1 + (k : Int) = i + ((k + 1 : Nat) : Int) := by push_cast; ring
          rw [this]; exact hmod
        have := ih (i + 1) k hk1 hmod1
        simpa using this

theorem remove_vertices_freq (n : Nat) :
    Rat.floor (1 / 100 * 10 * (n : ℚ)) = (n : Int) / 10 := by
  have h : (1 / 100 * 10 * (n : ℚ)) = ((n : Int) : ℚ) / ((10 : Nat) : ℚ) := by
    push_cast; ring
  rw [h]
  exact Rat.floor_intCast_div_natCast (n : Int) 10

theorem remove_vertices_ten (vertices : List vertex_descriptor) (hnd : vertices.Nodup)
    (hn : 10 ≤ vertices.length) :
    remove_vertices vertices 10 =
      .ok (keep_positions ((vertices.length : Int) / 10) 1 vertices) := by
  unfold remove_vertices
  rw [if_neg (by norm_num)]
  simp only [remove_vertices_freq]
  have hfreq : (vertices.length : Int) / 10 ≠ 0 := by omega
  have := remove_vertices_loop_eq _ hfreq 1 vertices [] (by simpa using hnd)
  simpa using this

theorem interior_vertices_sublist (pmesh : PolygonMesh) (vertices interior : List vertex_descriptor)
    (h : interior_vertices pmesh vertices = .ok interior) :
    interior.Sublist (set_of_range vertices) := by
  unfold interior_vertices at h
  split_ifs at h with hall
  · unfold remove_vertices at h
    rw [if_neg (by norm_num)] at h
    simp only at h
    by_cases hfreq : Rat.floor (1 / 100 * 10 * ((set_of_range vertices).length : ℚ)) = 0
    · rw [hfreq] at h
      cases hs : set_of_range vertices with
      | nil =>
        rw [hs] at h
        simp [remove_vertices_loop] at h
        subst h; exact List.Sublist.refl _
      | cons a s =>
        rw [hs, remove_vertices_loop_zero] at h
        exact absurd h (by simp)
    · have := remove_vertices_loop_eq _ hfreq 1 (set_of_range vertices) []
        (by simpa using set_of_range_nodup vertices)
      simp only [List.nil_append] at this
      rw [this] at h
      injection h with h
      subst h
      exact keep_positions_sublist _ _ _
  · injection h with h
    subst h; exact List.Sublist.refl _

theorem interior_vertices_nodup (pmesh : PolygonMesh) (vertices interior : List vertex_descriptor)
    (h : interior_vertices pmesh vertices = .ok interior) : interior.Nodup :=
  (interior_vertices_sublist pmesh vertices interior h).nodup (set_of_range_nodup vertices)

/-! ## The vertex-id map -/

/-- The map that the id loop builds from `m` for the keys `l`, numbered from
`id` on. -/
theorem build_vertex_id_map_spec (l : List vertex_descriptor) (id : Nat) (m : Vertex_id_map)
    (hnd : l.Nodup) (hm : ∀ v ∈ l, m v = none) :
    ∃ m', build_vertex_id_map l id m = some m' ∧
      (∀ (k : Nat) (hk : k < l.length), m' (l.get ⟨k, hk⟩) = some (id + k)) ∧
      (∀ v, v ∉ l → m' v = m v) := by
  induction l generalizing id m with
  | nil => exact ⟨m, rfl, fun k hk => absurd hk (by simp), fun _ _ => rfl⟩
  | cons a l ih =>
    have ha : m a = none := hm a (List.mem_cons_self _ _)
    have hnd' := List.nodup_cons.mp hnd
    have hins : m.insert a id = (fun u => if u = a then some id else m u, true) := by
      simp [Vertex_id_map.insert, ha]
    have hm1 : ∀ v ∈ l, (fun u => if u = a then some id else m u) v = none := by
      intro v hv
      have hne : v ≠ a := fun h => hnd'.1 (h ▸ hv)
      simp [hne, hm v (List.mem_cons_of_mem _ hv)]
    obtain ⟨m', h1, h2, h3⟩ := ih (id + 1) _ hnd'.2 hm1
    refine ⟨m', ?_, ?_, ?_⟩
    · simp only [build_vertex_id_map, hins]
      exact h1
    · intro k hk
      cases k with
      | zero =>
        have := h3 a hnd'.1
        simpa using this
      | succ k =>
        have hk1 : k < l.length := by simpa using hk
        have := h2 k hk1
        simp only [List.get_eq_getElem, List.getElem_cons_succ] at this ⊢
        rw [this]
        congr 1
        omega
    · intro v hv
      have hne : v ≠ a := fun h => hv (h ▸ List.mem_cons_self _ _)
      have hv' : v ∉ l := fun h => hv (List.mem_cons_of_mem _ h)
      rw [h3 v hv']
      simp [hne]

theorem build_vertex_id_map_ok (interior : List vertex_descriptor) (hnd : interior.Nodup) :
    ∃ m, build_vertex_id_map interior 0 (fun _ => none) = some m ∧
      (∀ (k : Nat) (hk : k < interior.length), m (interior.get ⟨k, hk⟩) = some k) ∧
      (∀ v, v ∉ interior → m v = none) := by
  obtain ⟨m, h1, h2, h3⟩ :=
    build_vertex_id_map_spec interior 0 (fun _ => none) hnd (fun _ _ => rfl)
  exact ⟨m, h1, fun k hk => by simpa using h2 k hk, h3⟩

theorem update_positions_get (X Y Z : Solver_vector) (interior : List vertex_descriptor)
    (id : Nat) (ppmap : VertexPointMap) (hnd : interior.Nodup)
    (k : Nat) (hk : k < interior.length) :
    update_positions X Y Z interior id ppmap (interior.get ⟨k, hk⟩) =
      ⟨X.coef (id + k), Y.coef (id + k), Z.coef (id + k)⟩ := by
  induction interior generalizing id ppmap k with
  | nil => simp at hk
  | cons a rest ih =>
    have hnd' := List.nodup_cons.mp hnd
    simp only [update_positions]
    cases k with
    | zero =>
      simp only [List.get_eq_getElem, List.getElem_cons_zero, Nat.add_zero]
      rw [update_positions_of_not_mem _ _ _ _ _ _ _ hnd'.1, Function.update_same]
    | succ k =>
      have hk1 : k < rest.length := by simpa using hk
      have := ih (id + 1) (Function.update ppmap a ⟨X.coef id, Y.coef id, Z.coef id⟩)
        hnd'.2 k hk1
      simp only [List.get_eq_getElem, List.getElem_cons_succ] at this ⊢
      rw [this]
      have : id + 1 + k = id + (k + 1) := by omega
      rw [this]

/-- The outcome of the solve stage in terms of the four solver calls. -/
theorem fair_solve_spec {σ : Type} (solver : Sparse_linear_solver σ) (m_solver : σ)
    (ppmap : VertexPointMap) (interior : List vertex_descriptor) (sys : Linear_system) :
    let n := interior.length
    let f := solver.factor m_solver sys.A
    let sx := solver.linear_solver f.2 sys.Bx (Solver_vector.create n)
    let sy := solver.linear_solver sx.2 sys.By (Solver_vector.create n)
    let sz := solver.linear_solver sy.2 sys.Bz (Solver_vector.create n)
    let r := fair_solve solver m_solver ppmap interior sys
    (r.result = true ↔
      f.1.1 = true ∧ sx.1.1 = true ∧ sy.1.1 = true ∧ sz.1.1 = true) ∧
    r.calls = Solver_call.factor sys.A f.1.1 ::
      (if f.1.1 = true then
        Solver_call.linear_solver sys.Bx sx.1.1 ::
          (if sx.1.1 = true then
            Solver_call.linear_solver sys.By sy.1.1 ::
              (if sy.1.1 = true then [Solver_call.linear_solver sys.Bz sz.1.1] else [])
            else [])
        else []) ∧
    (r.result = true →
      r.ppmap = update_positions sx.1.2 sy.1.2 sz.1.2 interior 0 ppmap) := by
  intro n f sx sy sz r
  simp only [r, fair_solve]
  by_cases h0 : f.1.1 = false
  · simp [f, n] at h0 ⊢
    simp [h0]
  · by_cases h1 : sx.1.1 = false
    · simp [f, sx, n] at h0 h1 ⊢
      simp [h0, h1]
    · by_cases h2 : sy.1.1 = false
      · simp [f, sx, sy, n] at h0 h1 h2 ⊢
        simp [h0, h1, h2]
      · by_cases h3 : sz.1.1 = false
        · simp [f, sx, sy, sz, n] at h0 h1 h2 h3 ⊢
          simp [h0, h1, h2, h3]
        · simp [f, sx, sy, sz, n] at h0 h1 h2 h3 ⊢
          simp [h0, h1, h2, h3]

/-- When the depth is accepted, the selection is not empty and the pruning
does not fault, `fair` returns the outcome of the solve stage. -/
theorem fair_eq_fair_solve {σ : Type} (pmesh : PolygonMesh)
    (weight_calculator : WeightCalculator) (ppmap : VertexPointMap)
    (solver : Sparse_linear_solver σ) (m_solver : σ) (vertices : List vertex_descriptor)
    (fc : Nat) (interior : List vertex_descriptor)
    (hd : ¬ (fair_depth fc < 0 ∨ fair_depth fc > 3)) (hne : vertices ≠ [])
    (hi : interior_vertices pmesh vertices = .ok interior) :
    ∃ vertex_id_map, build_vertex_id_map interior 0 (fun _ => none) = some vertex_id_map ∧
      fair pmesh weight_calculator ppmap solver m_solver vertices fc =
        .ok (fair_solve solver m_solver ppmap interior
          (assemble_rows pmesh weight_calculator ppmap (fair_depth fc).toNat interior
            (initial_system vertex_id_map interior.length))) := by
  obtain ⟨m, hm, _⟩ := build_vertex_id_map_ok interior
    (interior_vertices_nodup pmesh vertices interior hi)
  refine ⟨m, hm, ?_⟩
  have hne' : set_of_range vertices ≠ [] := fun h => hne ((set_of_range_eq_nil vertices).mp h)
  unfold fair
  simp only
  rw [if_neg hd, if_neg hne', hi]
  simp only [hm]

/-- The pruning faults exactly on the selections that `fair_all_mesh`
accepts and whose set has between 1 and 9 elements. -/
theorem interior_vertices_fault_iff (pmesh : PolygonMesh) (vertices : List vertex_descriptor) :
    interior_vertices pmesh vertices = .error .division_by_zero ↔
      fair_all_mesh pmesh vertices = true ∧ 1 ≤ (set_of_range vertices).length ∧
        (set_of_range vertices).length ≤ 9 := by
  unfold interior_vertices
  by_cases hall : fair_all_mesh pmesh vertices = true
  · rw [if_pos hall]
    by_cases hn : 10 ≤ (set_of_range vertices).length
    · rw [remove_vertices_ten _ (set_of_range_nodup vertices) hn]
      constructor
      · intro h; exact absurd h (by simp)
      · intro h; omega
    · unfold remove_vertices
      rw [if_neg (by norm_num)]
      simp only [remove_vertices_freq]
      have hfreq : ((set_of_range vertices).length : Int) / 10 = 0 := by omega
      rw [hfreq]
      cases hs : set_of_range vertices with
      | nil => simp [remove_vertices_loop]
      | cons a s =>
        rw [remove_vertices_loop_zero]
        rw [hs] at hn
        simp only [List.length_cons] at hn ⊢
        constructor
        · intro _; exact ⟨hall, by omega, by omega⟩
        · intro _; trivial
  · rw [if_neg hall]
    constructor
    · intro h; exact absurd h (by simp)
    · intro h; exact absurd h.1 hall

/-! ## Claims on the control flow of `fair` -/

/-- C3, evaluated at the failing input: for the continuity order
`fc = 4294967295 = 2^32 - 1`, which is not in {0,1,2}, the local `depth` is 0, the
check `depth < 0 || depth > 3` lets it pass, and on the tetrahedron with vertex 0
selected `fair` returns true and moves vertex 0 from (0,0,1) to (0,0,0). -/
theorem fair_continuity_max_accepted :
    fair_depth 4294967295 = 0 ∧
    sample_points 0 = ⟨0, 0, 1⟩ ∧
    ∃ r, fair tetrahedron uniform_weights sample_points diagonal_solver none [0] 4294967295
        = .ok r ∧ r.result = true ∧ r.ppmap 0 = ⟨0, 0, 0⟩ :=
  ⟨by decide, by with_unfolding_all rfl,
    ⟨_, by with_unfolding_all rfl, by with_unfolding_all rfl, by with_unfolding_all rfl⟩⟩

/-- Every other 32 bit continuity order outside {0,1,2} is rejected without
any change. -/
theorem fair_continuity_rejected {σ : Type} (pmesh : PolygonMesh)
    (weight_calculator : WeightCalculator) (ppmap : VertexPointMap)
    (solver : Sparse_linear_solver σ) (m_solver : σ) (vertices : List vertex_descriptor)
    (fc : Nat) (h32 : fc < 2 ^ 32) (h : 2 < fc) (hmax : fc ≠ 4294967295) :
    fair pmesh weight_calculator ppmap solver m_solver vertices fc =
      .ok ⟨false, some .continuity_out_of_range, ppmap, []⟩ := by
  have hd : fair_depth fc < 0 ∨ fair_depth fc > 3 := by
    by_contra hc
    rcases (fair_depth_accepts_iff fc h32).mp hc with h1 | h1
    · omega
    · exact hmax h1
  unfold fair
  simp only
  rw [if_pos hd]

/-- C4, counterexample: with the empty range and continuity order 3 `fair`
returns false, not true. -/
theorem fair_empty_range_order_three :
    fair tetrahedron uniform_weights sample_points failing_solver () [] 3 =
      .ok ⟨false, some .continuity_out_of_range, sample_points, []⟩ := by
  with_unfolding_all rfl

/-- C4, amended: for every mesh, the empty vertex range and every continuity
order in {0,1,2}, `fair` returns true, calls nothing and leaves every vertex
position unchanged. -/
theorem fair_empty_range {σ : Type} (pmesh : PolygonMesh)
    (weight_calculator : WeightCalculator) (ppmap : VertexPointMap)
    (solver : Sparse_linear_solver σ) (m_solver : σ) (fc : Nat) (hfc : fc ≤ 2) :
    fair pmesh weight_calculator ppmap solver m_solver [] fc = .ok ⟨true, none, ppmap, []⟩ := by
  have hd : ¬ (fair_depth fc < 0 ∨ fair_depth fc > 3) := by
    rw [fair_depth_of_le_two fc hfc]; omega
  unfold fair
  simp only
  rw [if_neg hd]
  simp [set_of_range]

theorem fair_empty_range_witness :
    (0 : Nat) ≤ 2 ∧
    fair tetrahedron uniform_weights sample_points failing_solver () [] 0 =
      .ok ⟨true, none, sample_points, []⟩ :=
  ⟨by decide,
    fair_empty_range tetrahedron uniform_weights sample_points failing_solver () 0 (by decide)⟩

/-- C5: whenever `fair` returns false, every vertex has the position it had
before the call; and a call that changes a position has made exactly the four
solver calls, all successful: the factorization and the three solves. -/
theorem fair_atomic_on_failure {σ : Type} (pmesh : PolygonMesh)
    (weight_calculator : WeightCalculator) (ppmap : VertexPointMap)
    (solver : Sparse_linear_solver σ) (m_solver : σ) (vertices : List vertex_descriptor)
    (fc : Nat) (r : Fair_outcome)
    (h : fair pmesh weight_calculator ppmap solver m_solver vertices fc = .ok r) :
    (r.result = false → r.ppmap = ppmap) ∧
    (r.ppmap ≠ ppmap → ∃ A Bx By Bz, r.calls =
      [.factor A true, .linear_solver Bx true, .linear_solver By true,
        .linear_solver Bz true]) := by
  rcases fair_cases pmesh weight_calculator ppmap solver m_solver vertices fc r h with
    h1 | ⟨_, _, interior, m, _, _, hr⟩
  · exact ⟨fun _ => h1.1, fun hne => absurd h1.1 hne⟩
  · subst hr
    refine ⟨fun hf => fair_solve_result_false _ _ _ _ _ hf, fun hne => ?_⟩
    have hspec := fair_solve_spec solver m_solver ppmap interior
      (assemble_rows pmesh weight_calculator ppmap (fair_depth fc).toNat interior
        (initial_system m interior.length))
    simp only at hspec
    obtain ⟨hiff, hcalls, _⟩ := hspec
    have hres : (fair_solve solver m_solver ppmap interior
        (assemble_rows pmesh weight_calculator ppmap (fair_depth fc).toNat interior
          (initial_system m interior.length))).result = true := by
      by_contra hc
      exact hne (fair_solve_result_false _ _ _ _ _ (by simpa using hc))
    obtain ⟨h0, h1, h2, h3⟩ := hiff.mp hres
    rw [h0, h1, h2, h3] at hcalls
    exact ⟨_, _, _, _, by simpa using hcalls⟩

theorem fair_atomic_on_failure_witness :
    ∃ r, fair tetrahedron uniform_weights sample_points failing_solver () [0] 0 = .ok r ∧
      r.result = false ∧ r.ppmap = sample_points :=
  ⟨_, by with_unfolding_all rfl, by with_unfolding_all rfl,
    (fair_atomic_on_failure tetrahedron uniform_weights sample_points failing_solver () [0] 0 _
      (by with_unfolding_all rfl)).1 (by with_unfolding_all rfl)⟩

/-- The return value where the pruning does not fault: for a continuity order
in {0,1,2} and a non-empty selection whose pruned set is `interior`, `fair`
returns, having assembled a system `sys` for the pruned set, and it returns
true exactly when `factor(A)` and the three calls of `linear_solver` for `Bx`,
`By`, `Bz` all succeed.  The calls made to the solver are one `factor`, first;
the solves follow only when it succeeded, each one only when the one before
succeeded. -/
theorem fair_result_iff_solver {σ : Type} (pmesh : PolygonMesh)
    (weight_calculator : WeightCalculator) (ppmap : VertexPointMap)
    (solver : Sparse_linear_solver σ) (m_solver : σ)
    (vertices interior : List vertex_descriptor) (fc : Nat)
    (hfc : fc ≤ 2) (hne : vertices ≠ [])
    (hi : interior_vertices pmesh vertices = .ok interior) :
    ∃ r vertex_id_map,
      fair pmesh weight_calculator ppmap solver m_solver vertices fc = .ok r ∧
      build_vertex_id_map interior 0 (fun _ => none) = some vertex_id_map ∧
      let n := interior.length
      let sys := assemble_rows pmesh weight_calculator ppmap (fc + 1) interior
        (initial_system vertex_id_map n)
      let f := solver.factor m_solver sys.A
      let sx := solver.linear_solver f.2 sys.Bx (Solver_vector.create n)
      let sy := solver.linear_solver sx.2 sys.By (Solver_vector.create n)
      let sz := solver.linear_solver sy.2 sys.Bz (Solver_vector.create n)
      (r.result = true ↔
        f.1.1 = true ∧ sx.1.1 = true ∧ sy.1.1 = true ∧ sz.1.1 = true) ∧
      r.calls = Solver_call.factor sys.A f.1.1 ::
        (if f.1.1 = true then
          Solver_call.linear_solver sys.Bx sx.1.1 ::
            (if sx.1.1 = true then
              Solver_call.linear_solver sys.By sy.1.1 ::
                (if sy.1.1 = true then [Solver_call.linear_solver sys.Bz sz.1.1] else [])
              else [])
          else []) := by
  have hdepth : (fair_depth fc).toNat = fc + 1 := by
    rw [fair_depth_of_le_two fc hfc]; omega
  have hd : ¬ (fair_depth fc < 0 ∨ fair_depth fc > 3) := by
    rw [fair_depth_of_le_two fc hfc]; omega
  obtain ⟨m, hb, hfair⟩ := fair_eq_fair_solve pmesh weight_calculator ppmap solver m_solver
    vertices fc interior hd hne hi
  rw [hdepth] at hfair
  have hspec := fair_solve_spec solver m_solver ppmap interior
    (assemble_rows pmesh weight_calculator ppmap (fc + 1) interior
      (initial_system m interior.length))
  exact ⟨_, m, hfair, hb, hspec.1, hspec.2.1⟩

theorem fair_result_iff_solver_witness :
    (0 : Nat) ≤ 2 ∧ ([0] : List vertex_descriptor) ≠ [] ∧
    interior_vertices tetrahedron [0] = .ok [0] ∧
    ∃ r, fair tetrahedron uniform_weights sample_points diagonal_solver none [0] 0 = .ok r ∧
      r.calls ≠ [] :=
  ⟨by decide, by decide, by with_unfolding_all rfl,
    by
      obtain ⟨r, _, hr, _, _, hcalls⟩ :=
        fair_result_iff_solver tetrahedron uniform_weights sample_points diagonal_solver none
          [0] [0] 0 (by decide) (by decide) (by with_unfolding_all rfl)
      refine ⟨r, hr, ?_⟩
      rw [hcalls]
      exact List.cons_ne_nil _ _⟩

/-- A call of `fair` with a continuity order in {0,1,2} on a selection that
has as many entries as the mesh has vertices and whose set has 1 to 9
elements ends in the division by zero of `remove_vertices`. -/
theorem fair_fault_of_small_whole_mesh {σ : Type} (pmesh : PolygonMesh)
    (weight_calculator : WeightCalculator) (ppmap : VertexPointMap)
    (solver : Sparse_linear_solver σ) (m_solver : σ)
    (vertices : List vertex_descriptor) (fc : Nat) (hfc : fc ≤ 2)
    (hall : fair_all_mesh pmesh vertices = true)
    (h1 : 1 ≤ (set_of_range vertices).length) (h9 : (set_of_range vertices).length ≤ 9) :
    fair pmesh weight_calculator ppmap solver m_solver vertices fc =
      .error .division_by_zero := by
  have hd : ¬ (fair_depth fc < 0 ∨ fair_depth fc > 3) := by
    rw [fair_depth_of_le_two fc hfc]; omega
  have hi := (interior_vertices_fault_iff pmesh vertices).mpr ⟨hall, h1, h9⟩
  have hne : set_of_range vertices ≠ [] := by
    intro h0
    rw [h0] at h1
    simp at h1
  unfold fair
  simp only
  rw [if_neg hd, if_neg hne, hi]

/-- C6: on the tetrahedron with its four vertices selected, a non-empty
selection, `fair` does not return for any of the continuity orders 0, 1, 2,
whatever the weights, the positions and the solver.  The range has as many
entries as the mesh has vertices, so `remove_vertices` is called on the set of
four elements, computes `freq = floor(0.01 * 10 * 4) = 0` and evaluates
`1 % 0`.  The call ends there: it returns neither true nor false and `factor`
is not called. -/
theorem fair_small_whole_mesh_never_returns :
    ([0, 1, 2, 3] : List vertex_descriptor) ≠ [] ∧
    fair_all_mesh tetrahedron [0, 1, 2, 3] = true ∧
    set_of_range [0, 1, 2, 3] = [0, 1, 2, 3] ∧
    Rat.floor (1 / 100 * 10 * (([0, 1, 2, 3] : List vertex_descriptor).length : ℚ)) = 0 ∧
    remove_vertices [0, 1, 2, 3] 10 = .error .division_by_zero ∧
    ∀ (σ : Type) (weight_calculator : WeightCalculator) (ppmap : VertexPointMap)
      (solver : Sparse_linear_solver σ) (m_solver : σ) (fc : Fin 3),
      fair tetrahedron weight_calculator ppmap solver m_solver [0, 1, 2, 3] fc.val =
        .error .division_by_zero ∧
      ¬ ∃ r, fair tetrahedron weight_calculator ppmap solver m_solver [0, 1, 2, 3] fc.val =
        .ok r := by
  have hall : fair_all_mesh tetrahedron [0, 1, 2, 3] = true := by decide
  have hset : set_of_range [0, 1, 2, 3] = [0, 1, 2, 3] := by decide
  refine ⟨by decide, hall, hset, ?_, ?_, ?_⟩
  · rw [remove_vertices_freq]
    decide
  · have h := (interior_vertices_fault_iff tetrahedron [0, 1, 2, 3]).mpr
      ⟨hall, by rw [hset]; decide, by rw [hset]; decide⟩
    unfold interior_vertices at h
    rw [if_pos hall, hset] at h
    exact h
  · intro σ weight_calculator ppmap solver m_solver fc
    have h := fair_fault_of_small_whole_mesh tetrahedron weight_calculator ppmap solver
      m_solver [0, 1, 2, 3] fc.val (by omega) hall (by rw [hset]; decide) (by rw [hset]; decide)
    refine ⟨h, ?_⟩
    rintro ⟨r, hr⟩
    rw [h] at hr
    exact absurd hr (by simp)

/-- C7: in every call of `fair` that returns, whatever the returned flag, a
vertex that is not in the free set after pruning has the position it had
before the call. -/
theorem fair_frame {σ : Type} (pmesh : PolygonMesh)
    (weight_calculator : WeightCalculator) (ppmap : VertexPointMap)
    (solver : Sparse_linear_solver σ) (m_solver : σ) (vertices : List vertex_descriptor)
    (fc : Nat) (r : Fair_outcome) (v : vertex_descriptor)
    (h : fair pmesh weight_calculator ppmap solver m_solver vertices fc = .ok r)
    (hv : ∀ interior, interior_vertices pmesh vertices = .ok interior → v ∉ interior) :
    r.ppmap v = ppmap v := by
  rcases fair_cases pmesh weight_calculator ppmap solver m_solver vertices fc r h with
    h1 | ⟨_, _, interior, m, hi, _, hr⟩
  · rw [h1.1]
  · subst hr
    exact fair_solve_frame _ _ _ _ _ _ (hv interior hi)

theorem fair_frame_witness :
    ∃ r, fair tetrahedron uniform_weights sample_points diagonal_solver none [0, 2] 0 = .ok r ∧
      interior_vertices tetrahedron [0, 2] = .ok [0, 2] ∧
      r.ppmap 1 = sample_points 1 :=
  ⟨_, by with_unfolding_all rfl, by with_unfolding_all rfl,
    fair_frame tetrahedron uniform_weights sample_points diagonal_solver none [0, 2] 0 _ 1
      (by with_unfolding_all rfl)
      (by
        intro interior hi
        have h2 : interior_vertices tetrahedron [0, 2] = .ok [0, 2] := by with_unfolding_all rfl
        rw [h2] at hi
        injection hi with hi
        subst hi
        decide)⟩

theorem Vertex_id_map.index_of_some (m : Vertex_id_map) (k : vertex_descriptor) (id : Nat)
    (h : m k = some id) : m.index k = (m, id) := by
  simp [Vertex_id_map.index, h]

/-- C8: in a successful call of `fair` on a non-empty selection, with `X`,
`Y`, `Z` the vectors returned by the three solves, every vertex `vd` of the
pruned free set has an id `i` in the map, which is the row index that
`vertex_id_map[vd]` gives to the assembly, and its new position is
`(X[i], Y[i], Z[i])`. -/
theorem fair_write_back_keyed {σ : Type} (pmesh : PolygonMesh)
    (weight_calculator : WeightCalculator) (ppmap : VertexPointMap)
    (solver : Sparse_linear_solver σ) (m_solver : σ) (vertices : List vertex_descriptor)
    (fc : Nat) (r : Fair_outcome) (hne : vertices ≠ [])
    (h : fair pmesh weight_calculator ppmap solver m_solver vertices fc = .ok r)
    (hres : r.result = true) :
    ∃ interior vertex_id_map,
      interior_vertices pmesh vertices = .ok interior ∧
      build_vertex_id_map interior 0 (fun _ => none) = some vertex_id_map ∧
      let n := interior.length
      let sys := assemble_rows pmesh weight_calculator ppmap (fair_depth fc).toNat interior
        (initial_system vertex_id_map n)
      let f := solver.factor m_solver sys.A
      let sx := solver.linear_solver f.2 sys.Bx (Solver_vector.create n)
      let sy := solver.linear_solver sx.2 sys.By (Solver_vector.create n)
      let sz := solver.linear_solver sy.2 sys.Bz (Solver_vector.create n)
      ∀ vd ∈ interior, ∃ i,
        vertex_id_map vd = some i ∧
        vertex_id_map.index vd = (vertex_id_map, i) ∧
        r.ppmap vd = ⟨sx.1.2.coef i, sy.1.2.coef i, sz.1.2.coef i⟩ := by
  rcases fair_cases pmesh weight_calculator ppmap solver m_solver vertices fc r h with
    ⟨_, _, h1 | h1 | h1⟩ | ⟨_, _, interior, m, hi, hb, hr⟩
  · rw [h1.1] at hres; exact absurd hres (by simp)
  · exact absurd ((set_of_range_eq_nil vertices).mp h1.2.2.2) hne
  · rw [h1.1] at hres; exact absurd hres (by simp)
  · have hnd := interior_vertices_nodup pmesh vertices interior hi
    obtain ⟨m', hm', hget, _⟩ := build_vertex_id_map_ok interior hnd
    rw [hb] at hm'
    injection hm' with hm'
    subst hm'
    refine ⟨interior, m, hi, hb, ?_⟩
    intro n sys f sx sy sz vd hvd
    obtain ⟨k, hk, rfl⟩ := List.mem_iff_get.mp hvd
    have hspec := fair_solve_spec solver m_solver ppmap interior sys
    simp only at hspec
    rw [hr] at hres
    have hpp := hspec.2.2 hres
    refine ⟨k, hget k k.isLt, Vertex_id_map.index_of_some _ _ _ (hget k k.isLt), ?_⟩
    rw [hr, hpp]
    have := update_positions_get sx.1.2 sy.1.2 sz.1.2 interior 0 ppmap hnd k k.isLt
    simpa using this

theorem fair_write_back_keyed_witness :
    ([0] : List vertex_descriptor) ≠ [] ∧
    ∃ r, fair tetrahedron uniform_weights sample_points diagonal_solver none [0] 0
        = .ok r ∧ r.result = true ∧
      ∃ interior vertex_id_map,
        interior_vertices tetrahedron [0] = .ok interior ∧
        build_vertex_id_map interior 0 (fun _ => none) = some vertex_id_map :=
  ⟨by decide, _, by with_unfolding_all rfl, by with_unfolding_all rfl,
    by
      obtain ⟨interior, m, hi, hb, _⟩ :=
        fair_write_back_keyed tetrahedron uniform_weights sample_points diagonal_solver none
          [0] 0 _ (by decide) (by with_unfolding_all rfl) (by with_unfolding_all rfl)
      exact ⟨interior, m, hi, hb⟩⟩

/-- C9: for every input range on which the pruning does not fault, the loop
that builds `vertex_id_map` from the pruned free set never finds a duplicate;
the map gives the id `k` to the vertex at position `k` of the set, has no other
key, is one-to-one on the set and takes exactly the values below the size of
the set.  No call of `fair` returns through the branch that reports
"Duplicate vertex is found!". -/
theorem vertex_id_map_bijection (pmesh : PolygonMesh) (vertices interior : List vertex_descriptor)
    (h : interior_vertices pmesh vertices = .ok interior) :
    (∃ vertex_id_map,
      build_vertex_id_map interior 0 (fun _ => none) = some vertex_id_map ∧
      (∀ (k : Nat) (hk : k < interior.length),
        vertex_id_map (interior.get ⟨k, hk⟩) = some k) ∧
      (∀ v, v ∉ interior → vertex_id_map v = none) ∧
      (∀ u ∈ interior, ∀ v ∈ interior, vertex_id_map u = vertex_id_map v → u = v) ∧
      (∀ i, i < interior.length ↔ ∃ v ∈ interior, vertex_id_map v = some i)) ∧
    (∀ (σ : Type) (weight_calculator : WeightCalculator) (ppmap : VertexPointMap)
      (solver : Sparse_linear_solver σ) (m_solver : σ) (fc : Nat) (r : Fair_outcome),
      fair pmesh weight_calculator ppmap solver m_solver vertices fc = .ok r →
        r.warning ≠ some .duplicate_vertex) := by
  have hnd := interior_vertices_nodup pmesh vertices interior h
  obtain ⟨m, hm, hget, hout⟩ := build_vertex_id_map_ok interior hnd
  refine ⟨⟨m, hm, hget, hout, ?_, ?_⟩, ?_⟩
  · intro u hu v hv huv
    obtain ⟨k, hk, rfl⟩ := List.mem_iff_get.mp hu
    obtain ⟨l, hl, rfl⟩ := List.mem_iff_get.mp hv
    rw [hget k k.isLt, hget l l.isLt] at huv
    injection huv with huv
    have : k = l := Fin.ext huv
    rw [this]
  · intro i
    constructor
    · intro hi
      exact ⟨interior.get ⟨i, hi⟩, List.get_mem _ _ _, hget i hi⟩
    · rintro ⟨v, hv, hvi⟩
      obtain ⟨k, hk, rfl⟩ := List.mem_iff_get.mp hv
      rw [hget k k.isLt] at hvi
      injection hvi with hvi
      rw [← hvi]
      exact k.isLt
  · intro σ weight_calculator ppmap solver m_solver fc r hr
    rcases fair_cases pmesh weight_calculator ppmap solver m_solver vertices fc r hr with
      ⟨_, _, h1 | h1 | h1⟩ | ⟨_, _, interior', m', hi', hb', hr'⟩
    · rw [h1.2.1]; simp
    · rw [h1.2.1]; simp
    · obtain ⟨_, _, interior', hi', hb'⟩ := h1
      rw [h] at hi'
      injection hi' with hi'
      subst hi'
      rw [hm] at hb'
      exact absurd hb' (by simp)
    · subst hr'
      unfold fair_solve
      simp only
      split_ifs <;> simp

theorem vertex_id_map_bijection_witness :
    interior_vertices tetrahedron [2, 0, 2] = .ok [0, 2] ∧
    ∃ vertex_id_map,
      build_vertex_id_map [0, 2] 0 (fun _ => none) = some vertex_id_map ∧
      vertex_id_map 2 = some 1 :=
  ⟨by with_unfolding_all rfl,
    by
      obtain ⟨⟨m, hm, hget, _⟩, _⟩ :=
        vertex_id_map_bijection tetrahedron [2, 0, 2] [0, 2] (by with_unfolding_all rfl)
      exact ⟨m, hm, hget 1 (by decide)⟩⟩

theorem set_of_range_length_of_nodup (vr : List vertex_descriptor) (hnd : vr.Nodup) :
    (set_of_range vr).length = vr.length := by
  have hperm : (set_of_range vr).Perm vr :=
    (List.perm_ext_iff_of_nodup (set_of_range_nodup vr) hnd).mpr (mem_set_of_range vr)
  exact hperm.length_eq

/-- C10: for every mesh with n >= 10 vertices and every selection that lists
each vertex of the mesh once, the pruning does not fault and the set left by
`remove_vertices(interior_vertices, 10)` has strictly fewer than n elements. -/
theorem pruning_shrinks_whole_mesh (pmesh : PolygonMesh) (vertices : List vertex_descriptor)
    (hn : 10 ≤ pmesh.vertices.length) (hnd : vertices.Nodup)
    (hfull : vertices.Perm pmesh.vertices) :
    ∃ interior, interior_vertices pmesh vertices = .ok interior ∧
      remove_vertices (set_of_range vertices) 10 = .ok interior ∧
      (set_of_range vertices).length = pmesh.vertices.length ∧
      interior.length < pmesh.vertices.length := by
  have hlen : vertices.length = pmesh.vertices.length := hfull.length_eq
  have hslen : (set_of_range vertices).length = pmesh.vertices.length := by
    rw [set_of_range_length_of_nodup vertices hnd, hlen]
  have hall : fair_all_mesh pmesh vertices = true := by
    simp [fair_all_mesh, hlen]
  have hrem := remove_vertices_ten (set_of_range vertices) (set_of_range_nodup vertices)
    (by omega)
  refine ⟨_, ?_, hrem, hslen, ?_⟩
  · unfold interior_vertices
    rw [if_pos hall, hrem]
  · rw [hslen]
    have hfreq1 : 1 ≤ pmesh.vertices.length / 10 := by omega
    have hfreq2 : pmesh.vertices.length / 10 ≤ pmesh.vertices.length := Nat.div_le_self _ _
    have hlt := keep_positions_length_lt ((pmesh.vertices.length : Int) / 10) 1
      (set_of_range vertices) (pmesh.vertices.length / 10 - 1) (by omega)
      (by
        have : (1 : Int) + ((pmesh.vertices.length / 10 - 1 : Nat) : Int)
            = (pmesh.vertices.length : Int) / 10 := by omega
        rw [this]
        exact Int.emod_self)
    rw [hslen] at hlt
    exact hlt

theorem pruning_shrinks_whole_mesh_witness :
    10 ≤ ten_vertices.vertices.length ∧ (List.range 10).Nodup ∧
    (List.range 10).Perm ten_vertices.vertices ∧
    ∃ interior, interior_vertices ten_vertices (List.range 10) = .ok interior ∧
      interior.length < ten_vertices.vertices.length :=
  ⟨by decide, by decide, List.Perm.refl _,
    by
      obtain ⟨interior, h1, _, _, h2⟩ :=
        pruning_shrinks_whole_mesh ten_vertices (List.range 10) (by decide) (by decide)
          (List.Perm.refl _)
      exact ⟨interior, h1, h2⟩⟩

/-! ## The row assembler -/

theorem foldl_functional {α β : Type} (φ : β → ℚ) (F : β → α → β) (a : α → ℚ)
    (hF : ∀ s h, φ (F s h) = φ s + a h) (l : List α) (s : β) :
    φ (l.foldl F s) = φ s + (l.map a).sum := by
  induction l generalizing s with
  | nil => simp
  | cons h l ih =>
    simp only [List.foldl_cons, List.map_cons, List.sum_cons]
    rw [ih, hF]
    ring

theorem foldl_invariant {α β : Type} (P : β → Prop) (F : β → α → β)
    (hF : ∀ s h, P s → P (F s h)) (l : List α) (s : β) (hs : P s) : P (l.foldl F s) := by
  induction l generalizing s with
  | nil => exact hs
  | cons h l ih => exact ih _ (hF s h hs)

theorem sum_weight_eq (pmesh : PolygonMesh) (weight_calculator : WeightCalculator)
    (v : vertex_descriptor) :
    sum_weight pmesh weight_calculator v =
      ((halfedges_around_target pmesh v).map weight_calculator.w_ij).sum := by
  unfold sum_weight
  have := foldl_functional (fun q : ℚ => q) (fun weight h => weight + weight_calculator.w_ij h)
    weight_calculator.w_ij (fun _ _ => rfl) (halfedges_around_target pmesh v) 0
  simpa using this

theorem laplacian_expand (w m a : ℚ) (wij : halfedge_descriptor → ℚ)
    (g : halfedge_descriptor → ℚ) (l : List halfedge_descriptor) :
    (l.map (fun h => -(w * wij h) * m * g h)).sum + w * (l.map wij).sum * m * a =
      m * (w * (l.map (fun h => wij h * (a - g h))).sum) := by
  induction l with
  | nil => simp
  | cons h l ih =>
    simp only [List.map_cons, List.sum_cons]
    linear_combination ih

/-- Any quantity `φ` of the row state to which a call at depth 0 adds
`multiplier * g v` receives `multiplier * (L^depth g)(v)` from a call at any
depth. -/
theorem compute_row_functional (pmesh : PolygonMesh) (weight_calculator : WeightCalculator)
    (ppmap : VertexPointMap) (vertex_id_map : Vertex_id_map) (row_id : Nat)
    (φ : Row_state → ℚ) (g : vertex_descriptor → ℚ)
    (hbase : ∀ v multiplier st,
      φ (compute_row pmesh weight_calculator ppmap vertex_id_map row_id 0 v multiplier st) =
        φ st + multiplier * g v)
    (depth : Nat) (v : vertex_descriptor) (multiplier : ℚ) (st : Row_state) :
    φ (compute_row pmesh weight_calculator ppmap vertex_id_map row_id depth v multiplier st) =
      φ st + multiplier * laplacian_pow pmesh weight_calculator depth g v := by
  induction depth generalizing v multiplier st with
  | zero => exact hbase v multiplier st
  | succ d ih =>
    rw [compute_row]
    simp only
    rw [ih, foldl_functional φ _
      (fun h => -(weight_calculator.w_i v * weight_calculator.w_ij h) * multiplier *
        laplacian_pow pmesh weight_calculator d g (pmesh.target (pmesh.opposite h)))
      (fun s h => ih _ _ s), sum_weight_eq]
    rw [add_assoc, laplacian_expand]
    rfl

/-- Any property of the row state that a call at depth 0 keeps is kept by a
call at any depth. -/
theorem compute_row_invariant (pmesh : PolygonMesh) (weight_calculator : WeightCalculator)
    (ppmap : VertexPointMap) (vertex_id_map : Vertex_id_map) (row_id : Nat)
    (P : Row_state → Prop)
    (hbase : ∀ v multiplier st, P st →
      P (compute_row pmesh weight_calculator ppmap vertex_id_map row_id 0 v multiplier st))
    (depth : Nat) (v : vertex_descriptor) (multiplier : ℚ) (st : Row_state) (hst : P st) :
    P (compute_row pmesh weight_calculator ppmap vertex_id_map row_id depth v multiplier st) := by
  induction depth generalizing v multiplier st with
  | zero => exact hbase v multiplier st hst
  | succ d ih =>
    rw [compute_row]
    simp only
    exact ih _ _ _ (foldl_invariant P _ (fun s h hs => ih _ _ s hs) _ st hst)

theorem compute_row_coef (pmesh : PolygonMesh) (weight_calculator : WeightCalculator)
    (ppmap : VertexPointMap) (vertex_id_map : Vertex_id_map) (row_id : Nat)
    (depth : Nat) (v : vertex_descriptor) (multiplier : ℚ) (st : Row_state) (c : Nat) :
    (compute_row pmesh weight_calculator ppmap vertex_id_map row_id depth v multiplier
        st).matrix.coef row_id c =
      st.matrix.coef row_id c + multiplier * laplacian_pow pmesh weight_calculator depth
        (fun u => if vertex_id_map u = some c then 1 else 0) v := by
  refine compute_row_functional pmesh weight_calculator ppmap vertex_id_map row_id
    (fun s => s.matrix.coef row_id c) _ ?_ depth v multiplier st
  intro v m s
  simp only [compute_row]
  cases hv : vertex_id_map v with
  | none => simp
  | some col =>
    by_cases hc : c = col
    · subst hc; simp [Solver_matrix.add_coef]
    · have hc' : ¬ col = c := fun h => hc h.symm
      simp [Solver_matrix.add_coef, hc, hc']

theorem compute_row_other_rows (pmesh : PolygonMesh) (weight_calculator : WeightCalculator)
    (ppmap : VertexPointMap) (vertex_id_map : Vertex_id_map) (row_id : Nat)
    (depth : Nat) (v : vertex_descriptor) (multiplier : ℚ) (st : Row_state) (r c : Nat)
    (hr : r ≠ row_id) :
    (compute_row pmesh weight_calculator ppmap vertex_id_map row_id depth v multiplier
        st).matrix.coef r c = st.matrix.coef r c := by
  refine compute_row_invariant pmesh weight_calculator ppmap vertex_id_map row_id
    (fun s => s.matrix.coef r c = st.matrix.coef r c) ?_ depth v multiplier st rfl
  intro v m s hs
  simp only [compute_row]
  cases hv : vertex_id_map v with
  | none => simpa using hs
  | some col => simpa [Solver_matrix.add_coef, hr] using hs

theorem compute_row_dimension (pmesh : PolygonMesh) (weight_calculator : WeightCalculator)
    (ppmap : VertexPointMap) (vertex_id_map : Vertex_id_map) (row_id : Nat)
    (depth : Nat) (v : vertex_descriptor) (multiplier : ℚ) (st : Row_state) :
    (compute_row pmesh weight_calculator ppmap vertex_id_map row_id depth v multiplier
        st).matrix.dimension = st.matrix.dimension := by
  refine compute_row_invariant pmesh weight_calculator ppmap vertex_id_map row_id
    (fun s => s.matrix.dimension = st.matrix.dimension) ?_ depth v multiplier st rfl
  intro v m s hs
  simp only [compute_row]
  cases hv : vertex_id_map v with
  | none => simpa using hs
  | some col => simpa [Solver_matrix.add_coef] using hs

theorem compute_row_x (pmesh : PolygonMesh) (weight_calculator : WeightCalculator)
    (ppmap : VertexPointMap) (vertex_id_map : Vertex_id_map) (row_id : Nat)
    (depth : Nat) (v : vertex_descriptor) (multiplier : ℚ) (st : Row_state) :
    (compute_row pmesh weight_calculator ppmap vertex_id_map row_id depth v multiplier st).x =
      st.x + multiplier * laplacian_pow pmesh weight_calculator depth
        (fun u => if vertex_id_map u = none then -(ppmap u).x else 0) v := by
  refine compute_row_functional pmesh weight_calculator ppmap vertex_id_map row_id
    (fun s => s.x) _ ?_ depth v multiplier st
  intro v m s
  simp only [compute_row]
  cases hv : vertex_id_map v with
  | none => simp
  | some col => simp

theorem compute_row_y (pmesh : PolygonMesh) (weight_calculator : WeightCalculator)
    (ppmap : VertexPointMap) (vertex_id_map : Vertex_id_map) (row_id : Nat)
    (depth : Nat) (v : vertex_descriptor) (multiplier : ℚ) (st : Row_state) :
    (compute_row pmesh weight_calculator ppmap vertex_id_map row_id depth v multiplier st).y =
      st.y + multiplier * laplacian_pow pmesh weight_calculator depth
        (fun u => if vertex_id_map u = none then -(ppmap u).y else 0) v := by
  refine compute_row_functional pmesh weight_calculator ppmap vertex_id_map row_id
    (fun s => s.y) _ ?_ depth v multiplier st
  intro v m s
  simp only [compute_row]
  cases hv : vertex_id_map v with
  | none => simp
  | some col => simp

theorem compute_row_z (pmesh : PolygonMesh) (weight_calculator : WeightCalculator)
    (ppmap : VertexPointMap) (vertex_id_map : Vertex_id_map) (row_id : Nat)
    (depth : Nat) (v : vertex_descriptor) (multiplier : ℚ) (st : Row_state) :
    (compute_row pmesh weight_calculator ppmap vertex_id_map row_id depth v multiplier st).z =
      st.z + multiplier * laplacian_pow pmesh weight_calculator depth
        (fun u => if vertex_id_map u = none then -(ppmap u).z else 0) v := by
  refine compute_row_functional pmesh weight_calculator ppmap vertex_id_map row_id
    (fun s => s.z) _ ?_ depth v multiplier st
  intro v m s
  simp only [compute_row]
  cases hv : vertex_id_map v with
  | none => simp
  | some col => simp

/-! ### Linearity of the powers of the Laplacian -/

theorem laplacian_add (pmesh : PolygonMesh) (weight_calculator : WeightCalculator)
    (f g : vertex_descriptor → ℚ) (u : vertex_descriptor) :
    laplacian pmesh weight_calculator (fun w => f w + g w) u =
      laplacian pmesh weight_calculator f u + laplacian pmesh weight_calculator g u := by
  unfold laplacian
  rw [← mul_add]
  congr 1
  induction halfedges_around_target pmesh u with
  | nil => simp
  | cons h l ih =>
    simp only [List.map_cons, List.sum_cons]
    rw [ih]; ring

theorem laplacian_smul (pmesh : PolygonMesh) (weight_calculator : WeightCalculator)
    (k : ℚ) (f : vertex_descriptor → ℚ) (u : vertex_descriptor) :
    laplacian pmesh weight_calculator (fun w => k * f w) u =
      k * laplacian pmesh weight_calculator f u := by
  unfold laplacian
  rw [mul_left_comm]
  congr 1
  induction halfedges_around_target pmesh u with
  | nil => simp
  | cons h l ih =>
    simp only [List.map_cons, List.sum_cons]
    rw [ih]; ring

theorem laplacian_pow_add (pmesh : PolygonMesh) (weight_calculator : WeightCalculator)
    (d : Nat) (f g : vertex_descriptor → ℚ) (u : vertex_descriptor) :
    laplacian_pow pmesh weight_calculator d (fun w => f w + g w) u =
      laplacian_pow pmesh weight_calculator d f u +
        laplacian_pow pmesh weight_calculator d g u := by
  induction d generalizing u with
  | zero => rfl
  | succ d ih =>
    simp only [laplacian_pow]
    rw [← laplacian_add]
    congr 1
    funext w
    exact ih w

theorem laplacian_pow_smul (pmesh : PolygonMesh) (weight_calculator : WeightCalculator)
    (d : Nat) (k : ℚ) (f : vertex_descriptor → ℚ) (u : vertex_descriptor) :
    laplacian_pow pmesh weight_calculator d (fun w => k * f w) u =
      k * laplacian_pow pmesh weight_calculator d f u := by
  induction d generalizing u with
  | zero => rfl
  | succ d ih =>
    simp only [laplacian_pow]
    rw [← laplacian_smul]
    congr 1
    funext w
    exact ih w

theorem laplacian_pow_zero_fun (pmesh : PolygonMesh) (weight_calculator : WeightCalculator)
    (d : Nat) (u : vertex_descriptor) :
    laplacian_pow pmesh weight_calculator d (fun _ => 0) u = 0 := by
  have := laplacian_pow_smul pmesh weight_calculator d 0 (fun _ => 0) u
  simpa using this

theorem laplacian_pow_sum (pmesh : PolygonMesh) (weight_calculator : WeightCalculator)
    (d : Nat) (s : Finset Nat) (k : Nat → ℚ) (f : Nat → vertex_descriptor → ℚ)
    (u : vertex_descriptor) :
    laplacian_pow pmesh weight_calculator d (fun w => ∑ c ∈ s, k c * f c w) u =
      ∑ c ∈ s, k c * laplacian_pow pmesh weight_calculator d (f c) u := by
  induction s using Finset.induction_on with
  | empty => simpa using laplacian_pow_zero_fun pmesh weight_calculator d u
  | insert hc ih =>
    rename_i c s
    simp only [Finset.sum_insert hc]
    rw [laplacian_pow_add, laplacian_pow_smul, ih]

/-! ### Coefficients of a power of the Laplacian -/

theorem coefficients_add (F G : (vertex_descriptor → ℚ) → ℚ)
    (hF : ∃ (U : Finset vertex_descriptor) (a : vertex_descriptor → ℚ),
      ∀ f, F f = ∑ u ∈ U, a u * f u)
    (hG : ∃ (U : Finset vertex_descriptor) (a : vertex_descriptor → ℚ),
      ∀ f, G f = ∑ u ∈ U, a u * f u) :
    ∃ (U : Finset vertex_descriptor) (a : vertex_descriptor → ℚ),
      ∀ f, F f + G f = ∑ u ∈ U, a u * f u := by
  obtain ⟨U1, a1, h1⟩ := hF
  obtain ⟨U2, a2, h2⟩ := hG
  refine ⟨U1 ∪ U2, fun u => (if u ∈ U1 then a1 u else 0) + (if u ∈ U2 then a2 u else 0), ?_⟩
  intro f
  have e1 : ∑ u ∈ U1, a1 u * f u = ∑ u ∈ U1 ∪ U2, (if u ∈ U1 then a1 u else 0) * f u := by
    rw [← Finset.sum_subset Finset.subset_union_left
      (fun x _ hx => by simp [hx] : ∀ x ∈ U1 ∪ U2, x ∉ U1 →
        (if x ∈ U1 then a1 x else 0) * f x = 0)]
    exact Finset.sum_congr rfl (fun x hx => by simp [hx])
  have e2 : ∑ u ∈ U2, a2 u * f u = ∑ u ∈ U1 ∪ U2, (if u ∈ U2 then a2 u else 0) * f u := by
    rw [← Finset.sum_subset Finset.subset_union_right
      (fun x _ hx => by simp [hx] : ∀ x ∈ U1 ∪ U2, x ∉ U2 →
        (if x ∈ U2 then a2 x else 0) * f x = 0)]
    exact Finset.sum_congr rfl (fun x hx => by simp [hx])
  rw [h1, h2, e1, e2, ← Finset.sum_add_distrib]
  exact Finset.sum_congr rfl (fun x _ => by ring)

theorem coefficients_smul (k : ℚ) (F : (vertex_descriptor → ℚ) → ℚ)
    (hF : ∃ (U : Finset vertex_descriptor) (a : vertex_descriptor → ℚ),
      ∀ f, F f = ∑ u ∈ U, a u * f u) :
    ∃ (U : Finset vertex_descriptor) (a : vertex_descriptor → ℚ),
      ∀ f, k * F f = ∑ u ∈ U, a u * f u := by
  obtain ⟨U, a, h⟩ := hF
  refine ⟨U, fun u => k * a u, fun f => ?_⟩
  rw [h, Finset.mul_sum]
  exact Finset.sum_congr rfl (fun x _ => by ring)

theorem coefficients_list_sum {α : Type} (l : List α) (F : α → (vertex_descriptor → ℚ) → ℚ)
    (hF : ∀ h, ∃ (U : Finset vertex_descriptor) (a : vertex_descriptor → ℚ),
      ∀ f, F h f = ∑ u ∈ U, a u * f u) :
    ∃ (U : Finset vertex_descriptor) (a : vertex_descriptor → ℚ),
      ∀ f, (l.map (fun h => F h f)).sum = ∑ u ∈ U, a u * f u := by
  induction l with
  | nil => exact ⟨∅, fun _ => 0, fun f => by simp⟩
  | cons h l ih =>
    simp only [List.map_cons, List.sum_cons]
    exact coefficients_add (F h) (fun f => (l.map (fun h => F h f)).sum) (hF h) ih

/-- Every power of the Laplacian at a vertex is a finite linear combination
of the values of its argument. -/
theorem laplacian_pow_coefficients (pmesh : PolygonMesh) (weight_calculator : WeightCalculator)
    (d : Nat) (v : vertex_descriptor) :
    ∃ (U : Finset vertex_descriptor) (a : vertex_descriptor → ℚ),
      ∀ f, laplacian_pow pmesh weight_calculator d f v = ∑ u ∈ U, a u * f u := by
  induction d generalizing v with
  | zero => exact ⟨{v}, fun _ => 1, fun f => by simp [laplacian_pow]⟩
  | succ d ih =>
    simp only [laplacian_pow, laplacian]
    refine coefficients_smul _ _ (coefficients_list_sum _
      (fun h f => weight_calculator.w_ij h *
        (laplacian_pow pmesh weight_calculator d f v -
          laplacian_pow pmesh weight_calculator d f (pmesh.target (pmesh.opposite h))))
      (fun h => coefficients_smul _ _ ?_))
    have h2 := coefficients_smul (-1) _ (ih (pmesh.target (pmesh.opposite h)))
    obtain ⟨U, a, hU⟩ := coefficients_add _ _ (ih v) h2
    exact ⟨U, a, fun f => by rw [← hU]; ring⟩

/-- C2: `compute_row` expands the `depth`-th power of the weighted Laplacian.
The functional `f ↦ multiplier * (L^depth f)(v)` has coefficients `a` on a
finite set `U` of vertices, and for every such `U` and `a` the call adds to
`A[row_id][c]` the sum of the `a u` over the `u` of `U` with id `c` (nothing
to the other rows, and the dimension is kept) and adds to `(x, y, z)` minus
the sum of `a u * position(u)` over the `u` of `U` that are not in the id map.
At depth 0 a vertex with id `c` gets `A[row_id][c] += multiplier` and nothing
else changes, and a vertex without id gets
`(x, y, z) -= multiplier * position(v)` and the matrix is unchanged. -/
theorem compute_row_expands_laplacian_pow (pmesh : PolygonMesh)
    (weight_calculator : WeightCalculator) (ppmap : VertexPointMap)
    (vertex_id_map : Vertex_id_map) (row_id : Nat) (depth : Nat) (v : vertex_descriptor)
    (multiplier : ℚ) (st : Row_state) :
    (∃ (U : Finset vertex_descriptor) (a : vertex_descriptor → ℚ),
      ∀ f, multiplier * laplacian_pow pmesh weight_calculator depth f v = ∑ u ∈ U, a u * f u) ∧
    (∀ (U : Finset vertex_descriptor) (a : vertex_descriptor → ℚ),
      (∀ f, multiplier * laplacian_pow pmesh weight_calculator depth f v
        = ∑ u ∈ U, a u * f u) →
      let st' := compute_row pmesh weight_calculator ppmap vertex_id_map row_id depth v
        multiplier st
      (∀ r c, st'.matrix.coef r c = st.matrix.coef r c +
        if r = row_id then ∑ u ∈ U.filter (fun u => vertex_id_map u = some c), a u else 0) ∧
      st'.matrix.dimension = st.matrix.dimension ∧
      st'.x = st.x - ∑ u ∈ U.filter (fun u => vertex_id_map u = none), a u * (ppmap u).x ∧
      st'.y = st.y - ∑ u ∈ U.filter (fun u => vertex_id_map u = none), a u * (ppmap u).y ∧
      st'.z = st.z - ∑ u ∈ U.filter (fun u => vertex_id_map u = none), a u * (ppmap u).z) ∧
    (∀ c, vertex_id_map v = some c →
      compute_row pmesh weight_calculator ppmap vertex_id_map row_id 0 v multiplier st =
        ⟨st.matrix.add_coef row_id c multiplier, st.x, st.y, st.z⟩) ∧
    (vertex_id_map v = none →
      compute_row pmesh weight_calculator ppmap vertex_id_map row_id 0 v multiplier st =
        ⟨st.matrix, st.x - multiplier * (ppmap v).x, st.y - multiplier * (ppmap v).y,
          st.z - multiplier * (ppmap v).z⟩) := by
  refine ⟨coefficients_smul multiplier _
    (laplacian_pow_coefficients pmesh weight_calculator depth v), ?_, ?_, ?_⟩
  · intro U a ha st'
    refine ⟨fun r c => ?_, compute_row_dimension _ _ _ _ _ _ _ _ _, ?_, ?_, ?_⟩
    · by_cases hr : r = row_id
      · subst hr
        simp only [st', if_true]
        rw [compute_row_coef, ha, Finset.sum_filter]
        congr 1
        exact Finset.sum_congr rfl (fun u _ => by split_ifs <;> simp)
      · simp only [st', if_neg hr, add_zero]
        exact compute_row_other_rows _ _ _ _ _ _ _ _ _ _ _ hr
    · simp only [st']
      rw [compute_row_x, ha, Finset.sum_filter, sub_eq_add_neg, ← Finset.sum_neg_distrib]
      congr 1
      exact Finset.sum_congr rfl (fun u _ => by split_ifs <;> simp)
    · simp only [st']
      rw [compute_row_y, ha, Finset.sum_filter, sub_eq_add_neg, ← Finset.sum_neg_distrib]
      congr 1
      exact Finset.sum_congr rfl (fun u _ => by split_ifs <;> simp)
    · simp only [st']
      rw [compute_row_z, ha, Finset.sum_filter, sub_eq_add_neg, ← Finset.sum_neg_distrib]
      congr 1
      exact Finset.sum_congr rfl (fun u _ => by split_ifs <;> simp)
  · intro c hc
    simp [compute_row, hc]
  · intro hv
    simp [compute_row, hv, sub_eq_add_neg]

theorem compute_row_expands_laplacian_pow_witness :
    (∀ f : vertex_descriptor → ℚ,
      (2 : ℚ) * laplacian_pow tetrahedron uniform_weights 1 f 0 =
        ∑ u ∈ ({0, 1, 2, 3} : Finset vertex_descriptor),
          (if u = 0 then (6 : ℚ) else -2) * f u) ∧
    (compute_row tetrahedron uniform_weights sample_points
      (fun u => if u = 0 then some 0 else none) 0 1 0 2
      ⟨Solver_matrix.create 1, 0, 0, 0⟩).x = 12 :=
  have ha : ∀ f : vertex_descriptor → ℚ,
      (2 : ℚ) * laplacian_pow tetrahedron uniform_weights 1 f 0 =
        ∑ u ∈ ({0, 1, 2, 3} : Finset vertex_descriptor),
          (if u = 0 then (6 : ℚ) else -2) * f u := by
    intro f
    simp [laplacian_pow, laplacian, halfedges_around_target, tetrahedron, uniform_weights,
      Finset.sum_insert]
    ring
  ⟨ha, by
    have h := ((compute_row_expands_laplacian_pow tetrahedron uniform_weights sample_points
      (fun u => if u = 0 then some 0 else none) 0 1 0 2
      ⟨Solver_matrix.create 1, 0, 0, 0⟩).2.1 _ _ ha).2.2.1
    rw [h]
    simp only [Finset.sum_filter]
    simp [Finset.sum_insert, sample_points]
    norm_num⟩

/-! ## The assembled system -/

theorem sum_map_ite_unique {α : Type} (l : List α) (P : α → Prop) [DecidablePred P]
    (F : α → ℚ) (v : α) (hnd : l.Nodup) (hv : v ∈ l) (hP : ∀ u ∈ l, P u ↔ u = v) :
    (l.map (fun u => if P u then F u else 0)).sum = F v := by
  induction l with
  | nil => simp at hv
  | cons a l ih =>
    have hnd' := List.nodup_cons.mp hnd
    simp only [List.map_cons, List.sum_cons]
    by_cases hav : a = v
    · subst hav
      have hzero : (l.map (fun u => if P u then F u else 0)).sum = 0 := by
        apply List.sum_eq_zero
        intro x hx
        obtain ⟨u, hu, rfl⟩ := List.mem_map.mp hx
        have hne : ¬ P u := by
          intro hpu
          have := (hP u (List.mem_cons_of_mem _ hu)).mp hpu
          exact hnd'.1 (this ▸ hu)
        simp [hne]
      rw [hzero, if_pos ((hP a (List.mem_cons_self _ _)).mpr rfl), add_zero]
    · have hna : ¬ P a := fun hpa => hav ((hP a (List.mem_cons_self _ _)).mp hpa)
      have hvl : v ∈ l := by
        rcases List.mem_cons.mp hv with h | h
        · exact absurd h.symm hav
        · exact h
      rw [if_neg hna, zero_add]
      exact ih hnd'.2 hvl (fun u hu => hP u (List.mem_cons_of_mem _ hu))

/-- The rows assembled by the loop of `fair`, as sums over the vertices
processed. -/
theorem assemble_rows_spec (pmesh : PolygonMesh) (weight_calculator : WeightCalculator)
    (ppmap : VertexPointMap) (depth : Nat) (vertex_id_map : Vertex_id_map)
    (l : List vertex_descriptor) (sys : Linear_system)
    (hl : ∀ vd ∈ l, ∃ i, vertex_id_map vd = some i)
    (hsys : sys.vertex_id_map = vertex_id_map) :
    (assemble_rows pmesh weight_calculator ppmap depth l sys).vertex_id_map = vertex_id_map ∧
    (assemble_rows pmesh weight_calculator ppmap depth l sys).A.dimension = sys.A.dimension ∧
    (∀ r c, (assemble_rows pmesh weight_calculator ppmap depth l sys).A.coef r c =
      sys.A.coef r c + (l.map (fun vd => if vertex_id_map vd = some r then
        laplacian_pow pmesh weight_calculator depth
          (fun u => if vertex_id_map u = some c then 1 else 0) vd else 0)).sum) ∧
    (∀ r, (assemble_rows pmesh weight_calculator ppmap depth l sys).Bx.coef r =
      sys.Bx.coef r + (l.map (fun vd => if vertex_id_map vd = some r then
        laplacian_pow pmesh weight_calculator depth
          (fun u => if vertex_id_map u = none then -(ppmap u).x else 0) vd else 0)).sum) ∧
    (∀ r, (assemble_rows pmesh weight_calculator ppmap depth l sys).By.coef r =
      sys.By.coef r + (l.map (fun vd => if vertex_id_map vd = some r then
        laplacian_pow pmesh weight_calculator depth
          (fun u => if vertex_id_map u = none then -(ppmap u).y else 0) vd else 0)).sum) ∧
    (∀ r, (assemble_rows pmesh weight_calculator ppmap depth l sys).Bz.coef r =
      sys.Bz.coef r + (l.map (fun vd => if vertex_id_map vd = some r then
        laplacian_pow pmesh weight_calculator depth
          (fun u => if vertex_id_map u = none then -(ppmap u).z else 0) vd else 0)).sum) := by
  induction l generalizing sys with
  | nil => simp [assemble_rows, hsys]
  | cons vd rest ih =>
    obtain ⟨i, hi⟩ := hl vd (List.mem_cons_self _ _)
    have hidx : sys.vertex_id_map.index vd = (vertex_id_map, i) := by
      rw [hsys]; exact Vertex_id_map.index_of_some _ _ _ hi
    have hrest : ∀ vd ∈ rest, ∃ i, vertex_id_map vd = some i :=
      fun u hu => hl u (List.mem_cons_of_mem _ hu)
    simp only [assemble_rows, hidx]
    obtain ⟨h1, h2, h3, h4, h5, h6⟩ := ih (Linear_system.mk vertex_id_map _ _ _ _) hrest rfl
    refine ⟨h1, ?_, ?_, ?_, ?_, ?_⟩
    · rw [h2]; exact compute_row_dimension _ _ _ _ _ _ _ _ _
    · intro r c
      rw [h3]
      simp only [List.map_cons, List.sum_cons, hi, Option.some.injEq]
      by_cases hr : r = i
      · subst hr
        rw [compute_row_coef]
        simp
        ring
      · have hr' : ¬ i = r := fun h => hr h.symm
        rw [compute_row_other_rows _ _ _ _ _ _ _ _ _ _ _ hr]
        simp [hr']
    · intro r
      rw [h4]
      simp only [List.map_cons, List.sum_cons, hi, Option.some.injEq, Solver_vector.set]
      by_cases hr : r = i
      · subst hr
        rw [compute_row_x]
        simp
        ring
      · have hr' : ¬ i = r := fun h => hr h.symm
        simp [hr, hr']
    · intro r
      rw [h5]
      simp only [List.map_cons, List.sum_cons, hi, Option.some.injEq, Solver_vector.set]
      by_cases hr : r = i
      · subst hr
        rw [compute_row_y]
        simp
        ring
      · have hr' : ¬ i = r := fun h => hr h.symm
        simp [hr, hr']
    · intro r
      rw [h6]
      simp only [List.map_cons, List.sum_cons, hi, Option.some.injEq, Solver_vector.set]
      by_cases hr : r = i
      · subst hr
        rw [compute_row_z]
        simp
        ring
      · have hr' : ¬ i = r := fun h => hr h.symm
        simp [hr, hr']

theorem mul_vec_eq_sum (A : Solver_matrix) (X : Solver_vector) (r : Nat) :
    mul_vec A X r = ∑ c ∈ Finset.range A.dimension, A.coef r c * X.coef c := by
  unfold mul_vec
  rfl

/-- The identity behind the solution characterisation, for one coordinate: if
the row `A`, `B` of the system is the row of `v` and `X` solves it, the function that is
`X[id(u)]` on the vertices with an id and the old coordinate elsewhere is
annihilated at `v` by the power of the Laplacian. -/
theorem laplacian_pow_solution (pmesh : PolygonMesh) (weight_calculator : WeightCalculator)
    (depth n : Nat) (vertex_id_map : Vertex_id_map) (v : vertex_descriptor)
    (q p : vertex_descriptor → ℚ) (X : Nat → ℚ) (A : Nat → ℚ) (B : ℚ)
    (hA : ∀ c, A c = laplacian_pow pmesh weight_calculator depth
      (fun u => if vertex_id_map u = some c then 1 else 0) v)
    (hB : B = laplacian_pow pmesh weight_calculator depth
      (fun u => if vertex_id_map u = none then -(q u) else 0) v)
    (hsol : ∑ c ∈ Finset.range n, A c * X c = B)
    (hsome : ∀ u j, vertex_id_map u = some j → j < n ∧ p u = X j)
    (hnone : ∀ u, vertex_id_map u = none → p u = q u) :
    laplacian_pow pmesh weight_calculator depth p v = 0 := by
  have hp : p = fun u =>
      (∑ c ∈ Finset.range n, X c * (if vertex_id_map u = some c then (1 : ℚ) else 0)) +
        (-1) * (if vertex_id_map u = none then -(q u) else 0) := by
    funext u
    cases hu : vertex_id_map u with
    | none =>
      rw [hnone u hu]
      simp
    | some j =>
      obtain ⟨hj, hpu⟩ := hsome u j hu
      rw [hpu]
      simp only [Option.some.injEq, reduceCtorEq, if_false, mul_zero, add_zero]
      rw [Finset.sum_eq_single j]
      · simp
      · intro c _ hc
        have : ¬ j = c := fun h => hc h.symm
        simp [this]
      · intro hj'
        exact absurd (Finset.mem_range.mpr hj) hj'
  rw [hp, laplacian_pow_add, laplacian_pow_smul, laplacian_pow_sum, ← hB, ← hsol]
  rw [neg_one_mul, add_neg_eq_zero]
  exact Finset.sum_congr rfl (fun c _ => by rw [hA c]; ring)

/-- With a solver that meets its postcondition, a successful solve stage
writes back vectors that solve the three systems. -/
theorem fair_solve_exact {σ : Type} (solver : Sparse_linear_solver σ) (m_solver : σ)
    (ppmap : VertexPointMap) (interior : List vertex_descriptor) (sys : Linear_system)
    (hsolver : Solver_postcondition solver)
    (hres : (fair_solve solver m_solver ppmap interior sys).result = true) :
    ∃ X Y Z : Solver_vector,
      (fair_solve solver m_solver ppmap interior sys).ppmap =
        update_positions X Y Z interior 0 ppmap ∧
      ∀ r, r < sys.A.dimension →
        mul_vec sys.A X r = sys.Bx.coef r ∧ mul_vec sys.A Y r = sys.By.coef r ∧
          mul_vec sys.A Z r = sys.Bz.coef r := by
  have hspec := fair_solve_spec solver m_solver ppmap interior sys
  simp only at hspec
  obtain ⟨hiff, _, hpp⟩ := hspec
  obtain ⟨h0, hx, hy, hz⟩ := hiff.mp hres
  have hf0 : Factored solver sys.A (solver.factor m_solver sys.A).2 :=
    Factored.factor m_solver h0
  have hf1 := Factored.linear_solver (solver.factor m_solver sys.A).2 sys.Bx
    (Solver_vector.create interior.length) hf0
  have hf2 := Factored.linear_solver _ sys.By (Solver_vector.create interior.length) hf1
  exact ⟨_, _, _, hpp hres, fun r hr =>
    ⟨hsolver _ _ hf0 _ _ hx r hr, hsolver _ _ hf1 _ _ hy r hr, hsolver _ _ hf2 _ _ hz r hr⟩⟩

/-- C1: for a continuity order `fc` in {0,1,2}, a non-empty selection and a
solver that meets its postcondition, if `fair` returns true then the positions
after the call are the old ones outside the pruned free set, and at every
vertex `v` of the pruned free set the power `L^(fc+1)` of the weighted
Laplacian annihilates each of the three coordinate functions of the new
positions. -/
theorem fair_solution_characterisation {σ : Type} (pmesh : PolygonMesh)
    (weight_calculator : WeightCalculator) (ppmap : VertexPointMap)
    (solver : Sparse_linear_solver σ) (m_solver : σ) (vertices : List vertex_descriptor)
    (fc : Nat) (r : Fair_outcome) (hfc : fc ≤ 2) (hne : vertices ≠ [])
    (hsolver : Solver_postcondition solver)
    (h : fair pmesh weight_calculator ppmap solver m_solver vertices fc = .ok r)
    (hres : r.result = true) :
    ∃ interior, interior_vertices pmesh vertices = .ok interior ∧
      (∀ u, u ∉ interior → r.ppmap u = ppmap u) ∧
      ∀ v ∈ interior,
        laplacian_pow pmesh weight_calculator (fc + 1) (fun u => (r.ppmap u).x) v = 0 ∧
        laplacian_pow pmesh weight_calculator (fc + 1) (fun u => (r.ppmap u).y) v = 0 ∧
        laplacian_pow pmesh weight_calculator (fc + 1) (fun u => (r.ppmap u).z) v = 0 := by
  have hdepth : (fair_depth fc).toNat = fc + 1 := by
    rw [fair_depth_of_le_two fc hfc]; omega
  rcases fair_cases pmesh weight_calculator ppmap solver m_solver vertices fc r h with
    ⟨_, _, h1 | h1 | h1⟩ | ⟨_, _, interior, m, hi, hb, hr⟩
  · rw [h1.1] at hres; exact absurd hres (by simp)
  · exact absurd ((set_of_range_eq_nil vertices).mp h1.2.2.2) hne
  · rw [h1.1] at hres; exact absurd hres (by simp)
  · rw [hdepth] at hr
    have hnd := interior_vertices_nodup pmesh vertices interior hi
    obtain ⟨m', hm', hget, hout⟩ := build_vertex_id_map_ok interior hnd
    rw [hb] at hm'
    injection hm' with hm'
    subst hm'
    -- the assembled system
    have hkeys : ∀ vd ∈ interior, ∃ i, m vd = some i := by
      intro vd hvd
      obtain ⟨k, hk, rfl⟩ := List.mem_iff_get.mp hvd
      exact ⟨k, hget k k.isLt⟩
    obtain ⟨_, hdim, hA, hBx, hBy, hBz⟩ := assemble_rows_spec pmesh weight_calculator ppmap
      (fc + 1) m interior (initial_system m interior.length) hkeys rfl
    generalize hsys : assemble_rows pmesh weight_calculator ppmap (fc + 1) interior
      (initial_system m interior.length) = sys at hr hdim hA hBx hBy hBz
    -- the solver calls
    rw [hr] at hres
    obtain ⟨X, Y, Z, hpp, hsol⟩ := fair_solve_exact solver m_solver ppmap interior _ hsolver hres
    rw [← hr] at hpp
    refine ⟨interior, hi, ?_, ?_⟩
    · intro u hu
      rw [hpp]
      exact update_positions_of_not_mem _ _ _ _ _ _ _ hu
    · intro v hv
      obtain ⟨k, hk, rfl⟩ := List.mem_iff_get.mp hv
      have hkn : (k : Nat) < sys.A.dimension := by
        rw [hdim]; exact k.isLt
      have hrow : ∀ (F : vertex_descriptor → ℚ),
          (interior.map (fun vd => if m vd = some (k : Nat) then F vd else 0)).sum =
            F (interior.get k) := by
        intro F
        refine sum_map_ite_unique interior _ F _ hnd (List.get_mem _ _ _) ?_
        intro u hu
        obtain ⟨j, hj, rfl⟩ := List.mem_iff_get.mp hu
        rw [hget j j.isLt]
        constructor
        · intro hjk
          injection hjk with hjk
          rw [Fin.ext hjk]
        · intro hjk
          have := (List.Nodup.get_inj_iff hnd).mp hjk
          rw [this]
      have hsome : ∀ u j, m u = some j → j < interior.length ∧
          r.ppmap u = ⟨X.coef j, Y.coef j, Z.coef j⟩ := by
        intro u j huj
        have hu : u ∈ interior := by
          by_contra hc
          rw [hout u hc] at huj
          exact absurd huj (by simp)
        obtain ⟨l, hl, rfl⟩ := List.mem_iff_get.mp hu
        rw [hget l l.isLt] at huj
        injection huj with huj
        subst huj
        refine ⟨l.isLt, ?_⟩
        rw [hpp]
        have := update_positions_get X Y Z interior 0 ppmap hnd l l.isLt
        simpa using this
      have hnone : ∀ u, m u = none → r.ppmap u = ppmap u := by
        intro u hu
        have hu' : u ∉ interior := by
          intro hc
          obtain ⟨i, hi'⟩ := hkeys u hc
          rw [hu] at hi'
          exact absurd hi' (by simp)
        rw [hpp]
        exact update_positions_of_not_mem _ _ _ _ _ _ _ hu'
      refine ⟨?_, ?_, ?_⟩
      · refine laplacian_pow_solution pmesh weight_calculator (fc + 1) interior.length m
          (interior.get k) (fun u => (ppmap u).x) (fun u => (r.ppmap u).x) X.coef
          (fun c => sys.A.coef k c) (sys.Bx.coef k)
          (fun c => by
            show sys.A.coef k c = _
            rw [hA k c, hrow]; simp [initial_system, Solver_matrix.create])
          (by rw [hBx k, hrow]; simp [initial_system, Solver_vector.create])
          (by
            have := (hsol k hkn).1
            simpa [mul_vec_eq_sum, hdim, initial_system, Solver_matrix.create] using this)
          (fun u j huj => ⟨(hsome u j huj).1, by simp only [(hsome u j huj).2]⟩)
          (fun u hu => by simp only [hnone u hu])
      · refine laplacian_pow_solution pmesh weight_calculator (fc + 1) interior.length m
          (interior.get k) (fun u => (ppmap u).y) (fun u => (r.ppmap u).y) Y.coef
          (fun c => sys.A.coef k c) (sys.By.coef k)
          (fun c => by
            show sys.A.coef k c = _
            rw [hA k c, hrow]; simp [initial_system, Solver_matrix.create])
          (by rw [hBy k, hrow]; simp [initial_system, Solver_vector.create])
          (by
            have := (hsol k hkn).2.1
            simpa [mul_vec_eq_sum, hdim, initial_system, Solver_matrix.create] using this)
          (fun u j huj => ⟨(hsome u j huj).1, by simp only [(hsome u j huj).2]⟩)
          (fun u hu => by simp only [hnone u hu])
      · refine laplacian_pow_solution pmesh weight_calculator (fc + 1) interior.length m
          (interior.get k) (fun u => (ppmap u).z) (fun u => (r.ppmap u).z) Z.coef
          (fun c => sys.A.coef k c) (sys.Bz.coef k)
          (fun c => by
            show sys.A.coef k c = _
            rw [hA k c, hrow]; simp [initial_system, Solver_matrix.create])
          (by rw [hBz k, hrow]; simp [initial_system, Solver_vector.create])
          (by
            have := (hsol k hkn).2.2
            simpa [mul_vec_eq_sum, hdim, initial_system, Solver_matrix.create] using this)
          (fun u j huj => ⟨(hsome u j huj).1, by simp only [(hsome u j huj).2]⟩)
          (fun u hu => by simp only [hnone u hu])

theorem diagonal_solver_factored (A : Solver_matrix) (s : Option Solver_matrix)
    (h : Factored diagonal_solver A s) :
    s = some A ∧ ∀ i, i < A.dimension → ∀ j, j < A.dimension →
      (i = j → A.coef i j ≠ 0) ∧ (i ≠ j → A.coef i j = 0) := by
  induction h with
  | factor s0 h0 =>
    simp only [diagonal_solver] at h0 ⊢
    split_ifs at h0 ⊢ with hc
    · refine ⟨rfl, fun i hi j hj => ?_⟩
      have h1 := List.all_eq_true.mp hc i (List.mem_range.mpr hi)
      have h2 := List.all_eq_true.mp h1 j (List.mem_range.mpr hj)
      by_cases hij : i = j
      · simp only [hij, if_true, decide_eq_true_eq] at h2
        exact ⟨fun _ => hij ▸ h2, fun hne => absurd hij hne⟩
      · simp only [hij, if_false, decide_eq_true_eq] at h2
        exact ⟨fun he => absurd he hij, fun _ => h2⟩
  | linear_solver s0 B X _ ih =>
    obtain ⟨hs, hd⟩ := ih
    subst hs
    exact ⟨rfl, hd⟩

theorem diagonal_solver_postcondition : Solver_postcondition diagonal_solver := by
  intro A s hs B X _ r hr
  obtain ⟨rfl, hd⟩ := diagonal_solver_factored A s hs
  rw [mul_vec_eq_sum]
  simp only [diagonal_solver]
  rw [Finset.sum_eq_single r]
  · exact mul_div_cancel₀ _ ((hd r hr r hr).1 rfl)
  · intro c hc hcr
    rw [(hd r hr c (Finset.mem_range.mp hc)).2 (fun h => hcr h.symm), zero_mul]
  · intro hr'
    exact absurd (Finset.mem_range.mpr hr) hr'

theorem fair_solution_characterisation_witness :
    (0 : Nat) ≤ 2 ∧ ([0] : List vertex_descriptor) ≠ [] ∧
    Solver_postcondition diagonal_solver ∧
    ∃ r, fair tetrahedron uniform_weights sample_points diagonal_solver none [0] 0 = .ok r ∧
      r.result = true ∧
      laplacian_pow tetrahedron uniform_weights 1 (fun u => (r.ppmap u).y) 0 = 0 :=
  ⟨by decide, by decide, diagonal_solver_postcondition, _, by with_unfolding_all rfl,
    by with_unfolding_all rfl,
    by
      obtain ⟨interior, hi, _, hL⟩ :=
        fair_solution_characterisation tetrahedron uniform_weights sample_points
          diagonal_solver none [0] 0 _ (by decide) (by decide) diagonal_solver_postcondition
          (by with_unfolding_all rfl) (by with_unfolding_all rfl)
      have h2 : interior_vertices tetrahedron [0] = .ok [0] := by with_unfolding_all rfl
      rw [h2] at hi
      injection hi with hi
      subst hi
      exact (hL 0 (by decide)).2.1⟩

/-! ## The exact effect of the pruning -/

theorem keep_positions_append_singleton (freq i : Int) (l : List vertex_descriptor)
    (a : vertex_descriptor) :
    keep_positions freq i (l ++ [a]) =
      keep_positions freq i l ++ (if (i + (l.length : Int)) % freq = 0 then [] else [a]) := by
  induction l generalizing i with
  | nil => simp [keep_positions]
  | cons b l ih =>
    have hi : i + 1 + (l.length : Int) = i + ((l.length + 1 : Nat) : Int) := by
      push_cast; ring
    simp only [List.cons_append, keep_positions, List.length_cons, List.append_eq]
    split_ifs with h1 h2 h2
    · rw [ih, hi, if_pos h2]
    · rw [ih, hi, if_neg h2]
    · rw [ih, hi, if_pos h2]; simp
    · rw [ih, hi, if_neg h2]; simp

theorem keep_positions_length (freq : Nat) (l : List vertex_descriptor) :
    (keep_positions (freq : Int) 1 l).length + l.length / freq = l.length := by
  induction l using List.reverseRecOn with
  | nil => simp [keep_positions]
  | append_singleton l a ih =>
    rw [keep_positions_append_singleton, List.length_append, List.length_append,
      List.length_singleton, Nat.succ_div]
    have hdvd : ((1 : Int) + (l.length : Int)) % (freq : Int) = 0 ↔ freq ∣ l.length + 1 := by
      have : (1 : Int) + (l.length : Int) = ((l.length + 1 : Nat) : Int) := by
        push_cast; ring
      rw [this, ← Int.natCast_mod]
      constructor
      · intro h; exact Nat.dvd_of_mod_eq_zero (by exact_mod_cast h)
      · intro h; exact_mod_cast Nat.mod_eq_zero_of_dvd h
    by_cases h : freq ∣ l.length + 1
    · rw [if_pos (hdvd.mpr h), if_pos h]
      simp only [List.length_nil]
      omega
    · rw [if_neg (fun hc => h (hdvd.mp hc)), if_neg h]
      simp only [List.length_singleton]
      omega

theorem mem_keep_positions_get (freq i : Int) (l : List vertex_descriptor) (hnd : l.Nodup)
    (k : Nat) (hk : k < l.length) :
    l.get ⟨k, hk⟩ ∈ keep_positions freq i l ↔ (i + (k : Int)) % freq ≠ 0 := by
  induction l generalizing i k with
  | nil => simp at hk
  | cons a l ih =>
    have hnd' := List.nodup_cons.mp hnd
    cases k with
    | zero =>
      simp only [List.get_eq_getElem, List.getElem_cons_zero, keep_positions, Nat.cast_zero,
        add_zero]
      split_ifs with h
      · constructor
        · intro hmem
          exact absurd ((keep_positions_sublist freq (i + 1) l).subset hmem) hnd'.1
        · intro hne; exact absurd h hne
      · simp [h]
    | succ k =>
      have hk1 : k < l.length := by simpa using hk
      have hne : l.get ⟨k, hk1⟩ ≠ a := fun h => hnd'.1 (h ▸ List.get_mem _ _ _)
      have hi : i + 1 + (k : Int) = i + ((k + 1 : Nat) : Int) := by push_cast; ring
      have := ih (i + 1) hnd'.2 k hk1
      rw [hi] at this
      simp only [List.get_eq_getElem, List.getElem_cons_succ, keep_positions] at this ⊢
      split_ifs with h
      · exact this
      · rw [List.mem_cons]
        constructor
        · rintro (h1 | h1)
          · exact absurd h1 hne
          · exact this.mp h1
        · intro h1; exact Or.inr (this.mpr h1)

theorem keep_positions_one (i : Int) (l : List vertex_descriptor) :
    keep_positions 1 i l = [] := by
  induction l generalizing i with
  | nil => rfl
  | cons a l ih => simp [keep_positions, ih]

theorem div_div_ten_bounds (n : Nat) (hn : 10 ≤ n) :
    10 ≤ n / (n / 10) ∧ n / (n / 10) ≤ 19 := by
  have hq : 1 ≤ n / 10 := by omega
  constructor
  · rw [Nat.le_div_iff_mul_le (by omega)]
    have := Nat.div_mul_le_self n 10
    linarith [Nat.mul_comm 10 (n / 10)]
  · have h1 : n < (n / 10 + 1) * 10 := by omega
    have h2 : n < 20 * (n / 10) := by nlinarith
    have h3 : n / (n / 10) < 20 := by
      rw [Nat.div_lt_iff_lt_mul (by omega)]
      exact h2
    omega

/-- C11, evaluated at the failing input: on the set of the 20 vertices
0, ..., 19 with `percent = 10` the divisor is `freq = 2`, every second element
is erased and 10 elements are left, so 10 elements (one half) are removed and
not `floor(20 / 10) = 2`. -/
theorem remove_vertices_twenty :
    remove_vertices (List.range 20) 10 = .ok [0, 2, 4, 6, 8, 10, 12, 14, 16, 18] ∧
    (List.range 20).length - [0, 2, 4, 6, 8, 10, 12, 14, 16, 18].length = 10 ∧
    (List.range 20).length / 10 = 2 :=
  ⟨by with_unfolding_all rfl, by decide, by decide⟩

/-- C20: for a set of n >= 10 vertices and `percent = 10`, `remove_vertices`
returns the set without the elements whose 1-based position is a multiple of
`freq = floor(n / 10)`: the result is a sublist of the set (the order is
kept) and the element at 0-based position `k` is in it exactly when `freq`
does not divide `k + 1`.  The number of erased elements is
`floor(n / floor(n / 10))`, which lies between 10 and 19, and for n <= 19
nothing is left. -/
theorem remove_vertices_exact_effect (vertices : List vertex_descriptor)
    (hnd : vertices.Nodup) (hn : 10 ≤ vertices.length) :
    ∃ result, remove_vertices vertices 10 = .ok result ∧
      result = keep_positions ((vertices.length / 10 : Nat) : Int) 1 vertices ∧
      result.Sublist vertices ∧
      (∀ (k : Nat) (hk : k < vertices.length),
        vertices.get ⟨k, hk⟩ ∈ result ↔ ¬ (vertices.length / 10 ∣ k + 1)) ∧
      result.length + vertices.length / (vertices.length / 10) = vertices.length ∧
      10 ≤ vertices.length / (vertices.length / 10) ∧
      vertices.length / (vertices.length / 10) ≤ 19 ∧
      (vertices.length ≤ 19 → result = []) := by
  have hcast : ((vertices.length / 10 : Nat) : Int) = (vertices.length : Int) / 10 := by
    push_cast; rfl
  refine ⟨_, remove_vertices_ten vertices hnd hn, by rw [hcast], ?_, ?_, ?_,
    (div_div_ten_bounds _ hn).1, (div_div_ten_bounds _ hn).2, ?_⟩
  · exact keep_positions_sublist _ _ _
  · intro k hk
    rw [← hcast, mem_keep_positions_get _ _ _ hnd k hk]
    have : (1 : Int) + (k : Int) = ((k + 1 : Nat) : Int) := by push_cast; ring
    rw [this, ← Int.natCast_mod, Nat.dvd_iff_mod_eq_zero]
    constructor
    · intro h hc; exact h (by exact_mod_cast hc)
    · intro h hc; exact h (by exact_mod_cast hc)
  · rw [← hcast]
    exact keep_positions_length _ _
  · intro h19
    have hone : (vertices.length : Int) / 10 = 1 := by omega
    rw [hone]
    exact keep_positions_one _ _

theorem remove_vertices_exact_effect_witness :
    (List.range 12).Nodup ∧ 10 ≤ (List.range 12).length ∧
    ∃ result, remove_vertices (List.range 12) 10 = .ok result ∧ result = [] :=
  ⟨by decide, by decide,
    by
      obtain ⟨result, h1, _, _, _, _, _, _, h2⟩ :=
        remove_vertices_exact_effect (List.range 12) (by decide) (by decide)
      exact ⟨result, h1, h2 (by decide)⟩⟩

/-! ## The calls at depth 0 -/

theorem foldl_foldr_append {α β γ : Type} (leaf : β → γ → β) (T : α → List γ)
    (l : List α) (s : β) :
    (l.foldr (fun h acc => T h ++ acc) []).foldl leaf s =
      l.foldl (fun s h => (T h).foldl leaf s) s := by
  induction l generalizing s with
  | nil => rfl
  | cons h l ih =>
    simp only [List.foldr_cons, List.foldl_cons, List.foldl_append]
    exact ih _

/-- A call of `compute_row` is the sequence of its calls at depth 0. -/
theorem compute_row_eq_foldl_terms (pmesh : PolygonMesh) (weight_calculator : WeightCalculator)
    (ppmap : VertexPointMap) (vertex_id_map : Vertex_id_map) (row_id : Nat)
    (depth : Nat) (v : vertex_descriptor) (multiplier : ℚ) (st : Row_state) :
    compute_row pmesh weight_calculator ppmap vertex_id_map row_id depth v multiplier st =
      (compute_row_terms pmesh weight_calculator depth v multiplier).foldl
        (fun s t => compute_row pmesh weight_calculator ppmap vertex_id_map row_id 0 t.1 t.2 s)
        st := by
  induction depth generalizing v multiplier st with
  | zero => rfl
  | succ d ih =>
    rw [compute_row, compute_row_terms]
    simp only [List.foldl_append]
    rw [foldl_foldr_append, ih]
    congr 1
    congr 1
    funext s h
    rw [ih]

theorem length_foldr_append {α γ : Type} (T : α → List γ) (l : List α) :
    (l.foldr (fun h acc => T h ++ acc) []).length = (l.map (fun h => (T h).length)).sum := by
  induction l with
  | nil => rfl
  | cons h l ih => simp [ih]

theorem mem_foldr_append {α γ : Type} (T : α → List γ) (l : List α) (t : γ) :
    t ∈ l.foldr (fun h acc => T h ++ acc) [] ↔ ∃ h ∈ l, t ∈ T h := by
  induction l with
  | nil => simp
  | cons h l ih => simp [ih]

theorem compute_row_zero_multiplier (pmesh : PolygonMesh) (weight_calculator : WeightCalculator)
    (ppmap : VertexPointMap) (vertex_id_map : Vertex_id_map) (row_id : Nat)
    (v : vertex_descriptor) (st : Row_state) :
    compute_row pmesh weight_calculator ppmap vertex_id_map row_id 0 v 0 st = st := by
  simp only [compute_row]
  cases hv : vertex_id_map v with
  | none => simp
  | some col =>
    simp only [Solver_matrix.add_coef, add_zero, ite_self]

theorem compute_row_terms_zero_multiplier (pmesh : PolygonMesh)
    (weight_calculator : WeightCalculator) (depth : Nat) (v : vertex_descriptor) :
    ∀ t ∈ compute_row_terms pmesh weight_calculator depth v 0, t.2 = 0 := by
  induction depth generalizing v with
  | zero =>
    intro t ht
    simp only [compute_row_terms, List.mem_singleton] at ht
    rw [ht]
  | succ d ih =>
    intro t ht
    rw [compute_row_terms, List.mem_append, mem_foldr_append] at ht
    simp only [mul_zero] at ht
    rcases ht with ⟨h, _, ht⟩ | ht
    · exact ih _ t ht
    · exact ih _ t ht

theorem compute_row_terms_zero_weights (pmesh : PolygonMesh)
    (weight_calculator : WeightCalculator) (hw : ∀ h, weight_calculator.w_ij h = 0)
    (depth : Nat) (v : vertex_descriptor) (multiplier : ℚ) :
    ∀ t ∈ compute_row_terms pmesh weight_calculator (depth + 1) v multiplier, t.2 = 0 := by
  intro t ht
  have hs : sum_weight pmesh weight_calculator v = 0 := by
    rw [sum_weight_eq]
    apply List.sum_eq_zero
    intro x hx
    obtain ⟨h, _, rfl⟩ := List.mem_map.mp hx
    exact hw h
  rw [compute_row_terms, List.mem_append, mem_foldr_append] at ht
  simp only [hw, hs, mul_zero, neg_zero, zero_mul] at ht
  rcases ht with ⟨h, _, ht⟩ | ht
  · exact compute_row_terms_zero_multiplier pmesh weight_calculator depth _ t ht
  · exact compute_row_terms_zero_multiplier pmesh weight_calculator depth _ t ht

theorem foldl_fixed {β γ : Type} (leaf : β → γ → β) (l : List γ) (s : β)
    (h : ∀ t ∈ l, ∀ s, leaf s t = s) : l.foldl leaf s = s := by
  induction l generalizing s with
  | nil => rfl
  | cons t l ih =>
    simp only [List.foldl_cons]
    rw [h t (List.mem_cons_self _ _), ih _ (fun t ht => h t (List.mem_cons_of_mem _ ht))]

theorem compute_row_zero_weights (pmesh : PolygonMesh)
    (weight_calculator : WeightCalculator) (ppmap : VertexPointMap)
    (hw : ∀ h, weight_calculator.w_ij h = 0) (vertex_id_map : Vertex_id_map) (row_id : Nat)
    (depth : Nat) (v : vertex_descriptor) (multiplier : ℚ) (st : Row_state) :
    compute_row pmesh weight_calculator ppmap vertex_id_map row_id (depth + 1) v multiplier st
      = st := by
  rw [compute_row_eq_foldl_terms]
  apply foldl_fixed
  intro t ht s
  have h0 := compute_row_terms_zero_weights pmesh weight_calculator hw depth v multiplier t ht
  rw [h0]
  exact compute_row_zero_multiplier _ _ _ _ _ _ _

/-- C15: if `w_ij(h) = 0` for every halfedge, then at every depth d >= 1 every
call of `compute_row` at depth 0 that the assembly leads to has the multiplier
0, so that 0 is added to the matrix or to the constants each time; a call of
`compute_row` leaves the matrix and the constants as they are, and the system
assembled from the empty one is the zero matrix of dimension n with zero
right-hand sides, for every id map and every list of vertices. -/
theorem zero_weights_zero_system (pmesh : PolygonMesh)
    (weight_calculator : WeightCalculator) (ppmap : VertexPointMap)
    (hw : ∀ h, weight_calculator.w_ij h = 0) (depth : Nat) (hd : 1 ≤ depth) :
    (∀ v multiplier, ∀ t ∈ compute_row_terms pmesh weight_calculator depth v multiplier,
      t.2 = 0) ∧
    (∀ (vertex_id_map : Vertex_id_map) (row_id : Nat) v multiplier st,
      compute_row pmesh weight_calculator ppmap vertex_id_map row_id depth v multiplier st
        = st) ∧
    (∀ (vertex_id_map : Vertex_id_map) (l : List vertex_descriptor) (n : Nat),
      (assemble_rows pmesh weight_calculator ppmap depth l
        (initial_system vertex_id_map n)).A.dimension = n ∧
      (∀ r c, (assemble_rows pmesh weight_calculator ppmap depth l
        (initial_system vertex_id_map n)).A.coef r c = 0) ∧
      (∀ r, (assemble_rows pmesh weight_calculator ppmap depth l
          (initial_system vertex_id_map n)).Bx.coef r = 0 ∧
        (assemble_rows pmesh weight_calculator ppmap depth l
          (initial_system vertex_id_map n)).By.coef r = 0 ∧
        (assemble_rows pmesh weight_calculator ppmap depth l
          (initial_system vertex_id_map n)).Bz.coef r = 0)) := by
  obtain ⟨d, rfl⟩ : ∃ d, depth = d + 1 := ⟨depth - 1, by omega⟩
  refine ⟨fun v m => compute_row_terms_zero_weights pmesh weight_calculator hw d v m,
    fun m row v mu st => compute_row_zero_weights pmesh weight_calculator ppmap hw m row d v mu st,
    ?_⟩
  intro vertex_id_map l n
  have key : ∀ (l : List vertex_descriptor) (sys : Linear_system),
      (sys.A.dimension = n ∧ (∀ r c, sys.A.coef r c = 0) ∧
        (∀ r, sys.Bx.coef r = 0 ∧ sys.By.coef r = 0 ∧ sys.Bz.coef r = 0)) →
      ((assemble_rows pmesh weight_calculator ppmap (d + 1) l sys).A.dimension = n ∧
        (∀ r c, (assemble_rows pmesh weight_calculator ppmap (d + 1) l sys).A.coef r c = 0) ∧
        (∀ r, (assemble_rows pmesh weight_calculator ppmap (d + 1) l sys).Bx.coef r = 0 ∧
          (assemble_rows pmesh weight_calculator ppmap (d + 1) l sys).By.coef r = 0 ∧
          (assemble_rows pmesh weight_calculator ppmap (d + 1) l sys).Bz.coef r = 0)) := by
    intro l
    induction l with
    | nil => intro sys hsys; exact hsys
    | cons vd rest ih =>
      intro sys hsys
      simp only [assemble_rows]
      rw [compute_row_zero_weights pmesh weight_calculator ppmap hw]
      apply ih
      refine ⟨hsys.1, hsys.2.1, fun r => ?_⟩
      simp only [Solver_vector.set]
      refine ⟨?_, ?_, ?_⟩
      · split_ifs <;> exact (hsys.2.2 _).1
      · split_ifs <;> exact (hsys.2.2 _).2.1
      · split_ifs <;> exact (hsys.2.2 _).2.2
  exact key l (initial_system vertex_id_map n)
    ⟨rfl, fun _ _ => rfl, fun _ => ⟨rfl, rfl, rfl⟩⟩

theorem zero_weights_zero_system_witness :
    (∀ h : halfedge_descriptor, (⟨fun _ => 1, fun _ => 0⟩ : WeightCalculator).w_ij h = 0) ∧
    (1 : Nat) ≤ 2 ∧
    (assemble_rows tetrahedron ⟨fun _ => 1, fun _ => 0⟩ sample_points 2 [0, 1]
      (initial_system (fun u => if u = 0 then some 0 else if u = 1 then some 1 else none)
        2)).A.coef 0 0 = 0 :=
  ⟨fun _ => rfl, by decide,
    ((zero_weights_zero_system tetrahedron ⟨fun _ => 1, fun _ => 0⟩ sample_points
      (fun _ => rfl) 2 (by decide)).2.2 _ [0, 1] 2).2.1 0 0⟩

/-! ## Dependence of the system on the positions -/

theorem foldl_rel {β γ : Type} (R : β → β → Prop) (f1 f2 : β → γ → β)
    (h : ∀ s1 s2 t, R s1 s2 → R (f1 s1 t) (f2 s2 t)) (l : List γ) (a b : β) (hab : R a b) :
    R (l.foldl f1 a) (l.foldl f2 b) := by
  induction l generalizing a b with
  | nil => exact hab
  | cons t l ih => exact ih _ _ (h a b t hab)

theorem compute_row_matrix_congr (pmesh : PolygonMesh) (weight_calculator : WeightCalculator)
    (p1 p2 : VertexPointMap) (vertex_id_map : Vertex_id_map) (row_id : Nat)
    (depth : Nat) (v : vertex_descriptor) (multiplier : ℚ) (st1 st2 : Row_state)
    (hst : st1.matrix = st2.matrix) :
    (compute_row pmesh weight_calculator p1 vertex_id_map row_id depth v multiplier
        st1).matrix =
      (compute_row pmesh weight_calculator p2 vertex_id_map row_id depth v multiplier
        st2).matrix := by
  rw [compute_row_eq_foldl_terms, compute_row_eq_foldl_terms]
  refine foldl_rel (fun s1 s2 => s1.matrix = s2.matrix) _ _ ?_ _ st1 st2 hst
  intro s1 s2 t h
  simp only [compute_row]
  cases ht : vertex_id_map t.1 with
  | none => exact h
  | some col => simp only [h]

theorem compute_row_congr (pmesh : PolygonMesh) (weight_calculator : WeightCalculator)
    (p1 p2 : VertexPointMap) (vertex_id_map : Vertex_id_map)
    (hp : ∀ u, vertex_id_map u = none → p1 u = p2 u) (row_id : Nat)
    (depth : Nat) (v : vertex_descriptor) (multiplier : ℚ) (st : Row_state) :
    compute_row pmesh weight_calculator p1 vertex_id_map row_id depth v multiplier st =
      compute_row pmesh weight_calculator p2 vertex_id_map row_id depth v multiplier st := by
  rw [compute_row_eq_foldl_terms, compute_row_eq_foldl_terms]
  congr 1
  funext s t
  simp only [compute_row]
  cases ht : vertex_id_map t.1 with
  | none => simp only [hp t.1 ht]
  | some col => rfl

theorem Vertex_id_map.index_none (m : Vertex_id_map) (k u : vertex_descriptor)
    (h : (m.index k).1 u = none) : m u = none := by
  unfold Vertex_id_map.index at h
  cases hk : m k with
  | some id => simpa [hk] using h
  | none =>
    simp only [hk] at h
    by_cases huk : u = k
    · rw [huk]; exact hk
    · simpa [huk] using h

/-- C17: the assembled matrix `A` is the same for all vertex positions, and
two point maps that agree on every vertex outside the id map give the same
system `A`, `Bx`, `By`, `Bz`, at every depth. -/
theorem system_independent_of_free_positions (pmesh : PolygonMesh)
    (weight_calculator : WeightCalculator) (p1 p2 : VertexPointMap) (depth : Nat)
    (l : List vertex_descriptor) (sys : Linear_system) :
    (assemble_rows pmesh weight_calculator p1 depth l sys).A =
      (assemble_rows pmesh weight_calculator p2 depth l sys).A ∧
    ((∀ u, sys.vertex_id_map u = none → p1 u = p2 u) →
      assemble_rows pmesh weight_calculator p1 depth l sys =
        assemble_rows pmesh weight_calculator p2 depth l sys) := by
  constructor
  · have key : ∀ (l : List vertex_descriptor) (s1 s2 : Linear_system),
        s1.vertex_id_map = s2.vertex_id_map → s1.A = s2.A →
        (assemble_rows pmesh weight_calculator p1 depth l s1).A =
          (assemble_rows pmesh weight_calculator p2 depth l s2).A := by
      intro l
      induction l with
      | nil => intro s1 s2 _ hA; exact hA
      | cons vd rest ih =>
        intro s1 s2 hm hA
        simp only [assemble_rows]
        rw [hm]
        exact ih _ _ rfl (compute_row_matrix_congr _ _ _ _ _ _ _ _ _ _ _ hA)
    exact key l sys sys rfl rfl
  · intro hp
    induction l generalizing sys with
    | nil => rfl
    | cons vd rest ih =>
      simp only [assemble_rows]
      have hp' : ∀ u, (sys.vertex_id_map.index vd).1 u = none → p1 u = p2 u :=
        fun u hu => hp u (Vertex_id_map.index_none _ _ _ hu)
      rw [compute_row_congr pmesh weight_calculator p1 p2 _ hp']
      exact ih _ hp'

theorem system_independent_of_free_positions_witness :
    (∀ u, (initial_system (fun u => if u = 0 then some 0 else none) 1).vertex_id_map u = none →
      sample_points u = (Function.update sample_points 0 ⟨5, 5, 5⟩) u) ∧
    assemble_rows tetrahedron uniform_weights sample_points 2 [0]
        (initial_system (fun u => if u = 0 then some 0 else none) 1) =
      assemble_rows tetrahedron uniform_weights (Function.update sample_points 0 ⟨5, 5, 5⟩) 2 [0]
        (initial_system (fun u => if u = 0 then some 0 else none) 1) :=
  have hp : ∀ u, (initial_system (fun u => if u = 0 then some 0 else none) 1).vertex_id_map u
      = none → sample_points u = (Function.update sample_points 0 ⟨5, 5, 5⟩) u := by
    intro u hu
    have hne : u ≠ 0 := by
      intro h0
      simp [initial_system, h0] at hu
    rw [Function.update_noteq hne]
  ⟨hp, (system_independent_of_free_positions tetrahedron uniform_weights sample_points
    (Function.update sample_points 0 ⟨5, 5, 5⟩) 2 [0] _).2 hp⟩

/-! ## Locality of the rows -/

theorem assemble_rows_vector_dimension (pmesh : PolygonMesh)
    (weight_calculator : WeightCalculator) (ppmap : VertexPointMap) (depth : Nat)
    (l : List vertex_descriptor) (sys : Linear_system) :
    (assemble_rows pmesh weight_calculator ppmap depth l sys).Bx.dimension = sys.Bx.dimension ∧
    (assemble_rows pmesh weight_calculator ppmap depth l sys).By.dimension = sys.By.dimension ∧
    (assemble_rows pmesh weight_calculator ppmap depth l sys).Bz.dimension = sys.Bz.dimension := by
  induction l generalizing sys with
  | nil => exact ⟨rfl, rfl, rfl⟩
  | cons vd rest ih =>
    simp only [assemble_rows]
    obtain ⟨h1, h2, h3⟩ := ih (Linear_system.mk _ _ _ _ _)
    exact ⟨h1, h2, h3⟩

theorem solver_matrix_ext (A B : Solver_matrix) (hd : A.dimension = B.dimension)
    (hc : ∀ r c, A.coef r c = B.coef r c) : A = B := by
  cases A; cases B
  simp only at hd hc
  subst hd
  congr
  funext r c
  exact hc r c

theorem solver_vector_ext (A B : Solver_vector) (hd : A.dimension = B.dimension)
    (hc : ∀ r, A.coef r = B.coef r) : A = B := by
  cases A; cases B
  simp only at hd hc
  subst hd
  congr
  funext r
  exact hc r

theorem Linear_system.ext_fields (s t : Linear_system)
    (h1 : s.vertex_id_map = t.vertex_id_map) (h2 : s.A = t.A) (h3 : s.Bx = t.Bx)
    (h4 : s.By = t.By) (h5 : s.Bz = t.Bz) : s = t := by
  cases s; cases t
  simp only at h1 h2 h3 h4 h5
  subst h1 h2 h3 h4 h5
  rfl

/-- C18: a call of `compute_row` for the row `row_id` leaves every entry of
every other row of the matrix as it is; assembling the row of one vertex `vd`
with id `i` changes nothing of `A`, `Bx`, `By`, `Bz` outside the index `i`; and
the system assembled from a list of vertices that all have an id is the same
for every order of the list. -/
theorem row_assembly_is_local (pmesh : PolygonMesh)
    (weight_calculator : WeightCalculator) (ppmap : VertexPointMap) (depth : Nat) :
    (∀ (vertex_id_map : Vertex_id_map) (row_id : Nat) v multiplier st r c, r ≠ row_id →
      (compute_row pmesh weight_calculator ppmap vertex_id_map row_id depth v multiplier
        st).matrix.coef r c = st.matrix.coef r c) ∧
    (∀ (sys : Linear_system) (vd : vertex_descriptor) (i : Nat),
      sys.vertex_id_map vd = some i → ∀ r, r ≠ i →
        (∀ c, (assemble_rows pmesh weight_calculator ppmap depth [vd] sys).A.coef r c =
          sys.A.coef r c) ∧
        (assemble_rows pmesh weight_calculator ppmap depth [vd] sys).Bx.coef r =
          sys.Bx.coef r ∧
        (assemble_rows pmesh weight_calculator ppmap depth [vd] sys).By.coef r =
          sys.By.coef r ∧
        (assemble_rows pmesh weight_calculator ppmap depth [vd] sys).Bz.coef r =
          sys.Bz.coef r) ∧
    (∀ (sys : Linear_system) (l l' : List vertex_descriptor), l.Perm l' →
      (∀ vd ∈ l, ∃ i, sys.vertex_id_map vd = some i) →
        assemble_rows pmesh weight_calculator ppmap depth l sys =
          assemble_rows pmesh weight_calculator ppmap depth l' sys) := by
  refine ⟨fun m row v mu st r c hr => compute_row_other_rows _ _ _ _ _ _ _ _ _ _ _ hr, ?_, ?_⟩
  · intro sys vd i hi r hr
    have hidx : sys.vertex_id_map.index vd = (sys.vertex_id_map, i) :=
      Vertex_id_map.index_of_some _ _ _ hi
    simp only [assemble_rows, hidx, Solver_vector.set, if_neg hr]
    exact ⟨fun c => compute_row_other_rows _ _ _ _ _ _ _ _ _ _ _ hr, trivial, trivial, trivial⟩
  · intro sys l l' hperm hl
    have hl' : ∀ vd ∈ l', ∃ i, sys.vertex_id_map vd = some i :=
      fun vd hvd => hl vd (hperm.mem_iff.mpr hvd)
    obtain ⟨a1, a2, a3, a4, a5, a6⟩ := assemble_rows_spec pmesh weight_calculator ppmap depth
      sys.vertex_id_map l sys hl rfl
    obtain ⟨b1, b2, b3, b4, b5, b6⟩ := assemble_rows_spec pmesh weight_calculator ppmap depth
      sys.vertex_id_map l' sys hl' rfl
    obtain ⟨c1, c2, c3⟩ := assemble_rows_vector_dimension pmesh weight_calculator ppmap depth
      l sys
    obtain ⟨d1, d2, d3⟩ := assemble_rows_vector_dimension pmesh weight_calculator ppmap depth
      l' sys
    refine Linear_system.ext_fields _ _ (by rw [a1, b1]) ?_ ?_ ?_ ?_
    · refine solver_matrix_ext _ _ (by rw [a2, b2]) (fun r c => ?_)
      rw [a3, b3, (hperm.map _).sum_eq]
    · refine solver_vector_ext _ _ (by rw [c1, d1]) (fun r => ?_)
      rw [a4, b4, (hperm.map _).sum_eq]
    · refine solver_vector_ext _ _ (by rw [c2, d2]) (fun r => ?_)
      rw [a5, b5, (hperm.map _).sum_eq]
    · refine solver_vector_ext _ _ (by rw [c3, d3]) (fun r => ?_)
      rw [a6, b6, (hperm.map _).sum_eq]

theorem row_assembly_is_local_witness :
    ([0, 1] : List vertex_descriptor).Perm [1, 0] ∧
    assemble_rows tetrahedron uniform_weights sample_points 2 [0, 1]
        (initial_system (fun u => if u = 0 then some 0 else if u = 1 then some 1 else none) 2) =
      assemble_rows tetrahedron uniform_weights sample_points 2 [1, 0]
        (initial_system (fun u => if u = 0 then some 0 else if u = 1 then some 1 else none) 2) :=
  ⟨List.Perm.swap 1 0 [],
    (row_assembly_is_local tetrahedron uniform_weights sample_points 2).2.2 _ [0, 1] [1, 0]
      (List.Perm.swap 1 0 [])
      (by
        intro vd hvd
        simp only [List.mem_cons, List.mem_singleton, List.not_mem_nil, or_false] at hvd
        rcases hvd with rfl | rfl
        · exact ⟨0, rfl⟩
        · exact ⟨1, rfl⟩)⟩

/-! ## Termination of the row assembler -/

theorem compute_row_terms_length_regular (pmesh : PolygonMesh)
    (weight_calculator : WeightCalculator) (k : Nat)
    (hk : ∀ u, (halfedges_around_target pmesh u).length = k)
    (depth : Nat) (v : vertex_descriptor) (multiplier : ℚ) :
    (compute_row_terms pmesh weight_calculator depth v multiplier).length = (k + 1) ^ depth := by
  induction depth generalizing v multiplier with
  | zero => rfl
  | succ d ih =>
    rw [compute_row_terms, List.length_append, length_foldr_append, ih]
    have hconst : (halfedges_around_target pmesh v).map (fun h =>
        (compute_row_terms pmesh weight_calculator d (pmesh.target (pmesh.opposite h))
          (-(weight_calculator.w_i v * weight_calculator.w_ij h) * multiplier)).length) =
        (halfedges_around_target pmesh v).map (fun _ => (k + 1) ^ d) :=
      List.map_congr_left (fun h _ => ih _ _)
    rw [hconst, List.map_const', List.sum_replicate, hk]
    simp only [smul_eq_mul]
    ring

/-- C19: on every mesh (the halfedges around a vertex are a finite non-empty
sequence, and nothing is asked of the adjacency, which may be cyclic),
`compute_row` is a total function defined by recursion on the depth alone: at
depth 0 it makes no call, at depth d + 1 it calls itself at depth d once for
every halfedge around the vertex and once for the vertex, and no set of
visited vertices is kept.  The calls at depth 0 it leads to form a finite
list, whose length is given by the same recursion and is `(k + 1) ^ depth` when
every vertex has `k` halfedges around it. -/
theorem compute_row_terminates_by_depth (pmesh : PolygonMesh)
    (weight_calculator : WeightCalculator) (ppmap : VertexPointMap)
    (vertex_id_map : Vertex_id_map) (row_id : Nat) :
    (∀ u, halfedges_around_target pmesh u ≠ []) ∧
    (∀ depth v multiplier st,
      compute_row pmesh weight_calculator ppmap vertex_id_map row_id (depth + 1) v multiplier
          st =
        compute_row pmesh weight_calculator ppmap vertex_id_map row_id depth v
          (weight_calculator.w_i v * sum_weight pmesh weight_calculator v * multiplier)
          ((halfedges_around_target pmesh v).foldl
            (fun s h =>
              compute_row pmesh weight_calculator ppmap vertex_id_map row_id depth
                (pmesh.target (pmesh.opposite h))
                (-(weight_calculator.w_i v * weight_calculator.w_ij h) * multiplier) s)
            st)) ∧
    (∀ depth v multiplier st,
      compute_row pmesh weight_calculator ppmap vertex_id_map row_id depth v multiplier st =
        (compute_row_terms pmesh weight_calculator depth v multiplier).foldl
          (fun s t =>
            compute_row pmesh weight_calculator ppmap vertex_id_map row_id 0 t.1 t.2 s)
          st) ∧
    (∀ v multiplier,
      (compute_row_terms pmesh weight_calculator 0 v multiplier).length = 1) ∧
    (∀ depth v multiplier,
      (compute_row_terms pmesh weight_calculator (depth + 1) v multiplier).length =
        ((halfedges_around_target pmesh v).map (fun h =>
          (compute_row_terms pmesh weight_calculator depth (pmesh.target (pmesh.opposite h))
            (-(weight_calculator.w_i v * weight_calculator.w_ij h) * multiplier)).length)).sum
        + (compute_row_terms pmesh weight_calculator depth v
            (weight_calculator.w_i v * sum_weight pmesh weight_calculator v *
              multiplier)).length) ∧
    (∀ k, (∀ u, (halfedges_around_target pmesh u).length = k) →
      ∀ depth v multiplier,
        (compute_row_terms pmesh weight_calculator depth v multiplier).length =
          (k + 1) ^ depth) := by
  refine ⟨fun u => List.cons_ne_nil _ _, ?_, ?_, fun _ _ => rfl, ?_, ?_⟩
  · intro depth v multiplier st
    rw [compute_row]
  · intro depth v multiplier st
    exact compute_row_eq_foldl_terms _ _ _ _ _ _ _ _ _
  · intro depth v multiplier
    rw [compute_row_terms, List.length_append, length_foldr_append]
  · intro k hk depth v multiplier
    exact compute_row_terms_length_regular pmesh weight_calculator k hk depth v multiplier

theorem compute_row_terminates_by_depth_witness :
    (∀ u, (halfedges_around_target tetrahedron u).length = 3) ∧
    (compute_row_terms tetrahedron uniform_weights 3 0 1).length = 64 :=
  ⟨fun _ => rfl,
    (compute_row_terminates_by_depth tetrahedron uniform_weights sample_points
      (fun _ => none) 0).2.2.2.2.2 3 (fun _ => rfl) 3 0 1⟩

/-! ## The system that `fair` assembles and solves -/

/-- The rows of the system assembled for a duplicate-free list of vertices
with the id map built from it: row `k` belongs to the vertex at position `k`
and holds the expansion of the power of the Laplacian at that vertex. -/
theorem assembled_rows (pmesh : PolygonMesh) (weight_calculator : WeightCalculator)
    (ppmap : VertexPointMap) (depth : Nat) (interior : List vertex_descriptor)
    (hnd : interior.Nodup) (m : Vertex_id_map)
    (hb : build_vertex_id_map interior 0 (fun _ => none) = some m) :
    (∀ (k : Nat) (hk : k < interior.length), m (interior.get ⟨k, hk⟩) = some k) ∧
    (∀ v, v ∉ interior → m v = none) ∧
    (assemble_rows pmesh weight_calculator ppmap depth interior
      (initial_system m interior.length)).A.dimension = interior.length ∧
    ∀ (k : Nat) (hk : k < interior.length),
      (∀ c, (assemble_rows pmesh weight_calculator ppmap depth interior
          (initial_system m interior.length)).A.coef k c =
        laplacian_pow pmesh weight_calculator depth
          (fun u => if m u = some c then 1 else 0) (interior.get ⟨k, hk⟩)) ∧
      (assemble_rows pmesh weight_calculator ppmap depth interior
          (initial_system m interior.length)).Bx.coef k =
        laplacian_pow pmesh weight_calculator depth
          (fun u => if m u = none then -(ppmap u).x else 0) (interior.get ⟨k, hk⟩) ∧
      (assemble_rows pmesh weight_calculator ppmap depth interior
          (initial_system m interior.length)).By.coef k =
        laplacian_pow pmesh weight_calculator depth
          (fun u => if m u = none then -(ppmap u).y else 0) (interior.get ⟨k, hk⟩) ∧
      (assemble_rows pmesh weight_calculator ppmap depth interior
          (initial_system m interior.length)).Bz.coef k =
        laplacian_pow pmesh weight_calculator depth
          (fun u => if m u = none then -(ppmap u).z else 0) (interior.get ⟨k, hk⟩) := by
  obtain ⟨m', hm', hget, hout⟩ := build_vertex_id_map_ok interior hnd
  rw [hb] at hm'
  injection hm' with hm'
  subst hm'
  have hkeys : ∀ vd ∈ interior, ∃ i, m vd = some i := by
    intro vd hvd
    obtain ⟨k, hk, rfl⟩ := List.mem_iff_get.mp hvd
    exact ⟨k, hget k k.isLt⟩
  obtain ⟨_, hdim, hA, hBx, hBy, hBz⟩ := assemble_rows_spec pmesh weight_calculator ppmap
    depth m interior (initial_system m interior.length) hkeys rfl
  refine ⟨hget, hout, by rw [hdim]; rfl, ?_⟩
  intro k hk
  have hrow : ∀ (F : vertex_descriptor → ℚ),
      (interior.map (fun vd => if m vd = some k then F vd else 0)).sum =
        F (interior.get ⟨k, hk⟩) := by
    intro F
    refine sum_map_ite_unique interior _ F _ hnd (List.get_mem _ _ _) ?_
    intro u hu
    obtain ⟨j, hj, rfl⟩ := List.mem_iff_get.mp hu
    rw [hget j j.isLt]
    constructor
    · intro hjk
      injection hjk with hjk
      congr 1
      exact Fin.ext hjk
    · intro hjk
      have := (List.Nodup.get_inj_iff hnd).mp hjk
      rw [this]
  refine ⟨fun c => ?_, ?_, ?_, ?_⟩
  · rw [hA k c, hrow]; simp [initial_system, Solver_matrix.create]
  · rw [hBx k, hrow]; simp [initial_system, Solver_vector.create]
  · rw [hBy k, hrow]; simp [initial_system, Solver_vector.create]
  · rw [hBz k, hrow]; simp [initial_system, Solver_vector.create]

/-- A successful call of `fair` with a solver that meets its postcondition:
the vectors written back solve the assembled system. -/
theorem fair_success_system {σ : Type} (pmesh : PolygonMesh)
    (weight_calculator : WeightCalculator) (ppmap : VertexPointMap)
    (solver : Sparse_linear_solver σ) (m_solver : σ) (vertices : List vertex_descriptor)
    (fc : Nat) (r : Fair_outcome) (hne : vertices ≠ [])
    (hsolver : Solver_postcondition solver)
    (h : fair pmesh weight_calculator ppmap solver m_solver vertices fc = .ok r)
    (hres : r.result = true) :
    ∃ interior m, ∃ X Y Z : Solver_vector,
      interior_vertices pmesh vertices = .ok interior ∧
      build_vertex_id_map interior 0 (fun _ => none) = some m ∧
      (∀ k, k < interior.length →
        mul_vec (assemble_rows pmesh weight_calculator ppmap (fair_depth fc).toNat interior
            (initial_system m interior.length)).A X k =
          (assemble_rows pmesh weight_calculator ppmap (fair_depth fc).toNat interior
            (initial_system m interior.length)).Bx.coef k ∧
        mul_vec (assemble_rows pmesh weight_calculator ppmap (fair_depth fc).toNat interior
            (initial_system m interior.length)).A Y k =
          (assemble_rows pmesh weight_calculator ppmap (fair_depth fc).toNat interior
            (initial_system m interior.length)).By.coef k ∧
        mul_vec (assemble_rows pmesh weight_calculator ppmap (fair_depth fc).toNat interior
            (initial_system m interior.length)).A Z k =
          (assemble_rows pmesh weight_calculator ppmap (fair_depth fc).toNat interior
            (initial_system m interior.length)).Bz.coef k) ∧
      (∀ (k : Nat) (hk : k < interior.length),
        r.ppmap (interior.get ⟨k, hk⟩) = ⟨X.coef k, Y.coef k, Z.coef k⟩) ∧
      (∀ u, u ∉ interior → r.ppmap u = ppmap u) := by
  rcases fair_cases pmesh weight_calculator ppmap solver m_solver vertices fc r h with
    ⟨_, _, h1 | h1 | h1⟩ | ⟨_, _, interior, m, hi, hb, hr⟩
  · rw [h1.1] at hres; exact absurd hres (by simp)
  · exact absurd ((set_of_range_eq_nil vertices).mp h1.2.2.2) hne
  · rw [h1.1] at hres; exact absurd hres (by simp)
  · have hnd := interior_vertices_nodup pmesh vertices interior hi
    obtain ⟨_, _, hdim, _⟩ := assembled_rows pmesh weight_calculator ppmap
      (fair_depth fc).toNat interior hnd m hb
    rw [hr] at hres
    obtain ⟨X, Y, Z, hpp, hsol⟩ := fair_solve_exact solver m_solver ppmap interior _ hsolver hres
    rw [← hr] at hpp
    refine ⟨interior, m, X, Y, Z, hi, hb, ?_, ?_, ?_⟩
    · intro k hk
      exact hsol k (by rw [hdim]; exact hk)
    · intro k hk
      rw [hpp]
      have := update_positions_get X Y Z interior 0 ppmap hnd k hk
      simpa using this
    · intro u hu
      rw [hpp]
      exact update_positions_of_not_mem _ _ _ _ _ _ _ hu

/-- The value of the power of the Laplacian at `v` on the function that is
`X[id(u)]` on the vertices with an id and `q` elsewhere, in terms of the row
`A`, `B` of `v`. -/
theorem laplacian_pow_row (pmesh : PolygonMesh) (weight_calculator : WeightCalculator)
    (depth n : Nat) (vertex_id_map : Vertex_id_map) (v : vertex_descriptor)
    (q p : vertex_descriptor → ℚ) (X : Nat → ℚ) (A : Nat → ℚ) (B : ℚ)
    (hA : ∀ c, A c = laplacian_pow pmesh weight_calculator depth
      (fun u => if vertex_id_map u = some c then 1 else 0) v)
    (hB : B = laplacian_pow pmesh weight_calculator depth
      (fun u => if vertex_id_map u = none then -(q u) else 0) v)
    (hsome : ∀ u j, vertex_id_map u = some j → j < n ∧ p u = X j)
    (hnone : ∀ u, vertex_id_map u = none → p u = q u) :
    laplacian_pow pmesh weight_calculator depth p v =
      ∑ c ∈ Finset.range n, A c * X c - B := by
  have hp : p = fun u =>
      (∑ c ∈ Finset.range n, X c * (if vertex_id_map u = some c then (1 : ℚ) else 0)) +
        (-1) * (if vertex_id_map u = none then -(q u) else 0) := by
    funext u
    cases hu : vertex_id_map u with
    | none =>
      rw [hnone u hu]
      simp
    | some j =>
      obtain ⟨hj, hpu⟩ := hsome u j hu
      rw [hpu]
      simp only [Option.some.injEq, reduceCtorEq, if_false, mul_zero, add_zero]
      rw [Finset.sum_eq_single j]
      · simp
      · intro c _ hc
        have : ¬ j = c := fun h => hc h.symm
        simp [this]
      · intro hj'
        exact absurd (Finset.mem_range.mpr hj) hj'
  rw [hp, laplacian_pow_add, laplacian_pow_smul, laplacian_pow_sum, ← hB]
  rw [neg_one_mul, sub_eq_add_neg]
  congr 1
  exact Finset.sum_congr rfl (fun c _ => by rw [hA c]; ring)

theorem laplacian_pow_const (pmesh : PolygonMesh) (weight_calculator : WeightCalculator)
    (d : Nat) (e : ℚ) (v : vertex_descriptor) :
    laplacian_pow pmesh weight_calculator (d + 1) (fun _ => e) v = 0 := by
  induction d generalizing v with
  | zero => simp [laplacian_pow, laplacian]
  | succ d ih =>
    rw [laplacian_pow]
    have : laplacian_pow pmesh weight_calculator (d + 1) (fun _ => e) = fun _ => 0 := by
      funext w; exact ih w
    rw [this]
    simp [laplacian]

/-! ## One free vertex -/

theorem build_vertex_id_map_singleton (v : vertex_descriptor) :
    build_vertex_id_map [v] 0 (fun _ => none) = some (fun u => if u = v then some 0 else none) := by
  simp [build_vertex_id_map, Vertex_id_map.insert]

theorem interior_vertices_singleton (pmesh : PolygonMesh) (v : vertex_descriptor)
    (hproper : fair_all_mesh pmesh [v] = false) : interior_vertices pmesh [v] = .ok [v] := by
  unfold interior_vertices
  rw [hproper]
  rfl

/-- The system that `fair` assembles for the single free vertex `v`, at any
depth. -/
theorem single_vertex_system (pmesh : PolygonMesh) (weight_calculator : WeightCalculator)
    (ppmap : VertexPointMap) (depth : Nat) (v : vertex_descriptor) :
    (assemble_rows pmesh weight_calculator ppmap depth [v]
      (initial_system (fun u => if u = v then some 0 else none) 1)).A.dimension = 1 ∧
    (assemble_rows pmesh weight_calculator ppmap depth [v]
      (initial_system (fun u => if u = v then some 0 else none) 1)).A.coef 0 0 =
        laplacian_pow pmesh weight_calculator depth (fun u => if u = v then 1 else 0) v ∧
    (assemble_rows pmesh weight_calculator ppmap depth [v]
      (initial_system (fun u => if u = v then some 0 else none) 1)).Bx.coef 0 =
        laplacian_pow pmesh weight_calculator depth
          (fun u => if u = v then 0 else -(ppmap u).x) v ∧
    (assemble_rows pmesh weight_calculator ppmap depth [v]
      (initial_system (fun u => if u = v then some 0 else none) 1)).By.coef 0 =
        laplacian_pow pmesh weight_calculator depth
          (fun u => if u = v then 0 else -(ppmap u).y) v ∧
    (assemble_rows pmesh weight_calculator ppmap depth [v]
      (initial_system (fun u => if u = v then some 0 else none) 1)).Bz.coef 0 =
        laplacian_pow pmesh weight_calculator depth
          (fun u => if u = v then 0 else -(ppmap u).z) v := by
  obtain ⟨_, _, hdim, hrows⟩ := assembled_rows pmesh weight_calculator ppmap depth [v]
    (List.nodup_singleton v) _ (build_vertex_id_map_singleton v)
  obtain ⟨hA, hBx, hBy, hBz⟩ := hrows 0 (by simp)
  have e1 : (fun u : vertex_descriptor =>
      if (if u = v then some 0 else none) = some 0 then (1 : ℚ) else 0) =
      fun u => if u = v then 1 else 0 := by
    funext u; by_cases h : u = v <;> simp [h]
  have e2 : ∀ q : vertex_descriptor → ℚ, (fun u : vertex_descriptor =>
      if (if u = v then some 0 else (none : Option Nat)) = none then -(q u) else 0) =
      fun u => if u = v then 0 else -(q u) := by
    intro q; funext u; by_cases h : u = v <;> simp [h]
  simp only [List.length_singleton, List.get_eq_getElem, List.getElem_cons_zero]
    at hdim hA hBx hBy hBz
  refine ⟨hdim, ?_, ?_, ?_, ?_⟩
  · rw [hA 0, e1]
  · rw [hBx, e2 (fun u => (ppmap u).x)]
  · rw [hBy, e2 (fun u => (ppmap u).y)]
  · rw [hBz, e2 (fun u => (ppmap u).z)]

/-- A successful call of `fair` on the single free vertex `v`, with a solver
that meets its postcondition: with `a` the entry of the 1x1 matrix, each
coordinate of the new position times `a` is the right-hand side. -/
theorem single_vertex_solution {σ : Type} (pmesh : PolygonMesh)
    (weight_calculator : WeightCalculator) (ppmap : VertexPointMap)
    (solver : Sparse_linear_solver σ) (m_solver : σ) (v : vertex_descriptor)
    (fc : Nat) (r : Fair_outcome)
    (hproper : fair_all_mesh pmesh [v] = false)
    (hsolver : Solver_postcondition solver)
    (h : fair pmesh weight_calculator ppmap solver m_solver [v] fc = .ok r)
    (hres : r.result = true) :
    laplacian_pow pmesh weight_calculator (fair_depth fc).toNat
        (fun u => if u = v then 1 else 0) v * (r.ppmap v).x =
      laplacian_pow pmesh weight_calculator (fair_depth fc).toNat
        (fun u => if u = v then 0 else -(ppmap u).x) v ∧
    laplacian_pow pmesh weight_calculator (fair_depth fc).toNat
        (fun u => if u = v then 1 else 0) v * (r.ppmap v).y =
      laplacian_pow pmesh weight_calculator (fair_depth fc).toNat
        (fun u => if u = v then 0 else -(ppmap u).y) v ∧
    laplacian_pow pmesh weight_calculator (fair_depth fc).toNat
        (fun u => if u = v then 1 else 0) v * (r.ppmap v).z =
      laplacian_pow pmesh weight_calculator (fair_depth fc).toNat
        (fun u => if u = v then 0 else -(ppmap u).z) v := by
  obtain ⟨interior, m, X, Y, Z, hi, hb, hsol, hpos, _⟩ := fair_success_system pmesh
    weight_calculator ppmap solver m_solver [v] fc r (by simp) hsolver h hres
  rw [interior_vertices_singleton pmesh v hproper] at hi
  injection hi with hi
  subst hi
  rw [build_vertex_id_map_singleton] at hb
  injection hb with hb
  subst hb
  obtain ⟨hdim, hA, hBx, hBy, hBz⟩ := single_vertex_system pmesh weight_calculator ppmap
    (fair_depth fc).toNat v
  obtain ⟨sx, sy, sz⟩ := hsol 0 (by simp)
  have hp := hpos 0 (by simp)
  simp only [List.get_eq_getElem, List.getElem_cons_zero] at hp
  have hr1 : List.range 1 = [0] := rfl
  simp only [mul_vec, hdim, hr1, List.map_cons, List.map_nil, List.sum_cons,
    List.sum_nil, add_zero, List.length_singleton] at sx sy sz
  rw [hp]
  simp only
  rw [← hA, ← hBx, ← hBy, ← hBz]
  exact ⟨sx, sy, sz⟩

theorem laplacian_indicator (pmesh : PolygonMesh) (weight_calculator : WeightCalculator)
    (v : vertex_descriptor)
    (hloop : ∀ h ∈ halfedges_around_target pmesh v, pmesh.target (pmesh.opposite h) ≠ v) :
    laplacian_pow pmesh weight_calculator 1 (fun u => if u = v then 1 else 0) v =
      weight_calculator.w_i v * sum_weight pmesh weight_calculator v := by
  simp only [laplacian_pow, laplacian, sum_weight_eq]
  congr 1
  congr 1
  apply List.map_congr_left
  intro h hh
  simp [hloop h hh]

theorem laplacian_fixed (pmesh : PolygonMesh) (weight_calculator : WeightCalculator)
    (q : vertex_descriptor → ℚ) (v : vertex_descriptor)
    (hloop : ∀ h ∈ halfedges_around_target pmesh v, pmesh.target (pmesh.opposite h) ≠ v) :
    laplacian_pow pmesh weight_calculator 1 (fun u => if u = v then 0 else -(q u)) v =
      weight_calculator.w_i v * neighbour_sum pmesh weight_calculator q v := by
  simp only [laplacian_pow, laplacian, neighbour_sum]
  congr 1
  congr 1
  apply List.map_congr_left
  intro h hh
  simp [hloop h hh]

theorem neighbour_sum_uniform (pmesh : PolygonMesh) (weight_calculator : WeightCalculator)
    (q : vertex_descriptor → ℚ) (v : vertex_descriptor)
    (hw : ∀ h ∈ halfedges_around_target pmesh v, weight_calculator.w_ij h = 1) :
    neighbour_sum pmesh weight_calculator q v =
      ((halfedges_around_target pmesh v).map
        (fun h => q (pmesh.target (pmesh.opposite h)))).sum ∧
    sum_weight pmesh weight_calculator v = (halfedges_around_target pmesh v).length := by
  constructor
  · unfold neighbour_sum
    congr 1
    apply List.map_congr_left
    intro h hh
    rw [hw h hh, one_mul]
  · rw [sum_weight_eq]
    have : (halfedges_around_target pmesh v).map weight_calculator.w_ij =
        (halfedges_around_target pmesh v).map (fun _ => (1 : ℚ)) :=
      List.map_congr_left (fun h hh => hw h hh)
    rw [this, List.map_const', List.sum_replicate]
    simp

/-- C12: let `v` be the only selected vertex, the selection not being the whole
mesh, and let no halfedge around `v` come from `v` itself.  With
`S = sum_h w_ij(h)`, the system assembled at depth 1 is the 1x1 system
`(w_i(v) * S) * X = w_i(v) * sum_h w_ij(h) * position(nv(h))`.  When
`w_i(v) * S` is not 0, the solver meets its postcondition and `fair` with
continuity order 0 returns true, the new position of `v` is
`sum_h w_ij(h) * position(nv(h)) / S`; when the weights `w_ij` around `v` are
all 1 this is the arithmetic mean of the positions of the neighbours. -/
theorem single_free_vertex_weighted_mean {σ : Type} (pmesh : PolygonMesh)
    (weight_calculator : WeightCalculator) (ppmap : VertexPointMap)
    (solver : Sparse_linear_solver σ) (m_solver : σ) (v : vertex_descriptor)
    (r : Fair_outcome)
    (hproper : fair_all_mesh pmesh [v] = false)
    (hloop : ∀ h ∈ halfedges_around_target pmesh v, pmesh.target (pmesh.opposite h) ≠ v)
    (hsolver : Solver_postcondition solver)
    (hS : weight_calculator.w_i v * sum_weight pmesh weight_calculator v ≠ 0)
    (h : fair pmesh weight_calculator ppmap solver m_solver [v] 0 = .ok r)
    (hres : r.result = true) :
    (interior_vertices pmesh [v] = .ok [v] ∧
      build_vertex_id_map [v] 0 (fun _ => none) =
        some (fun u => if u = v then some 0 else none)) ∧
    ((assemble_rows pmesh weight_calculator ppmap 1 [v]
        (initial_system (fun u => if u = v then some 0 else none) 1)).A.dimension = 1 ∧
      (assemble_rows pmesh weight_calculator ppmap 1 [v]
        (initial_system (fun u => if u = v then some 0 else none) 1)).A.coef 0 0 =
          weight_calculator.w_i v * sum_weight pmesh weight_calculator v ∧
      (assemble_rows pmesh weight_calculator ppmap 1 [v]
        (initial_system (fun u => if u = v then some 0 else none) 1)).Bx.coef 0 =
          weight_calculator.w_i v *
            neighbour_sum pmesh weight_calculator (fun u => (ppmap u).x) v ∧
      (assemble_rows pmesh weight_calculator ppmap 1 [v]
        (initial_system (fun u => if u = v then some 0 else none) 1)).By.coef 0 =
          weight_calculator.w_i v *
            neighbour_sum pmesh weight_calculator (fun u => (ppmap u).y) v ∧
      (assemble_rows pmesh weight_calculator ppmap 1 [v]
        (initial_system (fun u => if u = v then some 0 else none) 1)).Bz.coef 0 =
          weight_calculator.w_i v *
            neighbour_sum pmesh weight_calculator (fun u => (ppmap u).z) v) ∧
    r.ppmap v =
      ⟨neighbour_sum pmesh weight_calculator (fun u => (ppmap u).x) v /
          sum_weight pmesh weight_calculator v,
        neighbour_sum pmesh weight_calculator (fun u => (ppmap u).y) v /
          sum_weight pmesh weight_calculator v,
        neighbour_sum pmesh weight_calculator (fun u => (ppmap u).z) v /
          sum_weight pmesh weight_calculator v⟩ ∧
    ((∀ h ∈ halfedges_around_target pmesh v, weight_calculator.w_ij h = 1) →
      r.ppmap v =
        ⟨((halfedges_around_target pmesh v).map
            (fun h => (ppmap (pmesh.target (pmesh.opposite h))).x)).sum /
            (halfedges_around_target pmesh v).length,
          ((halfedges_around_target pmesh v).map
            (fun h => (ppmap (pmesh.target (pmesh.opposite h))).y)).sum /
            (halfedges_around_target pmesh v).length,
          ((halfedges_around_target pmesh v).map
            (fun h => (ppmap (pmesh.target (pmesh.opposite h))).z)).sum /
            (halfedges_around_target pmesh v).length⟩) := by
  have hw : weight_calculator.w_i v ≠ 0 := left_ne_zero_of_mul hS
  have hs : sum_weight pmesh weight_calculator v ≠ 0 := right_ne_zero_of_mul hS
  obtain ⟨hdim, hA, hBx, hBy, hBz⟩ := single_vertex_system pmesh weight_calculator ppmap 1 v
  obtain ⟨sx, sy, sz⟩ := single_vertex_solution pmesh weight_calculator ppmap solver m_solver
    v 0 r hproper hsolver h hres
  have hd : (fair_depth 0).toNat = 1 := by decide
  rw [hd, laplacian_indicator pmesh weight_calculator v hloop, laplacian_fixed pmesh
    weight_calculator _ v hloop] at sx sy sz
  rw [laplacian_indicator pmesh weight_calculator v hloop] at hA
  rw [laplacian_fixed pmesh weight_calculator _ v hloop] at hBx hBy hBz
  have hpos : r.ppmap v =
      ⟨neighbour_sum pmesh weight_calculator (fun u => (ppmap u).x) v /
          sum_weight pmesh weight_calculator v,
        neighbour_sum pmesh weight_calculator (fun u => (ppmap u).y) v /
          sum_weight pmesh weight_calculator v,
        neighbour_sum pmesh weight_calculator (fun u => (ppmap u).z) v /
          sum_weight pmesh weight_calculator v⟩ := by
    have ex : (r.ppmap v).x = neighbour_sum pmesh weight_calculator (fun u => (ppmap u).x) v /
        sum_weight pmesh weight_calculator v := by
      field_simp
      have := mul_left_cancel₀ hw (by linear_combination sx :
        weight_calculator.w_i v * ((r.ppmap v).x * sum_weight pmesh weight_calculator v) =
          weight_calculator.w_i v *
            neighbour_sum pmesh weight_calculator (fun u => (ppmap u).x) v)
      exact this
    have ey : (r.ppmap v).y = neighbour_sum pmesh weight_calculator (fun u => (ppmap u).y) v /
        sum_weight pmesh weight_calculator v := by
      field_simp
      have := mul_left_cancel₀ hw (by linear_combination sy :
        weight_calculator.w_i v * ((r.ppmap v).y * sum_weight pmesh weight_calculator v) =
          weight_calculator.w_i v *
            neighbour_sum pmesh weight_calculator (fun u => (ppmap u).y) v)
      exact this
    have ez : (r.ppmap v).z = neighbour_sum pmesh weight_calculator (fun u => (ppmap u).z) v /
        sum_weight pmesh weight_calculator v := by
      field_simp
      have := mul_left_cancel₀ hw (by linear_combination sz :
        weight_calculator.w_i v * ((r.ppmap v).z * sum_weight pmesh weight_calculator v) =
          weight_calculator.w_i v *
            neighbour_sum pmesh weight_calculator (fun u => (ppmap u).z) v)
      exact this
    rw [← ex, ← ey, ← ez]
  refine ⟨⟨interior_vertices_singleton pmesh v hproper, build_vertex_id_map_singleton v⟩,
    ⟨hdim, hA, hBx, hBy, hBz⟩, hpos, ?_⟩
  intro huni
  rw [hpos]
  rw [(neighbour_sum_uniform pmesh weight_calculator (fun _ => 0) v huni).2,
    (neighbour_sum_uniform pmesh weight_calculator (fun u => (ppmap u).x) v huni).1,
    (neighbour_sum_uniform pmesh weight_calculator (fun u => (ppmap u).y) v huni).1,
    (neighbour_sum_uniform pmesh weight_calculator (fun u => (ppmap u).z) v huni).1]

theorem single_free_vertex_weighted_mean_witness :
    fair_all_mesh cube [0] = false ∧
    (∀ h ∈ halfedges_around_target cube 0, cube.target (cube.opposite h) ≠ 0) ∧
    Solver_postcondition diagonal_solver ∧
    uniform_weights.w_i 0 * sum_weight cube uniform_weights 0 ≠ 0 ∧
    ∃ r, fair cube uniform_weights cube_points diagonal_solver none [0] 0 = .ok r ∧
      r.result = true ∧ r.ppmap 0 = ⟨1 / 3, 1 / 3, 1 / 3⟩ :=
  have hloop : ∀ h ∈ halfedges_around_target cube 0, cube.target (cube.opposite h) ≠ 0 := by
    decide
  have hS : uniform_weights.w_i 0 * sum_weight cube uniform_weights 0 ≠ 0 := by
    simp [uniform_weights, sum_weight, halfedges_around_target, cube]
    norm_num
  ⟨by decide, hloop, diagonal_solver_postcondition, hS, _, by with_unfolding_all rfl,
    by with_unfolding_all rfl,
    (single_free_vertex_weighted_mean cube uniform_weights cube_points diagonal_solver none 0 _
      (by decide) hloop diagonal_solver_postcondition hS (by with_unfolding_all rfl)
      (by with_unfolding_all rfl)).2.2.1.trans (by with_unfolding_all rfl)⟩

/-! ## The disk -/

theorem list_range_sum (n : Nat) (F : Nat → ℚ) :
    ((List.range n).map F).sum = ∑ i ∈ Finset.range n, F i := rfl

theorem disk_nv (n s t : Nat) (ht : t ≤ n) (hs : s ≤ n) :
    (disk n).target ((disk n).opposite ((n + 1) * s + t)) = s := by
  simp only [disk]
  have h1 : ((n + 1) * s + t) % (n + 1) = t := by
    rw [Nat.mul_add_mod]; exact Nat.mod_eq_of_lt (by omega)
  have h2 : ((n + 1) * s + t) / (n + 1) = s := by
    rw [Nat.mul_add_div (by omega), Nat.div_eq_of_lt (by omega)]; rfl
  rw [h1, h2, Nat.mul_add_mod]
  exact Nat.mod_eq_of_lt (by omega)

theorem disk_halfedges_centre (n : Nat) (hn : 1 ≤ n) :
    halfedges_around_target (disk n) 0 = (List.range n).map (fun i => (n + 1) * (i + 1)) := by
  obtain ⟨m, rfl⟩ : ∃ m, n = m + 1 := ⟨n - 1, by omega⟩
  simp only [halfedges_around_target, disk, if_true, Nat.add_sub_cancel]
  rw [List.range_succ_eq_map, List.map_cons, List.map_map]
  rfl

theorem disk_laplacian_centre (n : Nat) (hn : 1 ≤ n) (f : vertex_descriptor → ℚ) :
    laplacian (disk n) uniform_weights f 0 =
      (n : ℚ) * f 0 - ∑ i ∈ Finset.range n, f (i + 1) := by
  unfold laplacian
  rw [disk_halfedges_centre n hn, List.map_map]
  have : ((fun h => uniform_weights.w_ij h *
      (f 0 - f ((disk n).target ((disk n).opposite h)))) ∘ fun i => (n + 1) * (i + 1)) =
      fun i => (if i < n then f 0 - f (i + 1) else
        uniform_weights.w_ij ((n + 1) * (i + 1)) *
          (f 0 - f ((disk n).target ((disk n).opposite ((n + 1) * (i + 1)))))) := by
    funext i
    simp only [Function.comp]
    split_ifs with hi
    · have := disk_nv n (i + 1) 0 (by omega) (by omega)
      simp only [add_zero] at this
      rw [this]
      simp [uniform_weights]
    · rfl
  rw [this, list_range_sum]
  have e : ∑ i ∈ Finset.range n, (if i < n then f 0 - f (i + 1) else
        uniform_weights.w_ij ((n + 1) * (i + 1)) *
          (f 0 - f ((disk n).target ((disk n).opposite ((n + 1) * (i + 1)))))) =
      ∑ i ∈ Finset.range n, (f 0 - f (i + 1)) :=
    Finset.sum_congr rfl (fun i hi => by rw [if_pos (Finset.mem_range.mp hi)])
  rw [e, Finset.sum_sub_distrib, Finset.sum_const, Finset.card_range]
  simp [uniform_weights]

theorem disk_laplacian_ring (n j : Nat) (hj1 : 1 ≤ j) (hjn : j ≤ n)
    (f : vertex_descriptor → ℚ) :
    laplacian (disk n) uniform_weights f j =
      3 * f j - f 0 - f (if j = 1 then n else j - 1) - f (if j = n then 1 else j + 1) := by
  have hj0 : j ≠ 0 := by omega
  have hp : (if j = 1 then n else j - 1) ≤ n := by split_ifs <;> omega
  have hq : (if j = n then 1 else j + 1) ≤ n := by split_ifs <;> omega
  have h0 := disk_nv n 0 j hjn (by omega)
  have h1 := disk_nv n (if j = 1 then n else j - 1) j hjn hp
  have h2 := disk_nv n (if j = n then 1 else j + 1) j hjn hq
  simp only [Nat.mul_zero, Nat.zero_add] at h0
  unfold laplacian
  have hl : halfedges_around_target (disk n) j =
      [j, (n + 1) * (if j = 1 then n else j - 1) + j,
        (n + 1) * (if j = n then 1 else j + 1) + j] := by
    simp only [halfedges_around_target, disk, if_neg hj0]
  rw [hl]
  simp only [List.map_cons, List.map_nil, List.sum_cons, List.sum_nil, h0, h1, h2]
  simp only [uniform_weights]
  ring

theorem sum_ring_prev (m : Nat) (f : vertex_descriptor → ℚ) :
    ∑ i ∈ Finset.range (m + 1), f (if i + 1 = 1 then m + 1 else i + 1 - 1) =
      ∑ i ∈ Finset.range (m + 1), f (i + 1) := by
  rw [Finset.sum_range_succ', Finset.sum_range_succ]
  simp

theorem sum_ring_next (m : Nat) (f : vertex_descriptor → ℚ) :
    ∑ i ∈ Finset.range (m + 1), f (if i + 1 = m + 1 then 1 else i + 1 + 1) =
      ∑ i ∈ Finset.range (m + 1), f (i + 1) := by
  rw [Finset.sum_range_succ, Finset.sum_range_succ']
  simp only [if_true, zero_add]
  congr 1
  exact Finset.sum_congr rfl (fun i hi => by
    have : i + 1 ≠ m + 1 := by have := Finset.mem_range.mp hi; omega
    rw [if_neg this])

/-- The first two powers of the uniform Laplacian at the centre of the disk. -/
theorem disk_laplacian_pow (n : Nat) (hn : 1 ≤ n) (f : vertex_descriptor → ℚ) :
    laplacian_pow (disk n) uniform_weights 1 f 0 =
      (n : ℚ) * f 0 - ∑ i ∈ Finset.range n, f (i + 1) ∧
    laplacian_pow (disk n) uniform_weights 2 f 0 =
      ((n : ℚ) + 1) * ((n : ℚ) * f 0 - ∑ i ∈ Finset.range n, f (i + 1)) := by
  constructor
  · exact disk_laplacian_centre n hn f
  · show laplacian (disk n) uniform_weights (laplacian (disk n) uniform_weights f) 0 = _
    rw [disk_laplacian_centre n hn]
    have hring : ∑ i ∈ Finset.range n, laplacian (disk n) uniform_weights f (i + 1) =
        ∑ i ∈ Finset.range n, (3 * f (i + 1) - f 0 - f (if i + 1 = 1 then n else i + 1 - 1)
          - f (if i + 1 = n then 1 else i + 1 + 1)) :=
      Finset.sum_congr rfl (fun i hi =>
        disk_laplacian_ring n (i + 1) (by omega) (by have := Finset.mem_range.mp hi; omega) f)
    rw [hring, disk_laplacian_centre n hn]
    obtain ⟨m, rfl⟩ : ∃ m, n = m + 1 := ⟨n - 1, by omega⟩
    simp only [Finset.sum_sub_distrib, sum_ring_prev, sum_ring_next, Finset.sum_const,
      Finset.card_range, ← Finset.mul_sum]
    simp only [nsmul_eq_mul]
    ring

/-- C13, counterexample: on the disk with three ring vertices, uniform weights,
the ring fixed and the centre free, `fair` with continuity order 0 (depth 1)
and with continuity order 1 (depth 2) both return true with an exact solver
and both put the centre at (2, 14/3, 1): the positions do not differ. -/
theorem disk_three_orders_agree :
    (fair (disk 3) uniform_weights sample_points diagonal_solver none [0] 0).toOption.map
        (fun r => (r.result, r.ppmap 0)) = some (true, ⟨2, 14 / 3, 1⟩) ∧
    (fair (disk 3) uniform_weights sample_points diagonal_solver none [0] 1).toOption.map
        (fun r => (r.result, r.ppmap 0)) = some (true, ⟨2, 14 / 3, 1⟩) :=
  ⟨by decide!, by decide!⟩

/-- C13, amended: on the disk with n >= 3 ring vertices, uniform weights, the
ring fixed and the centre free, with a solver that meets its postcondition, the
position of the centre after a successful `fair` with continuity order 1
(depth 2) equals the one after a successful `fair` with continuity order 0
(depth 1): both are the arithmetic mean of the positions of the ring. -/
theorem disk_orders_agree {σ : Type} (n : Nat) (hn : 3 ≤ n) (ppmap : VertexPointMap)
    (solver : Sparse_linear_solver σ) (m_solver : σ) (r0 r1 : Fair_outcome)
    (hsolver : Solver_postcondition solver)
    (h0 : fair (disk n) uniform_weights ppmap solver m_solver [0] 0 = .ok r0)
    (hres0 : r0.result = true)
    (h1 : fair (disk n) uniform_weights ppmap solver m_solver [0] 1 = .ok r1)
    (hres1 : r1.result = true) :
    r1.ppmap 0 = r0.ppmap 0 ∧
    r0.ppmap 0 =
      ⟨(∑ i ∈ Finset.range n, (ppmap (i + 1)).x) / n,
        (∑ i ∈ Finset.range n, (ppmap (i + 1)).y) / n,
        (∑ i ∈ Finset.range n, (ppmap (i + 1)).z) / n⟩ := by
  have hn1 : 1 ≤ n := by omega
  have hnq : (n : ℚ) ≠ 0 := by exact_mod_cast (by omega : n ≠ 0)
  have hnq1 : (n : ℚ) + 1 ≠ 0 := by positivity
  have hproper : fair_all_mesh (disk n) [0] = false := by
    simp only [fair_all_mesh, disk, List.length_singleton, List.length_range]
    simp only [beq_eq_false_iff_ne, ne_eq]
    omega
  have hone : (fair_depth 0).toNat = 1 := by decide
  have htwo : (fair_depth 1).toNat = 2 := by decide
  obtain ⟨ax, ay, az⟩ := single_vertex_solution (disk n) uniform_weights ppmap solver m_solver
    0 0 r0 hproper hsolver h0 hres0
  obtain ⟨bx, by', bz⟩ := single_vertex_solution (disk n) uniform_weights ppmap solver m_solver
    0 1 r1 hproper hsolver h1 hres1
  rw [hone, (disk_laplacian_pow n hn1 _).1, (disk_laplacian_pow n hn1 _).1] at ax ay az
  rw [htwo, (disk_laplacian_pow n hn1 _).2, (disk_laplacian_pow n hn1 _).2] at bx by' bz
  have hsum : ∀ q : vertex_descriptor → ℚ,
      ∑ i ∈ Finset.range n, (if i + 1 = 0 then (0 : ℚ) else -(q (i + 1))) =
        -∑ i ∈ Finset.range n, q (i + 1) := by
    intro q
    rw [← Finset.sum_neg_distrib]
    exact Finset.sum_congr rfl (fun i _ => by simp)
  have hzero : ∑ i ∈ Finset.range n, (if i + 1 = 0 then (1 : ℚ) else 0) = 0 :=
    Finset.sum_eq_zero (fun i _ => by simp)
  have hsx : ∑ i ∈ Finset.range n, (if i + 1 = 0 then (0 : ℚ) else -((ppmap (i + 1)).x)) =
      -∑ i ∈ Finset.range n, (ppmap (i + 1)).x := hsum (fun u => (ppmap u).x)
  have hsy : ∑ i ∈ Finset.range n, (if i + 1 = 0 then (0 : ℚ) else -((ppmap (i + 1)).y)) =
      -∑ i ∈ Finset.range n, (ppmap (i + 1)).y := hsum (fun u => (ppmap u).y)
  have hsz : ∑ i ∈ Finset.range n, (if i + 1 = 0 then (0 : ℚ) else -((ppmap (i + 1)).z)) =
      -∑ i ∈ Finset.range n, (ppmap (i + 1)).z := hsum (fun u => (ppmap u).z)
  simp only [hsx, hsy, hsz, hzero, if_true, sub_zero, mul_one, mul_zero, zero_sub, neg_neg]
    at ax ay az bx by' bz
  have key : ∀ (a b s : ℚ), (n : ℚ) * a = s → ((n : ℚ) + 1) * (n : ℚ) * b = ((n : ℚ) + 1) * s →
      b = a ∧ a = s / n := by
    intro a b s ha hb
    have ha' : a = s / n := by field_simp; linarith
    have hb' : b = s / n := by
      field_simp
      have := mul_left_cancel₀ hnq1 (by linear_combination hb :
        ((n : ℚ) + 1) * (b * n) = ((n : ℚ) + 1) * s)
      exact this
    exact ⟨by rw [ha', hb'], ha'⟩
  obtain ⟨ex1, ex0⟩ := key _ _ _ ax bx
  obtain ⟨ey1, ey0⟩ := key _ _ _ ay by'
  obtain ⟨ez1, ez0⟩ := key _ _ _ az bz
  constructor
  · have : ∀ p q : Point_3, p.x = q.x → p.y = q.y → p.z = q.z → p = q := by
      intro p q hx hy hz
      cases p; cases q
      simp only at hx hy hz
      rw [hx, hy, hz]
    exact this _ _ ex1 ey1 ez1
  · rw [← ex0, ← ey0, ← ez0]

theorem disk_orders_agree_witness :
    3 ≤ 4 ∧ Solver_postcondition diagonal_solver ∧
    ∃ r0 r1,
      fair (disk 4) uniform_weights flat_points diagonal_solver none [0] 0 = .ok r0 ∧
      r0.result = true ∧
      fair (disk 4) uniform_weights flat_points diagonal_solver none [0] 1 = .ok r1 ∧
      r1.result = true ∧ r1.ppmap 0 = r0.ppmap 0 :=
  ⟨by decide, diagonal_solver_postcondition, _, _, by with_unfolding_all rfl,
    by with_unfolding_all rfl, by with_unfolding_all rfl, by with_unfolding_all rfl,
    (disk_orders_agree 4 (by decide) flat_points diagonal_solver none _ _
      diagonal_solver_postcondition (by with_unfolding_all rfl) (by with_unfolding_all rfl)
      (by with_unfolding_all rfl) (by with_unfolding_all rfl)).1⟩

/-! ## Flat patches -/

theorem laplacian_pow_plane (pmesh : PolygonMesh) (weight_calculator : WeightCalculator)
    (ppmap : VertexPointMap) (a b c e : ℚ)
    (hplane : ∀ u, a * (ppmap u).x + b * (ppmap u).y + c * (ppmap u).z = e)
    (d : Nat) (v : vertex_descriptor) :
    a * laplacian_pow pmesh weight_calculator (d + 1) (fun u => (ppmap u).x) v +
      b * laplacian_pow pmesh weight_calculator (d + 1) (fun u => (ppmap u).y) v +
      c * laplacian_pow pmesh weight_calculator (d + 1) (fun u => (ppmap u).z) v = 0 := by
  rw [← laplacian_pow_smul, ← laplacian_pow_smul, ← laplacian_pow_smul, ← laplacian_pow_add,
    ← laplacian_pow_add]
  have : (fun w => a * (ppmap w).x + b * (ppmap w).y + c * (ppmap w).z) = fun _ => e := by
    funext w; exact hplane w
  rw [this]
  exact laplacian_pow_const pmesh weight_calculator d e v

/-- Row `k` of the assembled system applied to the current coordinates: the
defect is the power of the Laplacian of the coordinate at the vertex of the
row. -/
theorem assembled_row_defect (pmesh : PolygonMesh) (weight_calculator : WeightCalculator)
    (ppmap : VertexPointMap) (depth : Nat) (interior : List vertex_descriptor)
    (hnd : interior.Nodup) (m : Vertex_id_map)
    (hb : build_vertex_id_map interior 0 (fun _ => none) = some m)
    (k : Nat) (hk : k < interior.length) :
    laplacian_pow pmesh weight_calculator depth (fun u => (ppmap u).x) (interior.get ⟨k, hk⟩) =
      ∑ c ∈ Finset.range interior.length,
        (assemble_rows pmesh weight_calculator ppmap depth interior
          (initial_system m interior.length)).A.coef k c * (ppmap (interior.getD c 0)).x -
      (assemble_rows pmesh weight_calculator ppmap depth interior
        (initial_system m interior.length)).Bx.coef k ∧
    laplacian_pow pmesh weight_calculator depth (fun u => (ppmap u).y) (interior.get ⟨k, hk⟩) =
      ∑ c ∈ Finset.range interior.length,
        (assemble_rows pmesh weight_calculator ppmap depth interior
          (initial_system m interior.length)).A.coef k c * (ppmap (interior.getD c 0)).y -
      (assemble_rows pmesh weight_calculator ppmap depth interior
        (initial_system m interior.length)).By.coef k ∧
    laplacian_pow pmesh weight_calculator depth (fun u => (ppmap u).z) (interior.get ⟨k, hk⟩) =
      ∑ c ∈ Finset.range interior.length,
        (assemble_rows pmesh weight_calculator ppmap depth interior
          (initial_system m interior.length)).A.coef k c * (ppmap (interior.getD c 0)).z -
      (assemble_rows pmesh weight_calculator ppmap depth interior
        (initial_system m interior.length)).Bz.coef k := by
  obtain ⟨hget, hout, _, hrows⟩ := assembled_rows pmesh weight_calculator ppmap depth interior
    hnd m hb
  obtain ⟨hA, hBx, hBy, hBz⟩ := hrows k hk
  have hsome : ∀ u j, m u = some j → j < interior.length ∧ u = interior.getD j 0 := by
    intro u j huj
    have hu : u ∈ interior := by
      by_contra hc
      rw [hout u hc] at huj
      exact absurd huj (by simp)
    obtain ⟨l, hl, rfl⟩ := List.mem_iff_get.mp hu
    rw [hget l l.isLt] at huj
    injection huj with huj
    subst huj
    refine ⟨l.isLt, ?_⟩
    rw [List.getD_eq_getElem _ _ l.isLt]
    rfl
  refine ⟨?_, ?_, ?_⟩
  · exact laplacian_pow_row pmesh weight_calculator depth interior.length m _
      (fun u => (ppmap u).x) (fun u => (ppmap u).x) (fun c => (ppmap (interior.getD c 0)).x)
      _ _ hA hBx
      (fun u j huj => ⟨(hsome u j huj).1, by
        show (ppmap u).x = (ppmap (interior.getD j 0)).x
        rw [← (hsome u j huj).2]⟩)
      (fun _ _ => rfl)
  · exact laplacian_pow_row pmesh weight_calculator depth interior.length m _
      (fun u => (ppmap u).y) (fun u => (ppmap u).y) (fun c => (ppmap (interior.getD c 0)).y)
      _ _ hA hBy
      (fun u j huj => ⟨(hsome u j huj).1, by
        show (ppmap u).y = (ppmap (interior.getD j 0)).y
        rw [← (hsome u j huj).2]⟩)
      (fun _ _ => rfl)
  · exact laplacian_pow_row pmesh weight_calculator depth interior.length m _
      (fun u => (ppmap u).z) (fun u => (ppmap u).z) (fun c => (ppmap (interior.getD c 0)).z)
      _ _ hA hBz
      (fun u j huj => ⟨(hsome u j huj).1, by
        show (ppmap u).z = (ppmap (interior.getD j 0)).z
        rw [← (hsome u j huj).2]⟩)
      (fun _ _ => rfl)

/-- C14, counterexample: the disk with four ring vertices and the positions
`flat_points` lies in the plane z = 0; the centre is free and the ring fixed
(a non-empty proper free set).  With uniform weights and continuity order 0
the current coordinate of the centre does not satisfy the assembled system
(`A[0][0] * X0[0] = 4 * 1/2` but `Bx[0] = 0`), and `fair`, which succeeds with
an exact solver on the nonsingular 1x1 matrix, moves the centre from
(1/2, 0, 0) to (0, 0, 0). -/
theorem flat_disk_is_moved :
    (∀ v, (flat_points v).z = 0) ∧
    flat_points 0 = ⟨1 / 2, 0, 0⟩ ∧
    (assemble_rows (disk 4) uniform_weights flat_points 1 [0]
      (initial_system (fun u => if u = 0 then some 0 else none) 1)).A.coef 0 0 = 4 ∧
    (assemble_rows (disk 4) uniform_weights flat_points 1 [0]
      (initial_system (fun u => if u = 0 then some 0 else none) 1)).Bx.coef 0 = 0 ∧
    (fair (disk 4) uniform_weights flat_points diagonal_solver none [0] 0).toOption.map
        (fun r => (r.result, r.ppmap 0)) = some (true, ⟨0, 0, 0⟩) :=
  ⟨fun v => by unfold flat_points; split_ifs <;> rfl, by with_unfolding_all rfl, by decide!,
    by decide!, by decide!⟩

/-- C14, amended: let every position lie in the plane
`a * x + b * y + c * z = e`.  For every continuity order in {0,1,2}, every
weight provider and every non-empty selection on which the pruning does not
fault, the combination `a * X0 + b * Y0 + c * Z0` of the current coordinates
of the free vertices satisfies the assembled system with the right-hand side
`a * Bx + b * By + c * Bz`; so a successful `fair` with a solver that meets its
postcondition and a nonsingular `A` leaves every free vertex in the plane. -/
theorem fair_keeps_flat_patch_in_plane {σ : Type} (pmesh : PolygonMesh)
    (weight_calculator : WeightCalculator) (ppmap : VertexPointMap)
    (solver : Sparse_linear_solver σ) (m_solver : σ)
    (vertices interior : List vertex_descriptor) (fc : Nat) (a b c e : ℚ)
    (hplane : ∀ u, a * (ppmap u).x + b * (ppmap u).y + c * (ppmap u).z = e)
    (hfc : fc ≤ 2) (hne : vertices ≠ [])
    (hi : interior_vertices pmesh vertices = .ok interior) :
    ∃ m, build_vertex_id_map interior 0 (fun _ => none) = some m ∧
      (∀ k, k < interior.length →
        ∑ j ∈ Finset.range interior.length,
          (assemble_rows pmesh weight_calculator ppmap (fc + 1) interior
            (initial_system m interior.length)).A.coef k j *
            (a * (ppmap (interior.getD j 0)).x + b * (ppmap (interior.getD j 0)).y +
              c * (ppmap (interior.getD j 0)).z) =
          a * (assemble_rows pmesh weight_calculator ppmap (fc + 1) interior
              (initial_system m interior.length)).Bx.coef k +
            b * (assemble_rows pmesh weight_calculator ppmap (fc + 1) interior
              (initial_system m interior.length)).By.coef k +
            c * (assemble_rows pmesh weight_calculator ppmap (fc + 1) interior
              (initial_system m interior.length)).Bz.coef k) ∧
      (∀ r, Solver_postcondition solver →
        Nonsingular (assemble_rows pmesh weight_calculator ppmap (fc + 1) interior
          (initial_system m interior.length)).A →
        fair pmesh weight_calculator ppmap solver m_solver vertices fc = .ok r →
        r.result = true →
        ∀ v ∈ interior,
          a * (r.ppmap v).x + b * (r.ppmap v).y + c * (r.ppmap v).z = e) := by
  have hnd := interior_vertices_nodup pmesh vertices interior hi
  obtain ⟨m, hb, _⟩ := build_vertex_id_map_ok interior hnd
  have hdepth : (fair_depth fc).toNat = fc + 1 := by
    rw [fair_depth_of_le_two fc hfc]; omega
  have hsys : ∀ k, k < interior.length →
      ∑ j ∈ Finset.range interior.length,
        (assemble_rows pmesh weight_calculator ppmap (fc + 1) interior
          (initial_system m interior.length)).A.coef k j *
          (a * (ppmap (interior.getD j 0)).x + b * (ppmap (interior.getD j 0)).y +
            c * (ppmap (interior.getD j 0)).z) =
        a * (assemble_rows pmesh weight_calculator ppmap (fc + 1) interior
            (initial_system m interior.length)).Bx.coef k +
          b * (assemble_rows pmesh weight_calculator ppmap (fc + 1) interior
            (initial_system m interior.length)).By.coef k +
          c * (assemble_rows pmesh weight_calculator ppmap (fc + 1) interior
            (initial_system m interior.length)).Bz.coef k := by
    intro k hk
    obtain ⟨dx, dy, dz⟩ := assembled_row_defect pmesh weight_calculator ppmap (fc + 1)
      interior hnd m hb k hk
    have hp := laplacian_pow_plane pmesh weight_calculator ppmap a b c e hplane fc
      (interior.get ⟨k, hk⟩)
    rw [dx, dy, dz] at hp
    simp only [mul_add, Finset.sum_add_distrib]
    have e1 : ∀ (t : ℚ) (q : Nat → ℚ), ∑ j ∈ Finset.range interior.length,
        (assemble_rows pmesh weight_calculator ppmap (fc + 1) interior
          (initial_system m interior.length)).A.coef k j * (t * q j) =
        t * ∑ j ∈ Finset.range interior.length,
          (assemble_rows pmesh weight_calculator ppmap (fc + 1) interior
            (initial_system m interior.length)).A.coef k j * q j := by
      intro t q
      rw [Finset.mul_sum]
      exact Finset.sum_congr rfl (fun j _ => by ring)
    rw [e1 a (fun j => (ppmap (interior.getD j 0)).x),
      e1 b (fun j => (ppmap (interior.getD j 0)).y),
      e1 c (fun j => (ppmap (interior.getD j 0)).z)]
    linear_combination hp
  refine ⟨m, hb, hsys, ?_⟩
  intro r hsolver hnon h hres v hv
  obtain ⟨interior', m', X, Y, Z, hi', hb', hsol, hpos, _⟩ := fair_success_system pmesh
    weight_calculator ppmap solver m_solver vertices fc r hne hsolver h hres
  rw [hi] at hi'
  injection hi' with hi'
  subst hi'
  rw [hb] at hb'
  injection hb' with hb'
  subst hb'
  rw [hdepth] at hsol
  obtain ⟨_, _, hdim, _⟩ := assembled_rows pmesh weight_calculator ppmap (fc + 1) interior
    hnd m hb
  obtain ⟨k, hk, rfl⟩ := List.mem_iff_get.mp hv
  have hzero := hnon (fun j => a * X.coef j + b * Y.coef j + c * Z.coef j -
      (a * (ppmap (interior.getD j 0)).x + b * (ppmap (interior.getD j 0)).y +
        c * (ppmap (interior.getD j 0)).z))
    (by
      intro r' hr'
      rw [hdim] at hr' ⊢
      obtain ⟨sx, sy, sz⟩ := hsol r' hr'
      rw [mul_vec_eq_sum, hdim] at sx sy sz
      have h0 := hsys r' hr'
      simp only [mul_sub, Finset.sum_sub_distrib, h0]
      simp only [mul_add, Finset.sum_add_distrib]
      have e1 : ∀ (t : ℚ) (q : Nat → ℚ), ∑ j ∈ Finset.range interior.length,
          (assemble_rows pmesh weight_calculator ppmap (fc + 1) interior
            (initial_system m interior.length)).A.coef r' j * (t * q j) =
          t * ∑ j ∈ Finset.range interior.length,
            (assemble_rows pmesh weight_calculator ppmap (fc + 1) interior
              (initial_system m interior.length)).A.coef r' j * q j := by
        intro t q
        rw [Finset.mul_sum]
        exact Finset.sum_congr rfl (fun j _ => by ring)
      rw [e1 a X.coef, e1 b Y.coef, e1 c Z.coef, sx, sy, sz]
      ring)
    k (by rw [hdim]; exact k.isLt)
  rw [hpos k k.isLt]
  simp only
  have hk' : interior.getD k 0 = interior.get k := by
    rw [List.getD_eq_getElem _ _ k.isLt]; rfl
  simp only [hk'] at hzero
  have := hplane (interior.get k)
  linarith

theorem flat_disk_nonsingular :
    Nonsingular (assemble_rows (disk 4) uniform_weights flat_points 1 [0]
      (initial_system (fun u => if u = 0 then some 0 else none) 1)).A := by
  have hdim := (single_vertex_system (disk 4) uniform_weights flat_points 1 0).1
  have hA : (assemble_rows (disk 4) uniform_weights flat_points 1 [0]
      (initial_system (fun u => if u = 0 then some 0 else none) 1)).A.coef 0 0 = 4 := by
    decide!
  intro X hX c hc
  rw [hdim] at hX hc
  have h0 := hX 0 (by decide)
  have hr : Finset.range 1 = {0} := rfl
  rw [hr, Finset.sum_singleton, hA] at h0
  have hc0 : c = 0 := by omega
  rw [hc0]
  linarith

theorem fair_keeps_flat_patch_in_plane_witness :
    (∀ u, 0 * (flat_points u).x + 0 * (flat_points u).y + 1 * (flat_points u).z = 0) ∧
    (0 : Nat) ≤ 2 ∧ ([0] : List vertex_descriptor) ≠ [] ∧
    interior_vertices (disk 4) [0] = .ok [0] ∧
    ∃ r, fair (disk 4) uniform_weights flat_points diagonal_solver none [0] 0 = .ok r ∧
      r.result = true ∧
      0 * (r.ppmap 0).x + 0 * (r.ppmap 0).y + 1 * (r.ppmap 0).z = 0 :=
  have hplane : ∀ u, 0 * (flat_points u).x + 0 * (flat_points u).y + 1 * (flat_points u).z
      = 0 := by
    intro u
    unfold flat_points
    split_ifs <;> simp
  ⟨hplane, by decide, by decide, by with_unfolding_all rfl, _, by with_unfolding_all rfl,
    by with_unfolding_all rfl,
    by
      obtain ⟨m, hb, _, hkeep⟩ := fair_keeps_flat_patch_in_plane (disk 4) uniform_weights
        flat_points diagonal_solver none [0] [0] 0 0 0 1 0 hplane (by decide) (by decide)
        (by with_unfolding_all rfl)
      rw [build_vertex_id_map_singleton] at hb
      injection hb with hb
      subst hb
      exact hkeep _ diagonal_solver_postcondition flat_disk_nonsingular
        (by with_unfolding_all rfl) (by with_unfolding_all rfl) 0 (by decide)⟩

/-! ## The guard of the modulo and the trigger of the pruning -/

/-- C21: with `percent = 10` the divisor `freq` of `i % freq` is at least 1
exactly when the set has n >= 10 elements.  For a set of n >= 10 elements
`remove_vertices` returns and does not divide by zero, and for a set of 1 to 9
elements it divides by zero; a call of `fair` whose depth check passes, on a
selection that `fair_all_mesh` accepts and whose set has 1 to 9 elements, ends
in the division by zero. -/
theorem modulo_guarded_by_size_only :
    (∀ n : Nat, 1 ≤ Rat.floor (1 / 100 * 10 * (n : ℚ)) ↔ 10 ≤ n) ∧
    (∀ vertices : List vertex_descriptor, vertices.Nodup → 10 ≤ vertices.length →
      ∃ result, remove_vertices vertices 10 = .ok result) ∧
    (∀ vertices : List vertex_descriptor, 1 ≤ vertices.length → vertices.length ≤ 9 →
      remove_vertices vertices 10 = .error .division_by_zero) ∧
    (∀ (σ : Type) (pmesh : PolygonMesh) (weight_calculator : WeightCalculator)
      (ppmap : VertexPointMap) (solver : Sparse_linear_solver σ) (m_solver : σ)
      (vertices : List vertex_descriptor) (fc : Nat),
      ¬ (fair_depth fc < 0 ∨ fair_depth fc > 3) →
      fair_all_mesh pmesh vertices = true →
      1 ≤ (set_of_range vertices).length → (set_of_range vertices).length ≤ 9 →
      fair pmesh weight_calculator ppmap solver m_solver vertices fc =
        .error .division_by_zero) := by
  refine ⟨?_, ?_, ?_, ?_⟩
  · intro n
    rw [remove_vertices_freq]
    omega
  · intro vertices hnd hn
    exact ⟨_, remove_vertices_ten vertices hnd hn⟩
  · intro vertices h1 h9
    unfold remove_vertices
    rw [if_neg (by norm_num)]
    simp only [remove_vertices_freq]
    have hfreq : (vertices.length : Int) / 10 = 0 := by omega
    rw [hfreq]
    cases vertices with
    | nil => simp at h1
    | cons a s => exact remove_vertices_loop_zero _ _ _ _
  · intro σ pmesh weight_calculator ppmap solver m_solver vertices fc hd hall h1 h9
    have hi := (interior_vertices_fault_iff pmesh vertices).mpr ⟨hall, h1, h9⟩
    have hne : set_of_range vertices ≠ [] := by
      intro h0
      rw [h0] at h1
      simp at h1
    unfold fair
    simp only
    rw [if_neg hd, if_neg hne, hi]

theorem modulo_guarded_by_size_only_witness :
    ¬ (fair_depth 0 < 0 ∨ fair_depth 0 > 3) ∧
    fair_all_mesh tetrahedron [0, 1, 2, 3] = true ∧
    1 ≤ (set_of_range [0, 1, 2, 3]).length ∧ (set_of_range [0, 1, 2, 3]).length ≤ 9 ∧
    fair tetrahedron uniform_weights sample_points diagonal_solver none [0, 1, 2, 3] 0 =
      .error .division_by_zero :=
  ⟨by decide, by decide, by decide, by decide,
    modulo_guarded_by_size_only.2.2.2 _ tetrahedron uniform_weights sample_points
      diagonal_solver none [0, 1, 2, 3] 0 (by decide) (by decide) (by decide) (by decide)⟩

/-- C22: the free set is pruned exactly when the length of the range, counted
with repetitions, equals the number of vertices of the mesh.  A range that
lists every vertex of the mesh and one of them once more is not pruned,
although its set is the whole vertex set; a range of that length is pruned
whatever its set is: on the disk with the 22 vertices 0, ..., 21 the range
that lists the vertex 0 three times and the vertices 1, ..., 19 once has a set
of 20 elements, of which the pruning keeps 10. -/
theorem pruning_trigger (pmesh : PolygonMesh) (vertices : List vertex_descriptor) :
    (fair_all_mesh pmesh vertices = true ↔ vertices.length = pmesh.vertices.length) ∧
    (vertices.length = pmesh.vertices.length →
      interior_vertices pmesh vertices = remove_vertices (set_of_range vertices) 10) ∧
    (vertices.length ≠ pmesh.vertices.length →
      interior_vertices pmesh vertices = .ok (set_of_range vertices)) ∧
    (∀ v, v ∈ pmesh.vertices →
      interior_vertices pmesh (v :: pmesh.vertices) = .ok (set_of_range (v :: pmesh.vertices)) ∧
      ∀ u, u ∈ set_of_range (v :: pmesh.vertices) ↔ u ∈ pmesh.vertices) ∧
    (fair_all_mesh (disk 21) (0 :: 0 :: List.range 20) = true ∧
      set_of_range (0 :: 0 :: List.range 20) = List.range 20 ∧
      interior_vertices (disk 21) (0 :: 0 :: List.range 20) =
        .ok [0, 2, 4, 6, 8, 10, 12, 14, 16, 18]) := by
  have hiff : fair_all_mesh pmesh vertices = true ↔ vertices.length = pmesh.vertices.length := by
    simp [fair_all_mesh]
  refine ⟨hiff, ?_, ?_, ?_, ?_⟩
  · intro h
    unfold interior_vertices
    rw [if_pos (hiff.mpr h)]
  · intro h
    unfold interior_vertices
    rw [if_neg (fun hc => h (hiff.mp hc))]
  · intro v hv
    constructor
    · unfold interior_vertices
      have : fair_all_mesh pmesh (v :: pmesh.vertices) ≠ true := by
        simp [fair_all_mesh]
      rw [if_neg this]
    · intro u
      rw [mem_set_of_range, List.mem_cons]
      constructor
      · rintro (rfl | h)
        · exact hv
        · exact h
      · intro h; exact Or.inr h
  · exact ⟨by decide, by decide, by with_unfolding_all rfl⟩

theorem pruning_trigger_witness :
    ([0, 0, 1, 2] : List vertex_descriptor).length = tetrahedron.vertices.length ∧
    interior_vertices tetrahedron [0, 0, 1, 2] = remove_vertices (set_of_range [0, 0, 1, 2]) 10 :=
  ⟨by decide, (pruning_trigger tetrahedron [0, 0, 1, 2]).2.1 (by decide)⟩

/-! ## The rows annihilate constants -/

theorem foldl_leaf_x (pmesh : PolygonMesh) (weight_calculator : WeightCalculator)
    (row_id : Nat) (l : List (vertex_descriptor × ℚ)) (st : Row_state) :
    (l.foldl (fun s t => compute_row pmesh weight_calculator (fun _ => ⟨-1, 0, 0⟩)
      (fun _ => none) row_id 0 t.1 t.2 s) st).x = st.x + (l.map Prod.snd).sum := by
  induction l generalizing st with
  | nil => simp
  | cons t l ih =>
    rw [List.foldl_cons, ih]
    simp only [compute_row, List.map_cons, List.sum_cons]
    ring

/-- The multipliers of the calls at depth 0 add up to the multiplier times
the power of the Laplacian of the constant 1. -/
theorem compute_row_terms_sum (pmesh : PolygonMesh) (weight_calculator : WeightCalculator)
    (depth : Nat) (v : vertex_descriptor) (multiplier : ℚ) :
    ((compute_row_terms pmesh weight_calculator depth v multiplier).map Prod.snd).sum =
      multiplier * laplacian_pow pmesh weight_calculator depth (fun _ => 1) v := by
  have h := congrArg Row_state.x (compute_row_eq_foldl_terms pmesh weight_calculator
    (fun _ => ⟨-1, 0, 0⟩) (fun _ => none) 0 depth v multiplier ⟨Solver_matrix.create 0, 0, 0, 0⟩)
  rw [compute_row_x, foldl_leaf_x] at h
  simp only [zero_add, if_true, neg_neg] at h
  exact h.symm

/-- C23: at a depth of at least 1 the coefficients that `compute_row` produces
add up to zero over the whole stencil: the multipliers of its calls at depth 0
do, and so do the coefficients `a` of any expansion of the row over a finite
set `U`.  In the system that `fair` assembles, if every vertex has the same
x-coordinate `e`, the constant vector `(e, ..., e)` satisfies `A * X = Bx`
(likewise for y and z), and moving every vertex without id by `(tx, ty, tz)`
adds to `Bx`, `By`, `Bz` the row sums of `A` times `tx`, `ty`, `tz`. -/
theorem assembled_operator_annihilates_constants (pmesh : PolygonMesh)
    (weight_calculator : WeightCalculator) (depth : Nat) (hd : 1 ≤ depth) :
    (∀ (v : vertex_descriptor) (multiplier : ℚ),
      ((compute_row_terms pmesh weight_calculator depth v multiplier).map Prod.snd).sum = 0) ∧
    (∀ (v : vertex_descriptor) (multiplier : ℚ) (U : Finset vertex_descriptor)
      (a : vertex_descriptor → ℚ),
      (∀ f, multiplier * laplacian_pow pmesh weight_calculator depth f v
        = ∑ u ∈ U, a u * f u) →
      ∑ u ∈ U, a u = 0) ∧
    (∀ (ppmap : VertexPointMap) (interior : List vertex_descriptor) (m : Vertex_id_map),
      interior.Nodup → build_vertex_id_map interior 0 (fun _ => none) = some m →
      ∀ k, k < interior.length →
      (∀ e, (∀ u, (ppmap u).x = e) →
        mul_vec (assemble_rows pmesh weight_calculator ppmap depth interior
            (initial_system m interior.length)).A ⟨interior.length, fun _ => e⟩ k =
          (assemble_rows pmesh weight_calculator ppmap depth interior
            (initial_system m interior.length)).Bx.coef k) ∧
      (∀ e, (∀ u, (ppmap u).y = e) →
        mul_vec (assemble_rows pmesh weight_calculator ppmap depth interior
            (initial_system m interior.length)).A ⟨interior.length, fun _ => e⟩ k =
          (assemble_rows pmesh weight_calculator ppmap depth interior
            (initial_system m interior.length)).By.coef k) ∧
      (∀ e, (∀ u, (ppmap u).z = e) →
        mul_vec (assemble_rows pmesh weight_calculator ppmap depth interior
            (initial_system m interior.length)).A ⟨interior.length, fun _ => e⟩ k =
          (assemble_rows pmesh weight_calculator ppmap depth interior
            (initial_system m interior.length)).Bz.coef k) ∧
      ∀ tx ty tz : ℚ,
        (assemble_rows pmesh weight_calculator
            (fun u => if m u = none then
              ⟨(ppmap u).x + tx, (ppmap u).y + ty, (ppmap u).z + tz⟩ else ppmap u)
            depth interior (initial_system m interior.length)).Bx.coef k =
          (assemble_rows pmesh weight_calculator ppmap depth interior
            (initial_system m interior.length)).Bx.coef k +
          tx * ∑ c ∈ Finset.range interior.length,
            (assemble_rows pmesh weight_calculator ppmap depth interior
              (initial_system m interior.length)).A.coef k c ∧
        (assemble_rows pmesh weight_calculator
            (fun u => if m u = none then
              ⟨(ppmap u).x + tx, (ppmap u).y + ty, (ppmap u).z + tz⟩ else ppmap u)
            depth interior (initial_system m interior.length)).By.coef k =
          (assemble_rows pmesh weight_calculator ppmap depth interior
            (initial_system m interior.length)).By.coef k +
          ty * ∑ c ∈ Finset.range interior.length,
            (assemble_rows pmesh weight_calculator ppmap depth interior
              (initial_system m interior.length)).A.coef k c ∧
        (assemble_rows pmesh weight_calculator
            (fun u => if m u = none then
              ⟨(ppmap u).x + tx, (ppmap u).y + ty, (ppmap u).z + tz⟩ else ppmap u)
            depth interior (initial_system m interior.length)).Bz.coef k =
          (assemble_rows pmesh weight_calculator ppmap depth interior
            (initial_system m interior.length)).Bz.coef k +
          tz * ∑ c ∈ Finset.range interior.length,
            (assemble_rows pmesh weight_calculator ppmap depth interior
              (initial_system m interior.length)).A.coef k c) := by
  obtain ⟨d, rfl⟩ : ∃ d, depth = d + 1 := ⟨depth - 1, by omega⟩
  refine ⟨?_, ?_, ?_⟩
  · intro v multiplier
    rw [compute_row_terms_sum, laplacian_pow_const, mul_zero]
  · intro v multiplier U a ha
    have h := ha (fun _ => 1)
    rw [laplacian_pow_const, mul_zero] at h
    rw [h]
    exact Finset.sum_congr rfl (fun u _ => (mul_one _).symm)
  · intro ppmap interior m hnd hb k hk
    obtain ⟨hget, hout, hdim, hrows⟩ := assembled_rows pmesh weight_calculator ppmap (d + 1)
      interior hnd m hb
    obtain ⟨hA, hBx, hBy, hBz⟩ := hrows k hk
    have hsome : ∀ u j, m u = some j → j < interior.length := by
      intro u j huj
      have hu : u ∈ interior := by
        by_contra hc
        rw [hout u hc] at huj
        exact absurd huj (by simp)
      obtain ⟨l, hl, rfl⟩ := List.mem_iff_get.mp hu
      rw [hget l l.isLt] at huj
      injection huj with huj
      subst huj
      exact l.isLt
    -- the value of a row on a coordinate that is constant
    have hconst : ∀ (q : vertex_descriptor → ℚ) (e : ℚ), (∀ u, q u = e) →
        ∑ c ∈ Finset.range interior.length,
          (assemble_rows pmesh weight_calculator ppmap (d + 1) interior
            (initial_system m interior.length)).A.coef k c * e =
        laplacian_pow pmesh weight_calculator (d + 1)
          (fun u => if m u = none then -(q u) else 0) (interior.get ⟨k, hk⟩) := by
      intro q e hq
      have h := laplacian_pow_row pmesh weight_calculator (d + 1) interior.length m
        (interior.get ⟨k, hk⟩) q (fun _ => e) (fun _ => e) _ _ hA rfl
        (fun u j huj => ⟨hsome u j huj, rfl⟩) (fun u _ => (hq u).symm)
      rw [laplacian_pow_const] at h
      linarith
    have hmul : ∀ e : ℚ,
        mul_vec (assemble_rows pmesh weight_calculator ppmap (d + 1) interior
            (initial_system m interior.length)).A ⟨interior.length, fun _ => e⟩ k =
        ∑ c ∈ Finset.range interior.length,
          (assemble_rows pmesh weight_calculator ppmap (d + 1) interior
            (initial_system m interior.length)).A.coef k c * e := by
      intro e
      rw [mul_vec_eq_sum, hdim]
    -- the right-hand side after the translation
    have hshift : ∀ (q : vertex_descriptor → ℚ) (t : ℚ),
        laplacian_pow pmesh weight_calculator (d + 1)
          (fun u => if m u = none then -(q u + t) else 0) (interior.get ⟨k, hk⟩) =
        laplacian_pow pmesh weight_calculator (d + 1)
          (fun u => if m u = none then -(q u) else 0) (interior.get ⟨k, hk⟩) +
        t * ∑ c ∈ Finset.range interior.length,
          (assemble_rows pmesh weight_calculator ppmap (d + 1) interior
            (initial_system m interior.length)).A.coef k c := by
      intro q t
      have h1 := hconst (fun _ => 1) 1 (fun _ => rfl)
      simp only [mul_one] at h1
      rw [h1]
      have hfun : (fun u => if m u = none then -(q u + t) else (0 : ℚ)) =
          fun u => (if m u = none then -(q u) else 0) +
            t * (if m u = none then -(1 : ℚ) else 0) := by
        funext u
        split_ifs <;> ring
      rw [hfun, laplacian_pow_add, laplacian_pow_smul]
    refine ⟨fun e he => ?_, fun e he => ?_, fun e he => ?_, fun tx ty tz => ?_⟩
    · rw [hmul, hconst (fun u => (ppmap u).x) e he, hBx]
    · rw [hmul, hconst (fun u => (ppmap u).y) e he, hBy]
    · rw [hmul, hconst (fun u => (ppmap u).z) e he, hBz]
    · obtain ⟨_, _, _, hrows'⟩ := assembled_rows pmesh weight_calculator
        (fun u => if m u = none then
          ⟨(ppmap u).x + tx, (ppmap u).y + ty, (ppmap u).z + tz⟩ else ppmap u)
        (d + 1) interior hnd m hb
      obtain ⟨_, hBx', hBy', hBz'⟩ := hrows' k hk
      have hx : (fun u => if m u = none then
          -((if m u = none then
            (⟨(ppmap u).x + tx, (ppmap u).y + ty, (ppmap u).z + tz⟩ : Point_3)
            else ppmap u).x) else (0 : ℚ)) =
          fun u => if m u = none then -((ppmap u).x + tx) else 0 := by
        funext u
        split_ifs <;> rfl
      have hy : (fun u => if m u = none then
          -((if m u = none then
            (⟨(ppmap u).x + tx, (ppmap u).y + ty, (ppmap u).z + tz⟩ : Point_3)
            else ppmap u).y) else (0 : ℚ)) =
          fun u => if m u = none then -((ppmap u).y + ty) else 0 := by
        funext u
        split_ifs <;> rfl
      have hz : (fun u => if m u = none then
          -((if m u = none then
            (⟨(ppmap u).x + tx, (ppmap u).y + ty, (ppmap u).z + tz⟩ : Point_3)
            else ppmap u).z) else (0 : ℚ)) =
          fun u => if m u = none then -((ppmap u).z + tz) else 0 := by
        funext u
        split_ifs <;> rfl
      refine ⟨?_, ?_, ?_⟩
      · rw [hBx', hBx, hx]
        exact hshift (fun u => (ppmap u).x) tx
      · rw [hBy', hBy, hy]
        exact hshift (fun u => (ppmap u).y) ty
      · rw [hBz', hBz, hz]
        exact hshift (fun u => (ppmap u).z) tz

theorem assembled_operator_annihilates_constants_witness :
    1 ≤ 2 ∧ ((compute_row_terms tetrahedron uniform_weights 2 0 1).map Prod.snd).sum = 0 :=
  ⟨by decide,
    (assembled_operator_annihilates_constants tetrahedron uniform_weights 2 (by decide)).1 0 1⟩

end Fair_Polyhedron_3

namespace Halfspace_intersection_3

/-! ## The dual construction -/

theorem map_all_getElem {α β : Type} (f : α → Option β) (l : List α) (r : List β)
    (h : map_all f l = some r) (i : Nat) (a : α) (b : β)
    (ha : l[i]? = some a) (hb : r[i]? = some b) : f a = some b := by
  induction l generalizing r i with
  | nil => simp at ha
  | cons x l ih =>
    simp only [map_all] at h
    cases hx : f x with
    | none => simp [hx] at h
    | some y =>
      cases hl : map_all f l with
      | none => simp [hx, hl] at h
      | some r' =>
        simp only [hx, hl, Option.some.injEq] at h
        subst h
        cases i with
        | zero =>
          simp only [List.getElem?_cons_zero, Option.some.injEq] at ha hb
          rw [← ha, ← hb, hx]
        | succ i =>
          simp only [List.getElem?_cons_succ] at ha hb
          exact ih r' hl i ha hb

theorem dual_of_plane_eq_some (p : Plane_3) (q : Point_3) (h : dual_of_plane p = some q) :
    p.d ≠ 0 ∧ q = ⟨p.a / (-p.d), p.b / (-p.d), p.c / (-p.d)⟩ := by
  unfold dual_of_plane Vector_3.div at h
  by_cases hd : -p.d = 0
  · simp [hd] at h
  · simp only [if_neg hd, Option.map_some', Option.some.injEq] at h
    refine ⟨fun h0 => hd (by rw [h0, neg_zero]), ?_⟩
    rw [← h]
    rfl

theorem dual_of_plane_of_ne_zero (p : Plane_3) (hd : p.d ≠ 0) :
    dual_of_plane p = some ⟨p.a / (-p.d), p.b / (-p.d), p.c / (-p.d)⟩ := by
  unfold dual_of_plane Vector_3.div
  rw [if_neg (neg_ne_zero.mpr hd)]
  rfl

/-- The core of the duality: if the dual point of an input plane lies on the
plane of a facet, the vertex emitted for the facet lies on the input plane. -/
theorem extreme_vertex_on_plane (origin : Point_3) (pi : Plane_3) (q : Point_3)
    (p : Plane_3) (ep : Point_3) (hq : dual_point origin pi = some q) (hon : p.has_on q)
    (hep : dual_of_plane p = some ep) :
    pi.has_on ⟨ep.x + origin.x, ep.y + origin.y, ep.z + origin.z⟩ := by
  obtain ⟨hd', rfl⟩ := dual_of_plane_eq_some _ _ hq
  obtain ⟨hd, rfl⟩ := dual_of_plane_eq_some _ _ hep
  simp only [Plane_3.has_on, translated_plane] at hon hd' ⊢
  have hdn : -p.d ≠ 0 := neg_ne_zero.mpr hd
  generalize ht : pi.d + origin.x * pi.a + origin.y * pi.b + origin.z * pi.c = t at hon hd'
  have htn : -t ≠ 0 := neg_ne_zero.mpr hd'
  have h1 : p.a * pi.a + p.b * pi.b + p.c * pi.c - p.d * t = 0 := by
    have e : (p.a * (pi.a / -t) + p.b * (pi.b / -t) + p.c * (pi.c / -t) + p.d) * (-t) =
        p.a * pi.a + p.b * pi.b + p.c * pi.c - p.d * t := by
      field_simp
      ring
    rw [← e, hon, zero_mul]
  have h2 : (pi.a * (p.a / -p.d + origin.x) + pi.b * (p.b / -p.d + origin.y) +
      pi.c * (p.c / -p.d + origin.z) + pi.d) * (-p.d) =
      p.a * pi.a + p.b * pi.b + p.c * pi.c - p.d * t := by
    rw [← ht]
    field_simp
    ring
  rw [h1] at h2
  rcases mul_eq_zero.mp h2 with h3 | h3
  · exact h3
  · exact absurd h3 hdn

theorem plane_from_points_has_on (p q r : Point_3) :
    (plane_from_points p q r).has_on p ∧ (plane_from_points p q r).has_on q ∧
      (plane_from_points p q r).has_on r := by
  simp only [Plane_3.has_on, plane_from_points]
  refine ⟨?_, ?_, ?_⟩ <;> ring

/-- C16: let `plane_of_points` build, in any scaling and orientation, a plane
through its three arguments.  If `q1`, `q2`, `q3` are the dual points of the
input planes `pi1`, `pi2`, `pi3` for the given origin and the plane `p` built
from them has `p.d() != 0`, the vertex emitted for a facet with these three
points exists and lies on `pi1`, `pi2` and `pi3`.  In a run of
`halfspace_intersection_with_constructions_3` that returns, the vertex number
`i` of the result lies on every input plane whose dual point is one of the
three points read from facet number `i` of the hull. -/
theorem dual_vertex_on_input_planes
    (plane_of_points : Point_3 → Point_3 → Point_3 → Plane_3)
    (hthrough : ∀ p q r, (plane_of_points p q r).has_on p ∧
      (plane_of_points p q r).has_on q ∧ (plane_of_points p q r).has_on r)
    (origin : Point_3) :
    (∀ (pi1 pi2 pi3 : Plane_3) (q1 q2 q3 : Point_3),
      dual_point origin pi1 = some q1 → dual_point origin pi2 = some q2 →
      dual_point origin pi3 = some q3 → (plane_of_points q1 q2 q3).d ≠ 0 →
      ∃ e, extreme_vertex plane_of_points origin (q1, q2, q3) = some e ∧
        pi1.has_on e ∧ pi2.has_on e ∧ pi3.has_on e) ∧
    (∀ (convex_hull_3 : List Point_3 → Polyhedron) (planes : List Plane_3)
      (P : Dual_polyhedron),
      halfspace_intersection_with_constructions_3 convex_hull_3 plane_of_points planes origin
        = some P →
      ∃ dual_points, map_all (dual_point origin) planes = some dual_points ∧
        ∀ (i : Nat) (f : Point_3 × Point_3 × Point_3) (e : Point_3),
          (convex_hull_3 dual_points).facets[i]? = some f → P.vertices[i]? = some e →
          ∀ pi ∈ planes, ∀ q, dual_point origin pi = some q →
            (q = f.1 ∨ q = f.2.1 ∨ q = f.2.2) → pi.has_on e) := by
  have hfacet : ∀ (f : Point_3 × Point_3 × Point_3) (e : Point_3),
      extreme_vertex plane_of_points origin f = some e →
      ∀ (pi : Plane_3) (q : Point_3), dual_point origin pi = some q →
        (q = f.1 ∨ q = f.2.1 ∨ q = f.2.2) → pi.has_on e := by
    intro f e he pi q hq hmem
    unfold extreme_vertex at he
    simp only at he
    cases hep : dual_of_plane (plane_of_points f.1 f.2.1 f.2.2) with
    | none => simp [hep] at he
    | some ep =>
      simp only [hep, Option.some.injEq] at he
      rw [← he]
      obtain ⟨t1, t2, t3⟩ := hthrough f.1 f.2.1 f.2.2
      have hon : (plane_of_points f.1 f.2.1 f.2.2).has_on q := by
        rcases hmem with rfl | rfl | rfl
        · exact t1
        · exact t2
        · exact t3
      exact extreme_vertex_on_plane origin pi q _ ep hq hon hep
  constructor
  · intro pi1 pi2 pi3 q1 q2 q3 h1 h2 h3 hd
    have hex : extreme_vertex plane_of_points origin (q1, q2, q3) =
        some ⟨(plane_of_points q1 q2 q3).a / (-(plane_of_points q1 q2 q3).d) + origin.x,
          (plane_of_points q1 q2 q3).b / (-(plane_of_points q1 q2 q3).d) + origin.y,
          (plane_of_points q1 q2 q3).c / (-(plane_of_points q1 q2 q3).d) + origin.z⟩ := by
      unfold extreme_vertex
      simp only [dual_of_plane_of_ne_zero _ hd]
    exact ⟨_, hex, hfacet _ _ hex pi1 q1 h1 (Or.inl rfl),
      hfacet _ _ hex pi2 q2 h2 (Or.inr (Or.inl rfl)),
      hfacet _ _ hex pi3 q3 h3 (Or.inr (Or.inr rfl))⟩
  · intro convex_hull_3 planes P hP
    unfold halfspace_intersection_with_constructions_3 at hP
    cases hdp : map_all (dual_point origin) planes with
    | none => simp [hdp] at hP
    | some dual_points =>
      simp only [hdp, build_dual_polyhedron] at hP
      cases hv : map_all (extreme_vertex plane_of_points origin)
          (convex_hull_3 dual_points).facets with
      | none => simp [hv] at hP
      | some vertices =>
        simp only [hv, Option.some.injEq] at hP
        subst hP
        refine ⟨dual_points, rfl, ?_⟩
        intro i f e hf he pi _ q hq hmem
        exact hfacet f e (map_all_getElem _ _ _ hv i f e hf he) pi q hq hmem

theorem dual_vertex_on_input_planes_witness :
    (∀ p q r, (plane_from_points p q r).has_on p ∧ (plane_from_points p q r).has_on q ∧
      (plane_from_points p q r).has_on r) ∧
    ∃ e, extreme_vertex plane_from_points ⟨1 / 10, 0, -1 / 5⟩
        (⟨-10 / 11, 0, 0⟩, ⟨0, -1, 0⟩, ⟨0, 0, -5 / 4⟩) = some e ∧
      (⟨-1, 0, 0, -1⟩ : Plane_3).has_on e ∧ (⟨0, -1, 0, -1⟩ : Plane_3).has_on e ∧
      (⟨0, 0, -1, -1⟩ : Plane_3).has_on e :=
  ⟨plane_from_points_has_on,
    (dual_vertex_on_input_planes plane_from_points plane_from_points_has_on
      ⟨1 / 10, 0, -1 / 5⟩).1 ⟨-1, 0, 0, -1⟩ ⟨0, -1, 0, -1⟩ ⟨0, 0, -1, -1⟩
      ⟨-10 / 11, 0, 0⟩ ⟨0, -1, 0⟩ ⟨0, 0, -5 / 4⟩
      (by decide!) (by decide!) (by decide!) (by decide!)⟩

/-! ## The dual points under the precondition -/

end Halfspace_intersection_3

namespace Circular_kernel_3

/-! ## The extremities of a line arc -/

theorem lexicographic_compare_xyz_neg (p1 p2 p3 q1 q2 q3 : Int) :
    lexicographic_compare_xyz (p1, p2, p3) (q1, q2, q3) < 0 ↔
      p1 < q1 ∨ (p1 = q1 ∧ (p2 < q2 ∨ (p2 = q2 ∧ p3 < q3))) := by
  unfold lexicographic_compare_xyz
  simp only
  split_ifs <;> constructor <;> intro h <;> omega

theorem lexicographic_compare_xyz_pos (p1 p2 p3 q1 q2 q3 : Int) :
    0 < lexicographic_compare_xyz (p1, p2, p3) (q1, q2, q3) ↔
      q1 < p1 ∨ (p1 = q1 ∧ (q2 < p2 ∨ (p2 = q2 ∧ q3 < p3))) := by
  unfold lexicographic_compare_xyz
  simp only
  split_ifs <;> constructor <;> intro h <;> omega

theorem lexicographic_compare_xyz_zero (p1 p2 p3 q1 q2 q3 : Int) :
    lexicographic_compare_xyz (p1, p2, p3) (q1, q2, q3) = 0 ↔
      p1 = q1 ∧ p2 = q2 ∧ p3 = q3 := by
  unfold lexicographic_compare_xyz
  simp only
  split_ifs <;> constructor <;> intro h <;>
    first
    | omega
    | exact absurd h (by decide)

theorem lexicographic_compare_xyz_total : Total_order lexicographic_compare_xyz := by
  refine ⟨?_, ?_, ?_⟩
  · rintro ⟨p1, p2, p3⟩ ⟨q1, q2, q3⟩
    rw [lexicographic_compare_xyz_zero]
    simp only [Prod.mk.injEq]
  · rintro ⟨p1, p2, p3⟩ ⟨q1, q2, q3⟩
    rw [lexicographic_compare_xyz_neg, lexicographic_compare_xyz_pos]
    constructor <;> intro h <;> omega
  · rintro ⟨p1, p2, p3⟩ ⟨q1, q2, q3⟩ ⟨r1, r2, r3⟩
    rw [lexicographic_compare_xyz_neg, lexicographic_compare_xyz_neg,
      lexicographic_compare_xyz_neg]
    intro h1 h2
    omega

/-- A call of `begin_less_xyz_than_end` on an arc whose cache is consistent:
the result is the comparison of the source and the target, the triple is
kept, the cache is filled and consistent. -/
theorem begin_less_xyz_than_end_spec {L P : Type} (compare_xyz : P → P → Int)
    (b : Line_arc_3 L P) (hb : b.flag_invariant compare_xyz) :
    (b.begin_less_xyz_than_end compare_xyz).1 = decide (compare_xyz b.source b.target < 0) ∧
    (b.begin_less_xyz_than_end compare_xyz).2.base = b.base ∧
    (b.begin_less_xyz_than_end compare_xyz).2.flag_invariant compare_xyz ∧
    (b.begin_less_xyz_than_end compare_xyz).2.begin_less_xyz_than_end_flag ≠ 0 := by
  unfold Line_arc_3.flag_invariant at hb
  unfold Line_arc_3.begin_less_xyz_than_end Line_arc_3.flag_invariant Line_arc_3.source
    Line_arc_3.target
  unfold Line_arc_3.source Line_arc_3.target at hb
  rcases hb with h0 | ⟨h2, hlt⟩ | ⟨h1, hnlt⟩
  · by_cases hlt : compare_xyz b.base.2.1 b.base.2.2 < 0
    · simp [h0, hlt]
    · simp [h0, hlt]
  · simp [h2, hlt]
  · simp [h1, hnlt]

theorem create_eq_some {L P : Type} [DecidableEq P] (has_on : L → P → Bool) (l : L) (s t : P)
    (hs : has_on l s = true) (ht : has_on l t = true) (hst : s ≠ t) :
    Line_arc_3.create has_on l s t = some ⟨(l, s, t), 0⟩ := by
  simp [Line_arc_3.create, hs, ht, hst]

/-- Every object reached from an arc whose cache is consistent has the triple
of that arc and a consistent cache. -/
theorem reached_invariant {L P : Type} (compare_xyz : P → P → Int) (a b : Line_arc_3 L P)
    (ha : a.flag_invariant compare_xyz) (hr : Line_arc_3.Reached compare_xyz a b) :
    b.base = a.base ∧ b.flag_invariant compare_xyz := by
  induction hr with
  | start => exact ⟨rfl, ha⟩
  | begin_less b _ ih =>
    obtain ⟨_, h2, h3, _⟩ := begin_less_xyz_than_end_spec compare_xyz b ih.2
    exact ⟨h2.trans ih.1, h3⟩
  | lower b _ ih =>
    obtain ⟨_, h2, h3, _⟩ := begin_less_xyz_than_end_spec compare_xyz b ih.2
    exact ⟨h2.trans ih.1, h3⟩
  | higher b _ ih =>
    obtain ⟨_, h2, h3, _⟩ := begin_less_xyz_than_end_spec compare_xyz b ih.2
    exact ⟨h2.trans ih.1, h3⟩

/-- The two extremities of an arc whose cache is consistent, in terms of the
comparison of its endpoints. -/
theorem extremities_eq {L P : Type} (compare_xyz : P → P → Int) (b : Line_arc_3 L P)
    (hb : b.flag_invariant compare_xyz) :
    (b.lower_xyz_extremity compare_xyz).1 =
      (if compare_xyz b.base.2.1 b.base.2.2 < 0 then b.base.2.1 else b.base.2.2) ∧
    (b.higher_xyz_extremity compare_xyz).1 =
      (if compare_xyz b.base.2.1 b.base.2.2 < 0 then b.base.2.2 else b.base.2.1) := by
  obtain ⟨h1, h2, _, _⟩ := begin_less_xyz_than_end_spec compare_xyz b hb
  unfold Line_arc_3.lower_xyz_extremity Line_arc_3.higher_xyz_extremity
  simp only [h1, Line_arc_3.source, Line_arc_3.target, h2, decide_eq_true_eq]
  exact ⟨trivial, trivial⟩

/-- C25: a line arc is built from a line and two distinct points `s` and `t`
of the line, and `compare_xyz` is a total order.  The arc has source `s`,
target `t` and an empty cache.  In every object that the arc becomes by calls
of `begin_less_xyz_than_end`, `lower_xyz_extremity` and
`higher_xyz_extremity`, the triple is that of the arc and the flag is 0, or 2
with the source smaller than the target, or 1 with the source not smaller
than the target; there the two extremities are `s` and `t` in some order, the
lower one is smaller than the higher one, and the three members return what
they return on the arc as built. -/
theorem line_arc_extremities_in_xyz_order {L P : Type} [DecidableEq P]
    (has_on : L → P → Bool) (compare_xyz : P → P → Int) (htot : Total_order compare_xyz)
    (l : L) (s t : P) (hs : has_on l s = true) (ht : has_on l t = true) (hst : s ≠ t) :
    ∃ a, Line_arc_3.create has_on l s t = some a ∧
      a.supporting_line = l ∧ a.source = s ∧ a.target = t ∧
      a.begin_less_xyz_than_end_flag = 0 ∧
      ∀ b, Line_arc_3.Reached compare_xyz a b →
        b.base = a.base ∧
        (b.begin_less_xyz_than_end_flag = 0 ∨
          (b.begin_less_xyz_than_end_flag = 2 ∧ compare_xyz b.source b.target < 0) ∨
          (b.begin_less_xyz_than_end_flag = 1 ∧ ¬ compare_xyz b.source b.target < 0)) ∧
        (((b.lower_xyz_extremity compare_xyz).1 = s ∧
            (b.higher_xyz_extremity compare_xyz).1 = t) ∨
          ((b.lower_xyz_extremity compare_xyz).1 = t ∧
            (b.higher_xyz_extremity compare_xyz).1 = s)) ∧
        compare_xyz (b.lower_xyz_extremity compare_xyz).1
          (b.higher_xyz_extremity compare_xyz).1 < 0 ∧
        (b.begin_less_xyz_than_end compare_xyz).1 =
          (a.begin_less_xyz_than_end compare_xyz).1 ∧
        (b.lower_xyz_extremity compare_xyz).1 = (a.lower_xyz_extremity compare_xyz).1 ∧
        (b.higher_xyz_extremity compare_xyz).1 = (a.higher_xyz_extremity compare_xyz).1 := by
  refine ⟨⟨(l, s, t), 0⟩, create_eq_some has_on l s t hs ht hst, rfl, rfl, rfl, rfl, ?_⟩
  intro b hr
  have ha : (⟨(l, s, t), 0⟩ : Line_arc_3 L P).flag_invariant compare_xyz := Or.inl rfl
  obtain ⟨hbase, hinv⟩ := reached_invariant compare_xyz _ b ha hr
  obtain ⟨hlo, hhi⟩ := extremities_eq compare_xyz b hinv
  obtain ⟨hlo0, hhi0⟩ := extremities_eq compare_xyz _ ha
  obtain ⟨hb1, _, _, _⟩ := begin_less_xyz_than_end_spec compare_xyz b hinv
  obtain ⟨ha1, _, _, _⟩ := begin_less_xyz_than_end_spec compare_xyz _ ha
  rw [hbase] at hlo hhi
  simp only at hlo hhi hlo0 hhi0
  refine ⟨hbase, hinv, ?_, ?_, ?_, hlo.trans hlo0.symm, hhi.trans hhi0.symm⟩
  · rw [hlo, hhi]
    by_cases hlt : compare_xyz s t < 0
    · rw [if_pos hlt, if_pos hlt]
      exact Or.inl ⟨rfl, rfl⟩
    · rw [if_neg hlt, if_neg hlt]
      exact Or.inr ⟨rfl, rfl⟩
  · rw [hlo, hhi]
    by_cases hlt : compare_xyz s t < 0
    · rw [if_pos hlt, if_pos hlt]
      exact hlt
    · rw [if_neg hlt, if_neg hlt]
      obtain ⟨hzero, hswap, _⟩ := htot
      have hne : compare_xyz s t ≠ 0 := fun h0 => hst ((hzero s t).mp h0)
      have hpos : 0 < compare_xyz s t := by omega
      exact (hswap t s).mpr hpos
  · rw [hb1, ha1]
    simp only [Line_arc_3.source, Line_arc_3.target, hbase]

theorem line_arc_extremities_in_xyz_order_witness :
    line_has_on ((0, 0, 0), (1, 2, 3)) (2, 4, 6) = true ∧
    line_has_on ((0, 0, 0), (1, 2, 3)) (1, 2, 3) = true ∧
    ((2, 4, 6) : Int × Int × Int) ≠ (1, 2, 3) ∧
    ∃ a, Line_arc_3.create line_has_on ((0, 0, 0), (1, 2, 3)) (2, 4, 6) (1, 2, 3) = some a ∧
      a.source = (2, 4, 6) ∧ a.target = (1, 2, 3) ∧
      lexicographic_compare_xyz (a.lower_xyz_extremity lexicographic_compare_xyz).1
        (a.higher_xyz_extremity lexicographic_compare_xyz).1 < 0 := by
  obtain ⟨a, ha, _, hsrc, htgt, _, hall⟩ := line_arc_extremities_in_xyz_order line_has_on
    lexicographic_compare_xyz lexicographic_compare_xyz_total ((0, 0, 0), (1, 2, 3))
    (2, 4, 6) (1, 2, 3) (by decide) (by decide) (by decide)
  exact ⟨by decide, by decide, by decide, a, ha, hsrc, htgt,
    (hall a Line_arc_3.Reached.start).2.2.2.1⟩

end Circular_kernel_3
